import Mathlib

/-!
# cppkg: the dependency resolution engine

A shallow embedding of the resolution engine of `cppkg`
(`pkg/resolver/install.go`, `pkg/resolver/conflicts/resolve.go`,
`pkg/resolver/dependency/discover.go`, `pkg/utils/utils.go`) together with the
properties established about it.

Conventions of the embedding.

* Go strings are Lean strings; `strings.Split` works on the character list.
* A Go `map[string]T` is an association list; reading a missing key gives the
  zero value, and a `range` over a map visits its entries in an order chosen by
  a `MapOrder` (any permutation).
* A Go function that may return an `error` returns `Except Err _`; a function
  that may also stop with a run-time panic returns `Outcome _`.
* The environment (revision source, semantic-version library, file system
  failures) is a fixed oracle for the duration of one run.
* The transient directories made by `os.MkdirTemp` are an explicit state
  component `TempFS`.
* A `Trace` records what a run did (declarations processed, names enqueued,
  names probed, resolver calls). The engine writes it and never reads it; the
  statements about runs are phrased over it.
* The work-queue loop of discovery takes a bound on its iterations; it returns
  `none` when the bound does not suffice.
-/

namespace Cppkg

/-! ## Errors and outcomes -/

/-- The errors returned by the engine, one constructor per `return ... err` site. -/
inductive Err where
  /-- `os.MkdirTemp` failed. -/
  | mkdirTemp
  /-- `git.Clone` failed for the URL. -/
  | clone (url : String)
  /-- "failed to list tags". -/
  | listTags (url : String)
  /-- "version '%s' is not a valid semver range and not a valid tag/commit". -/
  | badRef (constraint : String)
  /-- "no version found that satisfies constraint '%s' for %s". -/
  | noVersion (constraint url : String)
  /-- "could not find commit for version %s". -/
  | noCommit (version : String)
  /-- "could not checkout commit %s". -/
  | checkout (commit : String)
  /-- "could not temporarily resolve %s: %w". -/
  | tempResolve (name : String) (inner : Err)
  /-- "could not read cppkg.json for %s". -/
  | readManifest (name : String)
  /-- "resolved version %s for %s is not a valid semver". -/
  | notSemver (resolved name : String)
  /-- `config.LoadConfig` failed. -/
  | loadConfig
  /-- `config.SaveConfig` failed. -/
  | saveConfig
  /-- "invalid package format. Use 'url#version'". -/
  | invalidFormat
  /-- "package %s not found in cppkg.json". -/
  | notFound (name : String)
  /-- "failed to clean modules directory". -/
  | cleanModules
  /-- "failed during dependency discovery: %w". -/
  | discovery (inner : Err)
  /-- "failed during version resolution: %w". -/
  | resolution (inner : Err)
  /-- "failed to create modules directory". -/
  | mkdirModules
  /-- "failed to install package %s: %w". -/
  | installPkg (name : String) (inner : Err)
  /-- A file-system step of `installPackage` failed. -/
  | copy (stage : String)
  /-- `config.SaveLockfile` failed. -/
  | saveLock
  /-- "failed to generate cmake file". -/
  | cmake
  /-- "error running post-install hooks". -/
  | hooks
  deriving DecidableEq, Repr

deriving instance DecidableEq for Except

/-- Result of a Go call that can return a value, return an error, or panic. -/
inductive Outcome (α : Type) where
  | ok (a : α)
  | error (e : Err)
  | panic
  deriving DecidableEq, Repr

/-- True when the outcome is a returned error. -/
def Outcome.isError {α : Type} : Outcome α → Bool
  | .error _ => true
  | _ => false

/-- True when the outcome is a returned value. -/
def Outcome.isOk {α : Type} : Outcome α → Bool
  | .ok _ => true
  | _ => false

/-! ## Strings -/

/-- The pieces of a character list between occurrences of `sep`
(`strings.Split(s, sep)` for a one-character separator). -/
def splitChar (sep : Char) : List Char → List (List Char)
  | [] => [[]]
  | c :: cs =>
    if c = sep then [] :: splitChar sep cs
    else
      match splitChar sep cs with
      | [] => [[c]]
      | p :: ps => (c :: p) :: ps

/-- `strings.Split(s, "#")`. -/
def splitHash (s : String) : List String :=
  (splitChar '#' s.toList).map String.mk

/-- `parsePkgStr` of install.go: `parts := strings.Split(pkgStr, "#")` followed by
`return parts[0], parts[1]`. The result `none` is the index-out-of-range panic
of `parts[1]`. -/
def parsePkgStr (pkgStr : String) : Option (String × String) :=
  match splitHash pkgStr with
  | p0 :: p1 :: _ => some (p0, p1)
  | _ => none

/-- `utils.ParsePkgStr`: the same body as `parsePkgStr`. -/
def ParsePkgStr (pkgStr : String) : Option (String × String) :=
  match splitHash pkgStr with
  | p0 :: p1 :: _ => some (p0, p1)
  | _ => none

/-! ## Go maps -/

/-- A Go `map[string]β` as an association list. -/
abbrev GoMap (β : Type) := List (String × β)

/-- Lookup `m[k]` with presence flag. -/
def GoMap.get? {β : Type} : GoMap β → String → Option β
  | [], _ => none
  | (k, v) :: m, key => if k = key then some v else GoMap.get? m key

/-- Assignment `m[k] = v`. -/
def GoMap.set {β : Type} : GoMap β → String → β → GoMap β
  | [], key, v => [(key, v)]
  | (k, w) :: m, key, v => if k = key then (k, v) :: m else (k, w) :: GoMap.set m key v

/-- Removal `delete(m, k)`. -/
def GoMap.delete {β : Type} (m : GoMap β) (key : String) : GoMap β :=
  m.filter (fun e => e.1 ≠ key)

/-- Read `m[k]` of a `map[string]string`: the empty string when absent. -/
def GoMap.getStr (m : GoMap String) (key : String) : String :=
  (m.get? key).getD ""

/-- Read `m[k]` of a `map[string][]string`: the nil slice when absent. -/
def GoMap.getList (m : GoMap (List String)) (key : String) : List String :=
  (m.get? key).getD []

/-- The keys of a map. -/
def GoMap.keys {β : Type} (m : GoMap β) : List String := m.map Prod.fst

/-- The order in which a `range` over a map visits its entries: some
permutation of the entries. -/
structure MapOrder where
  /-- The visiting order for a given map. -/
  order : {β : Type} → GoMap β → GoMap β
  /-- Every entry is visited exactly once. -/
  perm : ∀ {β : Type} (m : GoMap β), (order m).Perm m

/-- Visiting the entries in stored order. -/
def MapOrder.stored : MapOrder where
  order := fun m => m
  perm := fun m => List.Perm.refl m

/-- Visiting the entries in reverse stored order. -/
def MapOrder.reversed : MapOrder where
  order := fun m => m.reverse
  perm := fun m => List.reverse_perm m

/-! ## The semantic-version library -/

/-- A parsed version (`*semver.Version`): its place in the precedence order and
the string it was parsed from (`Original()`). -/
structure Version (K : Type) where
  key : K
  original : String
  deriving DecidableEq, Repr

/-- The semantic-version library (`github.com/Masterminds/semver/v3`) as used
by the engine, taken as a parameter. `K` is the type of precedence keys: two
versions compare by their keys, which are linearly ordered (the precedence
order of the library is total, build metadata apart). `C` is the type of
parsed range constraints. -/
structure Semver (K C : Type) where
  /-- The precedence key of a string that `semver.NewVersion` accepts. -/
  parseVersion : String → Option K
  /-- The range that `semver.NewConstraint` reads from a string. -/
  parseConstraint : String → Option C
  /-- `constraint.Check(v)`. -/
  check : C → Version K → Bool

section SemverOps

variable {K C : Type}

/-- `semver.NewVersion(s)`: the parsed version remembers `s` as its original. -/
def Semver.NewVersion (sv : Semver K C) (s : String) : Option (Version K) :=
  (sv.parseVersion s).map (fun k => { key := k, original := s })

/-- `v.GreaterThan(o)`. -/
def Version.GreaterThan [LinearOrder K] (v o : Version K) : Bool :=
  decide (o.key < v.key)

/-- A tag that parses as a version and satisfies the range. -/
def Semver.satisfies (sv : Semver K C) (c : C) (t : String) : Bool :=
  match sv.NewVersion t with
  | some v => sv.check c v
  | none => false

/-- The precedence key of a tag that parses. -/
def Semver.keyOf (sv : Semver K C) (t : String) : Option K := sv.parseVersion t

end SemverOps

/-! ## A small instance of the library

Plain `MAJOR.MINOR.PATCH` labels, with caret ranges `^M.m.p` and exact ranges
`M.m.p`. It is used to evaluate the engine on concrete inputs. -/

/-- Precedence keys of plain versions, ordered lexicographically. -/
abbrev PlainKey := ℕ ×ₗ (ℕ ×ₗ ℕ)

/-- A plain key from its three numbers. -/
def PlainKey.mk (a b c : ℕ) : PlainKey := toLex (a, toLex (b, c))

/-- A plain range: inclusive lower bound and exclusive upper bound, or an
exact version. -/
inductive PlainConstraint where
  | range (lo hi : PlainKey)
  | exact (k : PlainKey)
  deriving DecidableEq

/-- The value of a digit character. -/
def digitVal (c : Char) : Option ℕ :=
  if c.isDigit then some (c.toNat - '0'.toNat) else none

/-- Reads a non-empty run of decimal digits. -/
def parseNat (cs : List Char) : Option ℕ :=
  match cs with
  | [] => none
  | _ => cs.foldl (fun acc c => acc.bind (fun n => (digitVal c).map (fun d => 10 * n + d))) (some 0)

/-- Reads `M.m.p`. -/
def parsePlainKey (cs : List Char) : Option PlainKey :=
  match splitChar '.' cs with
  | [a, b, c] =>
    match parseNat a, parseNat b, parseNat c with
    | some x, some y, some z => some (PlainKey.mk x y z)
    | _, _, _ => none
  | _ => none

/-- The exclusive upper bound of a caret range. -/
def caretUpper (a b c : ℕ) : PlainKey :=
  if a ≠ 0 then PlainKey.mk (a + 1) 0 0
  else if b ≠ 0 then PlainKey.mk 0 (b + 1) 0
  else PlainKey.mk 0 0 (c + 1)

/-- Reads `^M.m.p` or `M.m.p`. -/
def parsePlainConstraint (cs : List Char) : Option PlainConstraint :=
  match cs with
  | '^' :: rest =>
    match splitChar '.' rest with
    | [a, b, c] =>
      match parseNat a, parseNat b, parseNat c with
      | some x, some y, some z => some (.range (PlainKey.mk x y z) (caretUpper x y z))
      | _, _, _ => none
    | _ => none
  | _ => (parsePlainKey cs).map PlainConstraint.exact

/-- The plain instance of the semantic-version library. -/
def plainSemver : Semver PlainKey PlainConstraint where
  parseVersion := fun s => parsePlainKey s.toList
  parseConstraint := fun s => parsePlainConstraint s.toList
  check := fun c v =>
    match c with
    | .range lo hi => decide (lo ≤ v.key) && decide (v.key < hi)
    | .exact k => decide (v.key = k)

/-! ## The revision source and transient directories -/

/-- What a checkout holds at the path of the package manifest `cppkg.json`. -/
inductive ManifestFile where
  /-- No such file (`os.IsNotExist`). -/
  | absent
  /-- The file is there but `LoadConfigFromPath` fails on it. -/
  | unreadable
  /-- The file loads; these are its `dependencies` (name, `url#constraint`). -/
  | deps (d : GoMap String)
  deriving DecidableEq, Repr

/-- The revision source (`pkg/git`) and `os.MkdirTemp`, as an oracle. -/
structure Git where
  /-- `os.MkdirTemp` succeeds. -/
  mkdirTemp : Bool
  /-- `git.Clone(url, dir, _)` succeeds. -/
  clone : String → Bool
  /-- `git.ListTags` in a clone of the URL. -/
  listTags : String → Option (List String)
  /-- `git.GetCommitHash(dir, ref)` in a clone of the URL; it runs
  `git rev-parse tags/<ref>`, so that a reference resolves when a tag has that
  name. -/
  getCommitHash : String → String → Option String
  /-- `git.Checkout(dir, commit)` succeeds in a clone of the URL. -/
  checkout : String → String → Bool
  /-- The manifest in a clone of the URL: at the cloned head (`none`) or after
  checking out a commit. -/
  manifestAt : String → Option String → ManifestFile

/-- The live transient directories, each with the manifest it holds. -/
abbrev TempFS := List (ℕ × ManifestFile)

/-- A directory name not in use. -/
def TempFS.fresh (fs : TempFS) : ℕ := (fs.map Prod.fst).foldr max 0 + 1

/-- The effect of `os.MkdirTemp`: a new empty directory. -/
def TempFS.mkdir (fs : TempFS) : ℕ × TempFS := (fs.fresh, (fs.fresh, ManifestFile.absent) :: fs)

/-- The effect of `os.RemoveAll(dir)`. -/
def TempFS.removeAll (fs : TempFS) (dir : ℕ) : TempFS := fs.filter (fun e => e.1 ≠ dir)

/-- The effect of populating or switching the tree in `dir`. -/
def TempFS.write (fs : TempFS) (dir : ℕ) (m : ManifestFile) : TempFS :=
  fs.map (fun e => if e.1 = dir then (dir, m) else e)

/-- The manifest found in `dir`; a missing directory has no manifest. -/
def TempFS.read (fs : TempFS) (dir : ℕ) : ManifestFile :=
  match fs.find? (fun e => e.1 = dir) with
  | some e => e.2
  | none => ManifestFile.absent

/-- The names of the live transient directories. -/
def TempFS.dirs (fs : TempFS) : List ℕ := fs.map Prod.fst

/-! ## The version resolver (`resolveVersion`, install.go) -/

section Resolver

variable {K C : Type} [LinearOrder K]

/-- The loop of `resolveVersion` over the tags: `best` is `bestVersion`
(`none` for `nil`); a tag replaces it when it parses, satisfies the range and is
strictly greater. -/
def selectBest (sv : Semver K C) (constraint : C) :
    List String → Option (Version K) → Option (Version K)
  | [], best => best
  | t :: ts, best =>
    match sv.NewVersion t with
    | some v =>
      if sv.check constraint v = true then
        match best with
        | none => selectBest sv constraint ts (some v)
        | some b =>
          if v.GreaterThan b = true then selectBest sv constraint ts (some v)
          else selectBest sv constraint ts (some b)
      else selectBest sv constraint ts best
    | none => selectBest sv constraint ts best

/-- The three results of a resolver call: version label, commit, transient
checkout directory. -/
abbrev Resolved := String × String × ℕ

/-- `resolveVersion(url, versionConstraint)`. -/
def resolveVersion (sv : Semver K C) (git : Git) (url versionConstraint : String)
    (fs : TempFS) : Except Err Resolved × TempFS :=
  if git.mkdirTemp = false then (.error .mkdirTemp, fs)
  else
    let tempDir := fs.mkdir.1
    let fs1 := fs.mkdir.2
    if git.clone url = false then (.error (.clone url), fs1.removeAll tempDir)
    else
      let fs2 := fs1.write tempDir (git.manifestAt url none)
      match git.listTags url with
      | none => (.error (.listTags url), fs2.removeAll tempDir)
      | some tags =>
        match sv.parseConstraint versionConstraint with
        | none =>
          match git.getCommitHash url versionConstraint with
          | none => (.error (.badRef versionConstraint), fs2.removeAll tempDir)
          | some commit => (.ok (versionConstraint, commit, tempDir), fs2)
        | some constraint =>
          match selectBest sv constraint tags none with
          | none => (.error (.noVersion versionConstraint url), fs2.removeAll tempDir)
          | some bestVersion =>
            match git.getCommitHash url bestVersion.original with
            | none => (.error (.noCommit bestVersion.original), fs2.removeAll tempDir)
            | some commit =>
              if git.checkout url commit = false then
                (.error (.checkout commit), fs2.removeAll tempDir)
              else
                (.ok (bestVersion.original, commit, tempDir),
                  fs2.write tempDir (git.manifestAt url (some commit)))

/-- The label is a satisfying tag of maximal precedence, and the first such
tag: satisfying tags before it are strictly smaller, those after it are not
greater. -/
def IsFirstMax (sv : Semver K C) (c : C) (tags : List String) (label : String) : Prop :=
  ∃ pre post v, tags = pre ++ label :: post ∧ sv.NewVersion label = some v ∧
    sv.check c v = true ∧
    (∀ t ∈ pre, ∀ w, sv.NewVersion t = some w → sv.check c w = true → w.key < v.key) ∧
    (∀ t ∈ post, ∀ w, sv.NewVersion t = some w → sv.check c w = true → w.key ≤ v.key)

end Resolver

/-! ## Resolver calls, transient state and the ghost trace -/

/-- A resolver as the engine receives it: `func(url, versionConstraint string)
(string, string, string, error)`, acting on the transient directories. -/
abbrev ResolverFn := String → String → TempFS → Except Err Resolved × TempFS

/-- What a successful resolution yields apart from the directory name: the
label, the commit and the manifest found in the checkout. -/
structure Probe where
  label : String
  commit : String
  manifest : ManifestFile
  deriving DecidableEq, Repr

/-- A resolver whose answer depends only on (url, constraint). -/
abbrev Oracle := String → String → Except Err Probe

/-- The resolver function of an oracle: a failed call leaves no directory, a
successful call leaves one new transient directory holding the checkout. -/
def Oracle.call (o : Oracle) : ResolverFn := fun url c fs =>
  match o url c with
  | .error e => (.error e, fs)
  | .ok p => (.ok (p.label, p.commit, fs.mkdir.1), fs.mkdir.2.write fs.mkdir.1 p.manifest)

/-- One declaration `name: url#constraint` read from a manifest; `requester` is
the package whose manifest it is, `none` for the root manifest. -/
structure Decl where
  requester : Option String
  name : String
  url : String
  constraint : String
  deriving DecidableEq, Repr

/-- Ghost record of a run; it is written but never read by the engine. -/
structure Trace where
  /-- The declarations processed by discovery, in order. -/
  declared : List Decl
  /-- The names appended to the work queue, in order. -/
  enqueued : List String
  /-- The names for which discovery called the resolver, in order. -/
  probed : List String
  /-- Every resolver call made, as (url, constraint), in order. -/
  calls : List (String × String)
  deriving DecidableEq, Repr

/-- The empty trace. -/
def Trace.empty : Trace := { declared := [], enqueued := [], probed := [], calls := [] }

/-- The state the engine acts on besides its own variables. -/
structure Sys where
  fs : TempFS
  trace : Trace
  deriving DecidableEq, Repr

/-- A resolver call, recorded in the trace. -/
def Sys.call (rv : ResolverFn) (url c : String) (sys : Sys) : Except Err Resolved × Sys :=
  ((rv url c sys.fs).1,
    { fs := (rv url c sys.fs).2,
      trace := { sys.trace with calls := sys.trace.calls ++ [(url, c)] } })

/-- The effect of `os.RemoveAll(tempDir)` when `release` holds, nothing otherwise. -/
def Sys.release (release : Bool) (dir : ℕ) (sys : Sys) : Sys :=
  if release = true then { sys with fs := sys.fs.removeAll dir } else sys

/-! ## Discovery (`discoverAllDependencies`, `DiscoverAllDependenciesWithResolver`) -/

/-- The `discoveryResult` of install.go, `types.DiscoveryResult`. -/
structure DiscoveryResult where
  urls : GoMap String
  constraints : GoMap (List String)
  deriving DecidableEq, Repr

/-- The variables of the discovery function. -/
structure DiscState where
  result : DiscoveryResult
  queue : List String
  processed : GoMap Bool
  sys : Sys
  deriving DecidableEq, Repr

/-- The body of both `range` loops of discovery, for one entry of a manifest:
parse the declaration, record the URL, append the constraint, enqueue the name
unless processed. The result `none` is the panic of the parse. -/
def declare (parse : String → Option (String × String)) (requester : Option String)
    (st : DiscState) (name pkgStr : String) : Option DiscState :=
  match parse pkgStr with
  | none => none
  | some (url, constraint) =>
    let result : DiscoveryResult :=
      { urls := st.result.urls.set name url,
        constraints := st.result.constraints.set name
          (st.result.constraints.getList name ++ [constraint]) }
    let d : Decl := { requester := requester, name := name, url := url, constraint := constraint }
    if (st.processed.get? name).getD false = true then
      some { st with
        result := result,
        sys := { st.sys with trace := { st.sys.trace with
          declared := st.sys.trace.declared ++ [d] } } }
    else
      some { st with
        result := result,
        queue := st.queue ++ [name],
        processed := st.processed.set name true,
        sys := { st.sys with trace := { st.sys.trace with
          declared := st.sys.trace.declared ++ [d],
          enqueued := st.sys.trace.enqueued ++ [name] } } }

/-- A `range` loop of discovery over the entries of a manifest, in visiting order. -/
def declareAll (parse : String → Option (String × String)) (requester : Option String) :
    List (String × String) → DiscState → Option DiscState
  | [], st => some st
  | (name, pkgStr) :: rest, st =>
    match declare parse requester st name pkgStr with
    | none => none
    | some st' => declareAll parse requester rest st'

/-- The loop `for len(queue) > 0` of discovery, for at most `fuel` iterations;
`none` when the iterations do not suffice. -/
def discoverLoop (rv : ResolverFn) (parse : String → Option (String × String))
    (ord : MapOrder) : ℕ → DiscState → Option (Outcome DiscoveryResult × Sys)
  | 0, _ => none
  | fuel + 1, st =>
    match st.queue with
    | [] => some (.ok st.result, st.sys)
    | name :: queue =>
      match st.result.constraints.getList name with
      | [] => some (.panic, st.sys)
      | c0 :: _ =>
        let sys0 : Sys := { st.sys with trace := { st.sys.trace with
          probed := st.sys.trace.probed ++ [name] } }
        match Sys.call rv (st.result.urls.getStr name) c0 sys0 with
        | (.error e, sys1) => some (.error (.tempResolve name e), sys1)
        | (.ok (_, _, tempDir), sys1) =>
          match sys1.fs.read tempDir with
          | .absent =>
            discoverLoop rv parse ord fuel
              { st with queue := queue, sys := sys1.release true tempDir }
          | .unreadable => some (.error (.readManifest name), sys1.release true tempDir)
          | .deps d =>
            match declareAll parse (some name) (ord.order d)
                { st with queue := queue, sys := sys1 } with
            | none => some (.panic, sys1)
            | some st' =>
              discoverLoop rv parse ord fuel { st' with sys := st'.sys.release true tempDir }

/-- The `dependencies` of a manifest that loads; `none` when loading fails. -/
abbrev RootManifest := Option (GoMap String)

/-- Discovery from the root manifest: `config.LoadConfig`, the loop over the
root dependencies, then the work-queue loop. -/
def discoverWith (rv : ResolverFn) (parse : String → Option (String × String))
    (ord : MapOrder) (fuel : ℕ) (root : RootManifest) (sys : Sys) :
    Option (Outcome DiscoveryResult × Sys) :=
  match root with
  | none => some (.error .loadConfig, sys)
  | some deps =>
    match declareAll parse none (ord.order deps)
        { result := { urls := [], constraints := [] }, queue := [], processed := [],
          sys := sys } with
    | none => some (.panic, sys)
    | some st => discoverLoop rv parse ord fuel st

/-- `dependency.DiscoverAllDependenciesWithResolver(resolveVersion)`. -/
def DiscoverAllDependenciesWithResolver (rv : ResolverFn) (ord : MapOrder) (fuel : ℕ)
    (root : RootManifest) (sys : Sys) : Option (Outcome DiscoveryResult × Sys) :=
  discoverWith rv ParsePkgStr ord fuel root sys

/-- `discoverAllDependencies()` of install.go. -/
def discoverAllDependencies {K C : Type} [LinearOrder K] (sv : Semver K C) (git : Git)
    (ord : MapOrder) (fuel : ℕ) (root : RootManifest) (sys : Sys) :
    Option (Outcome DiscoveryResult × Sys) :=
  discoverWith (resolveVersion sv git) parsePkgStr ord fuel root sys

/-! ## Conflict resolution (`resolveConflicts`, `conflicts.ResolveConflicts`) -/

/-- `types.LockedDependency`. -/
structure LockedDependency where
  url : String
  version : String
  commit : String
  deriving DecidableEq, Repr

section Conflicts

variable {K C : Type} [LinearOrder K]

/-- The loop `for _, cons := range constraints`: resolve each constraint, parse
the resolved label as a version, collect the versions. With `release` the
transient checkout is removed right after the call (install.go); without it
the directory result is dropped (conflicts.ResolveConflicts). -/
def resolveEach (sv : Semver K C) (rv : ResolverFn) (release : Bool) (name url : String) :
    List String → List (Version K) → Sys → Except Err (List (Version K)) × Sys
  | [], bestVersions, sys => (.ok bestVersions, sys)
  | cons :: rest, bestVersions, sys =>
    match Sys.call rv url cons sys with
    | (.error e, sys1) => (.error e, sys1)
    | (.ok (resolved, _, tempDir), sys1) =>
      match sv.NewVersion resolved with
      | none => (.error (.notSemver resolved name), sys1.release release tempDir)
      | some v =>
        resolveEach sv rv release name url rest (bestVersions ++ [v])
          (sys1.release release tempDir)

/-- The loop `for i := 1; i < len(bestVersions); i++` keeping the running
`highestVersion`. -/
def highest : Version K → List (Version K) → Version K
  | h, [] => h
  | h, v :: vs => if v.GreaterThan h = true then highest v vs else highest h vs

/-- The body of the outer loop for one package name. -/
def resolveName (sv : Semver K C) (rv : ResolverFn) (release : Bool) (name url : String)
    (constraints : List String) (sys : Sys) : Outcome LockedDependency × Sys :=
  match resolveEach sv rv release name url constraints [] sys with
  | (.error e, sys1) => (.error e, sys1)
  | (.ok [], sys1) => (.panic, sys1)
  | (.ok (v0 :: vs), sys1) =>
    match Sys.call rv url (highest v0 vs).original sys1 with
    | (.error e, sys2) => (.error e, sys2)
    | (.ok (_, commit, tempDir), sys2) =>
      (.ok { url := url, version := (highest v0 vs).original, commit := commit },
        sys2.release release tempDir)

/-- The outer loop `for name, constraints := range discovered.constraints`, over
the entries in visiting order. -/
def resolveEntries (sv : Semver K C) (rv : ResolverFn) (release : Bool) (urls : GoMap String) :
    List (String × List String) → GoMap LockedDependency → Sys →
      Outcome (GoMap LockedDependency) × Sys
  | [], finalDeps, sys => (.ok finalDeps, sys)
  | (name, constraints) :: rest, finalDeps, sys =>
    match resolveName sv rv release name (urls.getStr name) constraints sys with
    | (.error e, sys1) => (.error e, sys1)
    | (.panic, sys1) => (.panic, sys1)
    | (.ok dep, sys1) => resolveEntries sv rv release urls rest (finalDeps.set name dep) sys1

/-- `conflicts.ResolveConflicts(discovered, resolveVersion)`: the directory
results of the resolver calls are discarded. -/
def ResolveConflicts (sv : Semver K C) (rv : ResolverFn) (ord : MapOrder)
    (discovered : DiscoveryResult) (sys : Sys) : Outcome (GoMap LockedDependency) × Sys :=
  resolveEntries sv rv false discovered.urls (ord.order discovered.constraints) [] sys

/-- `resolveConflicts(discovered)` of install.go: every successful
`resolveVersion` call is followed by `os.RemoveAll(tempDir)`. -/
def resolveConflicts (sv : Semver K C) (git : Git) (ord : MapOrder)
    (discovered : DiscoveryResult) (sys : Sys) : Outcome (GoMap LockedDependency) × Sys :=
  resolveEntries sv (resolveVersion sv git) true discovered.urls
    (ord.order discovered.constraints) [] sys

end Conflicts

/-! ## Installation (`installPackage`, `InstallDependencies`, `UninstallPackage`,
`AddNewPackage`) -/

/-- `types.PackageConfig`, the content of `cppkg.json`. -/
structure PackageConfig where
  name : String
  version : String
  dependencies : GoMap String
  scripts : GoMap String
  deriving DecidableEq, Repr

/-- `types.LockFile`, the content of `cppkg.lock`: its `Dependencies` map. -/
abbrev LockFile := GoMap LockedDependency

/-- The content of an installed or cached package directory: the work tree of
`url` at `commit`, with the version-control metadata removed. -/
structure Tree where
  url : String
  commit : String
  deriving DecidableEq, Repr

/-- The files and directories the engine reads and writes. -/
structure Disk where
  /-- `cppkg.json`; `none` when `config.LoadConfig` fails on it. -/
  config : Option PackageConfig
  /-- `cppkg.lock`; `none` when it has not been written. -/
  lock : Option LockFile
  /-- The entries of `cpp_modules`; `none` when the directory does not exist. -/
  modules : Option (GoMap Tree)
  /-- The entries of `.cppkg_cache`. -/
  cache : GoMap Tree
  /-- `cppkg.cmake`: the package names of its include directives. -/
  cmake : Option (List String)
  /-- Transient directories and the ghost trace. -/
  sys : Sys
  deriving DecidableEq, Repr

/-- Which file-system and process steps succeed. -/
structure Env where
  /-- `os.RemoveAll(config.GetModulesDir())`. -/
  removeModules : Bool
  /-- `os.MkdirAll(config.GetModulesDir(), 0755)`. -/
  mkdirModules : Bool
  /-- `config.SaveConfig`. -/
  saveConfig : Bool
  /-- `config.SaveLockfile`. -/
  saveLockfile : Bool
  /-- `os.WriteFile` of `cppkg.cmake`. -/
  writeCMake : Bool
  /-- The exit status of `sh -c script`. -/
  runHook : String → Bool
  /-- `os.RemoveAll` of the `.git` directory of a fresh clone. -/
  stripGit : Bool
  /-- `git.CopyDir` into the path of the cache key. -/
  copyToCache : String → Bool
  /-- `git.CopyDir` into the path `filepath.Join("cpp_modules", name)`. -/
  copyToModules : String → Bool
  /-- What `installPackage(name, url, commit)` returns and leaves on disk when
  its paths are not two distinct entries of `cpp_modules` and `.cppkg_cache`:
  the files it then reads and writes lie elsewhere; they may be `cppkg.json`,
  `cppkg.lock` or any other file. -/
  elsewhere : String → String → String → Disk → Outcome Unit × Disk

/-- `filepath.Base` on a slash-separated path. -/
def pathBase (cs : List Char) : List Char :=
  if cs = [] then ['.']
  else
    let stripped := cs.reverse.dropWhile (fun c => c = '/')
    let last := (stripped.takeWhile (fun c => c ≠ '/')).reverse
    if last = [] then ['/'] else last

/-- `strings.TrimSuffix`. -/
def trimSuffix (cs suffix : List Char) : List Char :=
  if suffix.isSuffixOf cs = true then cs.take (cs.length - suffix.length) else cs

/-- `AddNewPackage(pkgStr)`. -/
def AddNewPackage (env : Env) (pkgStr : String) (disk : Disk) : Outcome Unit × Disk :=
  match disk.config with
  | none => (.error .loadConfig, disk)
  | some cfg =>
    match splitHash pkgStr with
    | [url, version] =>
      let name := String.mk (trimSuffix (pathBase url.toList) ".git".toList)
      if env.saveConfig = false then (.error .saveConfig, disk)
      else
        (.ok (), { disk with config := some { cfg with
          dependencies := cfg.dependencies.set name (url ++ "#" ++ version) } })
    | _ => (.error .invalidFormat, disk)

/-- `config.ModulesDir`. -/
def ModulesDir : String := "cpp_modules"

/-- `config.CacheDir`. -/
def CacheDir : String := ".cppkg_cache"

/-- The loop of `filepath.Clean` over the components of a relative path, the
components kept so far in reverse: an empty component and `.` are skipped; `..`
removes the component kept last, and is kept itself when there is none to
remove. -/
def cleanComponents : List (List Char) → List (List Char) → List (List Char)
  | kept, [] => kept.reverse
  | kept, c :: rest =>
    if c = [] ∨ c = ['.'] then cleanComponents kept rest
    else if c = ['.', '.'] then
      match kept with
      | [] => cleanComponents [c] rest
      | k :: ks =>
        if k = ['.', '.'] then cleanComponents (c :: k :: ks) rest
        else cleanComponents ks rest
    else cleanComponents (c :: kept) rest

/-- `filepath.Join(dir, elem)` for a relative `dir` without separator: the
components of the cleaned path, with `/` as the separator. -/
def filepathJoin (dir elem : String) : List (List Char) :=
  cleanComponents [] (splitChar '/' (dir.toList ++ '/' :: elem.toList))

/-- Where a path of the project lies: it is an entry of `cpp_modules`, an entry
of `.cppkg_cache`, or it lies elsewhere. -/
inductive Loc where
  | modules (child : String)
  | cache (child : String)
  | elsewhere
  deriving DecidableEq, Repr

/-- The place of a cleaned relative path. -/
def locate (path : List (List Char)) : Loc :=
  match path with
  | [dir, child] =>
    if dir = ModulesDir.toList then .modules (String.mk child)
    else if dir = CacheDir.toList then .cache (String.mk child)
    else .elsewhere
  | _ => .elsewhere

/-- The number of bytes of a character in a Go string. -/
def utf8Len (c : Char) : ℕ :=
  if c.toNat < 128 then 1 else if c.toNat < 2048 then 2 else if c.toNat < 65536 then 3 else 4

/-- `len(s)`, the number of bytes of a Go string. -/
def byteLength (s : String) : ℕ := (s.toList.map utf8Len).sum

/-- The slice `s[:n]` of a string of at least `n` bytes; `none` when the cut
falls inside a character, so that the bytes of the slice are not a string of
characters, or when the string is shorter. -/
def sliceBytes : ℕ → List Char → Option (List Char)
  | 0, _ => some []
  | _ + 1, [] => none
  | n + 1, c :: cs =>
    if utf8Len c ≤ n + 1 then (sliceBytes (n + 1 - utf8Len c) cs).map (fun p => c :: p)
    else none

/-- The cache key `fmt.Sprintf("%s-%s", name, commit[:12])`, when its bytes are
a string of characters. -/
def cacheKey (name commit : String) : Option String :=
  (sliceBytes 12 commit.toList).map (fun p => name ++ "-" ++ String.mk p)

/-- The directory found at an entry (`os.Stat` succeeds on it), if any. -/
def Disk.entry (disk : Disk) : Loc → Option Tree
  | .modules child => (disk.modules.getD []).get? child
  | .cache child => disk.cache.get? child
  | .elsewhere => none

/-- The effect of a successful `git.CopyDir` of a tree onto an entry; the
directories above the entry are made when missing (`os.MkdirAll`). -/
def Disk.put (disk : Disk) (loc : Loc) (tree : Tree) : Disk :=
  match loc with
  | .modules child => { disk with modules := some ((disk.modules.getD []).set child tree) }
  | .cache child => { disk with cache := disk.cache.set child tree }
  | .elsewhere => disk

/-- The body of `installPackage` from `os.Stat(pkgCachePath)` on, for a cache
path and a destination path that are entries. The transient clone directory is
removed on every return that follows its creation
(`defer os.RemoveAll(tempDir)`); a `git.CopyDir` that fails is taken to leave
its target as it was. -/
def installEntries (git : Git) (env : Env) (name url commit key : String)
    (pkgCachePath pkgDestPath : Loc) (disk : Disk) : Outcome Unit × Disk :=
  match disk.entry pkgCachePath with
  | some tree =>
    if env.copyToModules name = false then (.error (.copy "modules"), disk)
    else (.ok (), disk.put pkgDestPath tree)
  | none =>
    if git.mkdirTemp = false then (.error .mkdirTemp, disk)
    else
      let tempDir := disk.sys.fs.mkdir.1
      let after : Disk :=
        { disk with sys := { disk.sys with fs := disk.sys.fs.mkdir.2.removeAll tempDir } }
      if git.clone url = false then (.error (.clone url), after)
      else if git.checkout url commit = false then (.error (.checkout commit), after)
      else if env.stripGit = false then (.error (.copy "strip"), after)
      else if env.copyToCache key = false then (.error (.copy "cache"), after)
      else
        let tree : Tree := { url := url, commit := commit }
        let cached : Disk := after.put pkgCachePath tree
        if env.copyToModules name = false then (.error (.copy "modules"), cached)
        else (.ok (), cached.put pkgDestPath tree)

/-- What `installPackage(name, url, commit)` does when its paths are not two
distinct entries: the outcome and the files are those given by the
environment; the ghost trace stays as it was. -/
def installElsewhere (env : Env) (name url commit : String) (disk : Disk) :
    Outcome Unit × Disk :=
  ((env.elsewhere name url commit disk).1,
    { (env.elsewhere name url commit disk).2 with
      sys := { (env.elsewhere name url commit disk).2.sys with trace := disk.sys.trace } })

/-- `installPackage(name, url, commit)`. The slice `commit[:12]` panics on a
commit shorter than 12 bytes. The two paths are
`filepath.Join(config.GetCacheDir(), key)` and
`filepath.Join(config.GetModulesDir(), name)`; when they are two distinct
entries of the two directories the body is `installEntries`. -/
def installPackage (git : Git) (env : Env) (name url commit : String) (disk : Disk) :
    Outcome Unit × Disk :=
  if byteLength commit < 12 then (.panic, disk)
  else
    match cacheKey name commit with
    | none => installElsewhere env name url commit disk
    | some key =>
      let pkgCachePath := locate (filepathJoin CacheDir key)
      let pkgDestPath := locate (filepathJoin ModulesDir name)
      if pkgCachePath = .elsewhere ∨ pkgDestPath = .elsewhere ∨ pkgCachePath = pkgDestPath then
        installElsewhere env name url commit disk
      else installEntries git env name url commit key pkgCachePath pkgDestPath disk

/-- The loop `for name, dep := range finalDeps` of `InstallDependencies`. -/
def installAll (git : Git) (env : Env) :
    List (String × LockedDependency) → LockFile → Disk → Outcome LockFile × Disk
  | [], newLockFile, disk => (.ok newLockFile, disk)
  | (name, dep) :: rest, newLockFile, disk =>
    match installPackage git env name dep.url dep.commit disk with
    | (.error e, disk1) => (.error (.installPkg name e), disk1)
    | (.panic, disk1) => (.panic, disk1)
    | (.ok _, disk1) => installAll git env rest (newLockFile.set name dep) disk1

/-- `runHooks(cfg)`. -/
def runHooks (env : Env) (cfg : PackageConfig) : Except Err Unit :=
  match cfg.scripts.get? "postinstall" with
  | none => .ok ()
  | some script => if env.runHook script = true then .ok () else .error .hooks

section Install

variable {K C : Type} [LinearOrder K]

/-- `InstallDependencies(isUpgrade)`; `none` when `fuel` iterations of the
discovery loop do not suffice. -/
def InstallDependencies (sv : Semver K C) (git : Git) (env : Env) (ord : MapOrder) (fuel : ℕ)
    (_isUpgrade : Bool) (disk : Disk) : Option (Outcome Unit × Disk) :=
  if env.removeModules = false then some (.error .cleanModules, disk)
  else
    let disk0 : Disk := { disk with modules := none }
    match discoverAllDependencies sv git ord fuel
        (disk0.config.map (fun cfg => cfg.dependencies)) disk0.sys with
    | none => none
    | some (.error e, sys1) => some (.error (.discovery e), { disk0 with sys := sys1 })
    | some (.panic, sys1) => some (.panic, { disk0 with sys := sys1 })
    | some (.ok discovered, sys1) =>
      match resolveConflicts sv git ord discovered sys1 with
      | (.error e, sys2) => some (.error (.resolution e), { disk0 with sys := sys2 })
      | (.panic, sys2) => some (.panic, { disk0 with sys := sys2 })
      | (.ok finalDeps, sys2) =>
        if env.mkdirModules = false then
          some (.error .mkdirModules, { disk0 with sys := sys2 })
        else
          match installAll git env (ord.order finalDeps) []
              { disk0 with sys := sys2, modules := some [] } with
          | (.error e, disk2) => some (.error e, disk2)
          | (.panic, disk2) => some (.panic, disk2)
          | (.ok newLockFile, disk2) =>
            if env.saveLockfile = false then some (.error .saveLock, disk2)
            else if env.writeCMake = false then
              some (.error .cmake, { disk2 with lock := some newLockFile })
            else
              let disk3 : Disk :=
                { disk2 with lock := some newLockFile,
                             cmake := some ((ord.order newLockFile).map Prod.fst) }
              match disk3.config with
              | none => some (.error .loadConfig, disk3)
              | some rootCfg =>
                match runHooks env rootCfg with
                | .error e => some (.error e, disk3)
                | .ok _ => some (.ok (), disk3)

/-- `UninstallPackage(name)`. -/
def UninstallPackage (sv : Semver K C) (git : Git) (env : Env) (ord : MapOrder) (fuel : ℕ)
    (name : String) (disk : Disk) : Option (Outcome Unit × Disk) :=
  match disk.config with
  | none => some (.error .loadConfig, disk)
  | some cfg =>
    match cfg.dependencies.get? name with
    | none => some (.error (.notFound name), disk)
    | some _ =>
      if env.saveConfig = false then some (.error .saveConfig, disk)
      else
        InstallDependencies sv git env ord fuel false
          { disk with config := some { cfg with
            dependencies := cfg.dependencies.delete name } }

end Install

/-! ## Derived notions used in the statements -/

section Derived

variable {K C : Type} [LinearOrder K]

/-- The oracle of `resolveVersion`: its answer when run on no transient
directories. -/
def resolveOracle (sv : Semver K C) (git : Git) : Oracle := fun url c =>
  match resolveVersion sv git url c [] with
  | (.error e, _) => .error e
  | (.ok (label, commit, dir), fs) => .ok { label := label, commit := commit, manifest := fs.read dir }

/-- The labels to which an oracle resolves the constraints of a list, in order. -/
def Oracle.labels (o : Oracle) (url : String) (cs : List String) : List String :=
  cs.filterMap (fun c =>
    match o url c with
    | .ok p => some p.label
    | .error _ => none)

/-- The label is the semantically highest of the labels, and the first of them
with that version: labels before it are strictly smaller, those after it are
not greater. -/
def IsFirstHighest (sv : Semver K C) (labels : List String) (winner : String) : Prop :=
  ∃ pre post v, labels = pre ++ winner :: post ∧ sv.NewVersion winner = some v ∧
    (∀ t ∈ pre, ∀ w, sv.NewVersion t = some w → w.key < v.key) ∧
    (∀ t ∈ post, ∀ w, sv.NewVersion t = some w → w.key ≤ v.key)

end Derived

/-! ## Traces, invariants and other notions used in the statements -/

/-- The parsed versions of the labels to which an oracle resolves the
constraints of a list, in order. -/
def Oracle.versions {K C : Type} (o : Oracle) (sv : Semver K C) (url : String)
    (cs : List String) : List (Version K) :=
  cs.filterMap (fun c =>
    match o url c with
    | .ok p => sv.NewVersion p.label
    | .error _ => none)

/-- No transient directories and an empty trace. -/
def Sys.init : Sys := { fs := [], trace := Trace.empty }

/-- The URL is that of the last declaration of the name in the list. -/
def IsLastUrl (declared : List Decl) (name url : String) : Prop :=
  ∃ pre d post, declared = pre ++ d :: post ∧ d.name = name ∧ d.url = url ∧
    ∀ d' ∈ post, d'.name ≠ name

/-- The URL is that of the first declaration of the name in the list. -/
def IsFirstUrl (declared : List Decl) (name url : String) : Prop :=
  ∃ pre d post, declared = pre ++ d :: post ∧ d.name = name ∧ d.url = url ∧
    ∀ d' ∈ pre, d'.name ≠ name

/-- The invariant of the discovery loops, relating the variables to the
trace. -/
structure DiscInv (st : DiscState) : Prop where
  /-- The names enqueued so far are those dequeued for probing followed by the queue. -/
  enq : st.sys.trace.enqueued = st.sys.trace.probed ++ st.queue
  /-- No name is enqueued twice. -/
  nodup : st.sys.trace.enqueued.Nodup
  /-- The processed names are the enqueued names. -/
  proc : ∀ n, (st.processed.get? n).getD false = true ↔ n ∈ st.sys.trace.enqueued
  /-- The names with a URL are the enqueued names. -/
  ukeys : ∀ n, n ∈ st.result.urls.keys ↔ n ∈ st.sys.trace.enqueued
  /-- The names with constraints are the enqueued names. -/
  ckeys : ∀ n, n ∈ st.result.constraints.keys ↔ n ∈ st.sys.trace.enqueued
  /-- The enqueued names are the declared names. -/
  dnames : ∀ n, n ∈ st.sys.trace.enqueued ↔ ∃ d ∈ st.sys.trace.declared, d.name = n
  /-- The constraint list of a name holds the constraints of its declarations, in order. -/
  cons : ∀ n, st.result.constraints.getList n =
    (st.sys.trace.declared.filter (fun d => d.name = n)).map (fun d => d.constraint)
  /-- The URL of a name is that of its last declaration. -/
  urls : ∀ n u, st.result.urls.get? n = some u → IsLastUrl st.sys.trace.declared n u
  /-- Every requester has been probed. -/
  req : ∀ d ∈ st.sys.trace.declared, ∀ r, d.requester = some r → r ∈ st.sys.trace.probed
  /-- The keys of the URL map are distinct. -/
  unodup : st.result.urls.keys.Nodup
  /-- The keys of the constraint map are distinct. -/
  cnodup : st.result.constraints.keys.Nodup

/-- The state with the transient directories replaced. -/
def DiscState.withFs (st : DiscState) (fs : TempFS) : DiscState :=
  { st with sys := { st.sys with fs := fs } }

/-- The state after `name` has been taken from the queue and the resolver has
been called for it on (url, c), with the transient directories as before the
call. -/
def DiscState.dequeued (st : DiscState) (name : String) (queue : List String)
    (url c : String) : DiscState :=
  { st with
    queue := queue,
    sys := { fs := st.sys.fs,
             trace := { st.sys.trace with
               probed := st.sys.trace.probed ++ [name],
               calls := st.sys.trace.calls ++ [(url, c)] } } }

/-- The variables of discovery before the loop over the root dependencies. -/
def DiscState.init (sys : Sys) : DiscState :=
  { result := { urls := [], constraints := [] }, queue := [], processed := [], sys := sys }

/-- In a discovery run no name is enqueued twice, no name is probed twice, and
on success every name of the returned graph has been probed exactly once. -/
def EachNameOnce (r : Outcome DiscoveryResult × Sys) : Prop :=
  (∀ n, r.2.trace.enqueued.count n ≤ 1) ∧
  (∀ n, r.2.trace.probed.count n ≤ 1) ∧
  ∀ g, r.1 = .ok g → ∀ n, (n ∈ g.urls.keys ∨ n ∈ g.constraints.keys) →
    r.2.trace.probed.count n = 1

/-- The state after a resolver call on (url, c) that left no transient
directory behind: the call is recorded, the directories are as before. -/
def Sys.called (sys : Sys) (url c : String) : Sys :=
  { fs := sys.fs, trace := { sys.trace with calls := sys.trace.calls ++ [(url, c)] } }

/-- The state after a successful resolver call on (url, c) whose checkout
holds the manifest `m`: with `release` the checkout has been removed, without
it the checkout stays. -/
def Sys.after (release : Bool) (sys : Sys) (url c : String) (m : ManifestFile) : Sys :=
  if release = true then sys.called url c
  else { fs := (sys.fs.fresh, m) :: sys.fs, trace := (sys.called url c).trace }

/-- Every resolver call recorded in the trace was answered by the oracle with
a result. -/
def CallsOk (o : Oracle) (sys : Sys) : Prop :=
  ∀ uc ∈ sys.trace.calls, ∃ p, o uc.1 uc.2 = .ok p

/-- The discovery stage of an install returned an error, or it returned a
graph on which the conflict resolver returned an error. -/
def ResolutionFailed {K C : Type} [LinearOrder K] (sv : Semver K C) (git : Git)
    (ord : MapOrder) (fuel : ℕ) (disk : Disk) : Prop :=
  (∃ e sys1, discoverAllDependencies sv git ord fuel
      (disk.config.map (fun cfg => cfg.dependencies)) disk.sys = some (.error e, sys1)) ∨
  (∃ g sys1 e sys2, discoverAllDependencies sv git ord fuel
      (disk.config.map (fun cfg => cfg.dependencies)) disk.sys = some (.ok g, sys1) ∧
    resolveConflicts sv git ord g sys1 = (.error e, sys2))

/-- Discovery followed by conflict resolution, the two resolution stages of
`InstallDependencies`: the name -> {url, version, commit} map they produce. -/
def lockEntries {K C : Type} [LinearOrder K] (sv : Semver K C) (git : Git) (ord : MapOrder)
    (fuel : ℕ) (root : RootManifest) (sys : Sys) :
    Option (Outcome (GoMap LockedDependency) × Sys) :=
  match discoverAllDependencies sv git ord fuel root sys with
  | none => none
  | some (.error e, sys1) => some (.error e, sys1)
  | some (.panic, sys1) => some (.panic, sys1)
  | some (.ok discovered, sys1) => some (resolveConflicts sv git ord discovered sys1)

/-- Every package name is declared with one declaration string `D name`: in the
root manifest and in the manifest of every package resolved at its declared
URL and constraint. -/
def Consistent (o : Oracle) (parse : String → Option (String × String)) (D : String → String)
    (rootDeps : GoMap String) : Prop :=
  (∀ e ∈ rootDeps, e.2 = D e.1) ∧
  ∀ n u c p d, parse (D n) = some (u, c) → o u c = .ok p → p.manifest = .deps d →
    ∀ e ∈ d, e.2 = D e.1

/-- The package resolves at its declared URL and constraint to a checkout whose
manifest, if any, can be read and holds only declarations that parse. -/
def GoodPackage (o : Oracle) (parse : String → Option (String × String)) (D : String → String)
    (m : String) : Prop :=
  ∃ u c p, parse (D m) = some (u, c) ∧ o u c = .ok p ∧ p.manifest ≠ .unreadable ∧
    ∀ d, p.manifest = .deps d → ∀ e ∈ d, parse e.2 ≠ none

/-- The names declared by the manifest of a package resolved at its declared
URL and constraint. -/
def DeclaresName (o : Oracle) (parse : String → Option (String × String)) (D : String → String)
    (m n : String) : Prop :=
  ∃ u c p d, parse (D m) = some (u, c) ∧ o u c = .ok p ∧ p.manifest = .deps d ∧
    n ∈ d.keys

/-- One successful iteration of the work-queue loop: a name is dequeued, the
resolver answers, and the declarations of the manifest found (if any) are
processed. -/
def Step (o : Oracle) (parse : String → Option (String × String)) (ord : MapOrder)
    (st st' : DiscState) : Prop :=
  ∃ name queue c0 cs p, st.queue = name :: queue ∧
    st.result.constraints.getList name = c0 :: cs ∧
    o (st.result.urls.getStr name) c0 = .ok p ∧
    ((p.manifest = .absent ∧
        st' = st.dequeued name queue (st.result.urls.getStr name) c0) ∨
     (∃ d, p.manifest = .deps d ∧
        declareAll parse (some name) (ord.order d)
          (st.dequeued name queue (st.result.urls.getStr name) c0) = some st'))

/-- The invariant of discovery over consistently declared packages: the base
invariant; every declaration processed is the declared one; the root
dependencies are enqueued; every probed package is good and what its manifest
declares is enqueued. -/
structure RunInv (o : Oracle) (parse : String → Option (String × String))
    (D : String → String) (rootDeps : GoMap String) (st : DiscState) : Prop where
  base : DiscInv st
  decl : ∀ d ∈ st.sys.trace.declared, parse (D d.name) = some (d.url, d.constraint)
  root : ∀ e ∈ rootDeps, e.1 ∈ st.sys.trace.enqueued
  good : ∀ m ∈ st.sys.trace.probed, GoodPackage o parse D m
  closed : ∀ m ∈ st.sys.trace.probed, ∀ n, DeclaresName o parse D m n →
    n ∈ st.sys.trace.enqueued

/-- The graph records, for each of its names, the declared URL and a non-empty
constraint list holding only the declared constraint. -/
def Canonical (parse : String → Option (String × String)) (D : String → String)
    (g : DiscoveryResult) : Prop :=
  g.constraints.keys.Nodup ∧
  ∀ n ∈ g.constraints.keys, ∃ u c, parse (D n) = some (u, c) ∧ g.urls.getStr n = u ∧
    g.constraints.getList n ≠ [] ∧ ∀ x ∈ g.constraints.getList n, x = c

/-! ## Sample environments -/

/-- A revision source with one repository `u` tagged 1.0.0, 1.2.0, 1.2.3 and
2.0.0, every tag resolving to a commit named after it. -/
def sampleGit : Git where
  mkdirTemp := true
  clone := fun _ => true
  listTags := fun _ => some ["1.0.0", "1.2.0", "1.2.3", "2.0.0"]
  getCommitHash := fun _ ref => some ("commit-" ++ ref)
  checkout := fun _ _ => true
  manifestAt := fun _ _ => ManifestFile.absent

/-- A revision source whose repository lists the tag 1.0.0 but cannot resolve
any reference to a commit (say, the fetch before `rev-parse` fails). -/
def offlineGit : Git where
  mkdirTemp := true
  clone := fun _ => true
  listTags := fun _ => some ["1.0.0"]
  getCommitHash := fun _ _ => none
  checkout := fun _ _ => true
  manifestAt := fun _ _ => ManifestFile.absent

/-- A revision source with one repository tagged 1.5.0 and 2.1.0, every
reference resolving to a commit named after it. -/
def conflictGit : Git where
  mkdirTemp := true
  clone := fun _ => true
  listTags := fun _ => some ["1.5.0", "2.1.0"]
  getCommitHash := fun _ ref => some ("commit-" ++ ref)
  checkout := fun _ _ => true
  manifestAt := fun _ _ => ManifestFile.absent

/-- A graph with one package `P` at URL `u`, required at `^1.0.0` by one
requester and at `^2.0.0` by another. -/
def conflictGraph : DiscoveryResult :=
  { urls := [("P", "u")], constraints := [("P", ["^1.0.0", "^2.0.0"])] }

/-- A revision source with two repositories `ua` and `ub`, both tagged 1.0.0,
whose manifests depend on each other: `ua` declares `B` at `ub` and `ub`
declares `A` at `ua`. -/
def cyclicGit : Git where
  mkdirTemp := true
  clone := fun _ => true
  listTags := fun _ => some ["1.0.0"]
  getCommitHash := fun _ ref => some ("commit-" ++ ref)
  checkout := fun _ _ => true
  manifestAt := fun url _ =>
    if url = "ua" then ManifestFile.deps [("B", "ub#^1.0.0")]
    else if url = "ub" then ManifestFile.deps [("A", "ua#^1.0.0")]
    else ManifestFile.absent

/-- A revision source where the manifest of `ua` declares `B` at the URL `u2`;
all repositories are tagged 1.0.0. -/
def overwriteGit : Git where
  mkdirTemp := true
  clone := fun _ => true
  listTags := fun _ => some ["1.0.0"]
  getCommitHash := fun url ref => some ("commit-" ++ url ++ "-" ++ ref)
  checkout := fun _ _ => true
  manifestAt := fun url _ =>
    if url = "ua" then ManifestFile.deps [("B", "u2#^1.0.0")] else ManifestFile.absent

/-- A revision source with one repository tagged 1.0.0 in which the reference
`main` resolves to a commit. -/
def literalGit : Git where
  mkdirTemp := true
  clone := fun _ => true
  listTags := fun _ => some ["1.0.0"]
  getCommitHash := fun _ ref => some ("commit-" ++ ref)
  checkout := fun _ _ => true
  manifestAt := fun _ _ => ManifestFile.absent

/-- A graph with one package `P` at URL `u`, required at the literal reference
`main`. -/
def literalGraph : DiscoveryResult :=
  { urls := [("P", "u")], constraints := [("P", ["main"])] }

/-- An environment in which every file-system and process step succeeds; an
install on paths that are not entries succeeds and changes none of the files
listed in `Disk`. -/
def Env.allOk : Env where
  removeModules := true
  mkdirModules := true
  saveConfig := true
  saveLockfile := true
  writeCMake := true
  runHook := fun _ => true
  stripGit := true
  copyToCache := fun _ => true
  copyToModules := fun _ => true
  elsewhere := fun _ _ _ disk => (.ok (), disk)

/-- A project whose manifest requires `P` at `^3.0.0` from the repository `u`,
with a lockfile left by an earlier install. -/
def unsatisfiableDisk : Disk where
  config := some { name := "app", version := "0.1.0",
                   dependencies := [("P", "u#^3.0.0")], scripts := [] }
  lock := some [("P", { url := "u", version := "2.1.0", commit := "commit-2.1.0" })]
  modules := none
  cache := []
  cmake := none
  sys := { fs := [], trace := Trace.empty }

/-- A project whose manifest requires `A` (at `ua`) and `B` (at `u2`) directly;
with `overwriteGit` the manifest of `A` requires `B` as well. -/
def sharedDisk : Disk where
  config := some { name := "app", version := "0.1.0",
                   dependencies := [("A", "ua#^1.0.0"), ("B", "u2#^1.0.0")], scripts := [] }
  lock := none
  modules := none
  cache := []
  cmake := none
  sys := { fs := [], trace := Trace.empty }

/-- The state of `sharedDisk` after `B` has been uninstalled with
`overwriteGit` as revision source: `B` is gone from the manifest and is
installed and locked again as a dependency of `A`. -/
def sharedDiskAfter : Disk where
  config := some { name := "app", version := "0.1.0",
                   dependencies := [("A", "ua#^1.0.0")], scripts := [] }
  lock := some [("A", { url := "ua", version := "1.0.0", commit := "commit-ua-1.0.0" }),
                ("B", { url := "u2", version := "1.0.0", commit := "commit-u2-1.0.0" })]
  modules := some [("A", { url := "ua", commit := "commit-ua-1.0.0" }),
                   ("B", { url := "u2", commit := "commit-u2-1.0.0" })]
  cache := [("A-commit-ua-1.", { url := "ua", commit := "commit-ua-1.0.0" }),
            ("B-commit-u2-1.", { url := "u2", commit := "commit-u2-1.0.0" })]
  cmake := some ["A", "B"]
  sys := { fs := [],
           trace := { declared := [{ requester := none, name := "A", url := "ua",
                                     constraint := "^1.0.0" },
                                   { requester := some "A", name := "B", url := "u2",
                                     constraint := "^1.0.0" }],
                      enqueued := ["A", "B"],
                      probed := ["A", "B"],
                      calls := [("ua", "^1.0.0"), ("u2", "^1.0.0"), ("ua", "^1.0.0"),
                                ("ua", "1.0.0"), ("u2", "^1.0.0"), ("u2", "1.0.0")] } }

/-- A project whose manifest holds a declaration without the `#` separator. -/
def malformedDisk : Disk where
  config := some { name := "app", version := "0.1.0",
                   dependencies := [("foo", "https://example.com/foo.git")], scripts := [] }
  lock := none
  modules := none
  cache := []
  cmake := none
  sys := { fs := [], trace := Trace.empty }

/-- A revision source for a diamond: the manifest of `ua` declares `C` at the
URL `uc1`, the manifest of `ub` declares `C` at the URL `uc2`. -/
def diamondGit : Git where
  mkdirTemp := true
  clone := fun _ => true
  listTags := fun _ => some ["1.0.0"]
  getCommitHash := fun url ref => some ("commit-" ++ url ++ "-" ++ ref)
  checkout := fun _ _ => true
  manifestAt := fun url _ =>
    if url = "ua" then ManifestFile.deps [("C", "uc1#^1.0.0")]
    else if url = "ub" then ManifestFile.deps [("C", "uc2#^1.0.0")]
    else ManifestFile.absent

/-- The root dependencies of the diamond: `A` at `ua` and `B` at `ub`. -/
def diamondRoot : GoMap String := [("A", "ua#^1.0.0"), ("B", "ub#^1.0.0")]

/-- A revision source for a diamond with one declaration per name: the
manifests of `ua` and of `ub` both declare `C` at the URL `uc`. -/
def agreeingGit : Git where
  mkdirTemp := true
  clone := fun _ => true
  listTags := fun _ => some ["1.0.0"]
  getCommitHash := fun url ref => some ("commit-" ++ url ++ "-" ++ ref)
  checkout := fun _ _ => true
  manifestAt := fun url _ =>
    if url = "ua" then ManifestFile.deps [("C", "uc#^1.0.0")]
    else if url = "ub" then ManifestFile.deps [("C", "uc#^1.0.0")]
    else ManifestFile.absent

/-- The declaration of each name in the diamond of `agreeingGit`. -/
def agreeingDecl (n : String) : String :=
  if n = "A" then "ua#^1.0.0" else if n = "B" then "ub#^1.0.0" else "uc#^1.0.0"

/-- The manifest that a probing call on (url, constraint) finds: the
dependencies of the manifest in the checkout, when the call succeeds and the
checkout holds a manifest that loads. -/
def Oracle.manifestOf (o : Oracle) (uc : String × String) : Option (GoMap String) :=
  match o uc.1 uc.2 with
  | .ok p =>
    match p.manifest with
    | .deps d => some d
    | _ => none
  | .error _ => none

/-- The manifests a discovery run has processed: the root manifest, then the
manifest found by each probing call, in the order of the calls. -/
def processedManifests (o : Oracle) (root : GoMap String) (calls : List (String × String)) :
    List (GoMap String) :=
  root :: calls.filterMap o.manifestOf

/-- The constraint that a manifest declares for a name, when it declares the
name. -/
def declaredConstraint (parse : String → Option (String × String)) (n : String)
    (d : GoMap String) : Option String :=
  (d.get? n).bind (fun s => (parse s).map Prod.snd)

/-- The constraints recorded for each name are, in order, the constraints that
the processed manifests declare for it, one per declaring manifest. -/
def ShapeInv (o : Oracle) (parse : String → Option (String × String)) (root : GoMap String)
    (st : DiscState) : Prop :=
  ∀ n, (st.sys.trace.declared.filter (fun d => d.name = n)).map (fun d => d.constraint) =
    (processedManifests o root st.sys.trace.calls).filterMap (declaredConstraint parse n)

/-- Every declaration of every processed manifest parses. -/
def ParsedInv (o : Oracle) (parse : String → Option (String × String)) (root : GoMap String)
    (st : DiscState) : Prop :=
  ∀ d ∈ processedManifests o root st.sys.trace.calls, ∀ e ∈ d, parse e.2 ≠ none

/-- A single path component: without separator, not empty, not `.` and not
`..`. -/
def plainComponent (s : String) : Bool :=
  !(s.toList.contains '/') && decide (s.toList ≠ []) && decide (s.toList ≠ ['.']) &&
    decide (s.toList ≠ ['.', '.'])

/-- The first 12 bytes of the commit are characters none of which is a
separator, as in a hexadecimal hash. -/
def plainPrefix (commit : String) : Bool :=
  match sliceBytes 12 commit.toList with
  | some p => !(p.contains '/')
  | none => false

/-- Every entry of the lockfile has a name that is a single path component and
a commit whose first 12 bytes hold no separator. -/
def PlainLock (lock : LockFile) : Prop :=
  ∀ e ∈ lock, plainComponent e.1 = true ∧ plainPrefix e.2.commit = true

/-- Every cache entry of `d` is an entry of `d'`, with the same content. -/
def CacheKept (d d' : Disk) : Prop :=
  ∀ k t, d.cache.get? k = some t → d'.cache.get? k = some t

/-- The effect of `git.CopyDir(pkgCachePath, pkgDestPath)` alone, for the cache
entry `tree` of the package `name`. -/
def copyFromCache (env : Env) (name : String) (tree : Tree) (disk : Disk) :
    Outcome Unit × Disk :=
  if env.copyToModules name = false then (.error (.copy "modules"), disk)
  else (.ok (), { disk with modules := some ((disk.modules.getD []).set name tree) })

/-- A revision source that cannot be reached: every clone fails. -/
def unreachableGit : Git where
  mkdirTemp := true
  clone := fun _ => false
  listTags := fun _ => none
  getCommitHash := fun _ _ => none
  checkout := fun _ _ => false
  manifestAt := fun _ _ => ManifestFile.absent

/-- The state of `sharedDisk` after `installPackage("P", "u", "commit-1.2.3-abcdef")`
with `sampleGit` as revision source. -/
def cachedDisk : Disk :=
  { sharedDisk with
    modules := some [("P", { url := "u", commit := "commit-1.2.3-abcdef" })],
    cache := [("P-commit-1.2.3", { url := "u", commit := "commit-1.2.3-abcdef" })] }

/-! # Properties

The remainder of the development states and proves properties of the
definitions above. -/

/-! ## Go maps and transient directories -/

section MapLemmas

variable {β : Type}

theorem GoMap.get?_set_self (m : GoMap β) (k : String) (v : β) :
    (m.set k v).get? k = some v := by
  induction m with
  | nil => simp [GoMap.set, GoMap.get?]
  | cons e m ih =>
    obtain ⟨k', w⟩ := e
    by_cases h : k' = k
    · simp [GoMap.set, GoMap.get?, h]
    · simp [GoMap.set, GoMap.get?, h, ih]

theorem GoMap.get?_set_other (m : GoMap β) (k k' : String) (v : β) (h : k' ≠ k) :
    (m.set k v).get? k' = m.get? k' := by
  induction m with
  | nil => simp [GoMap.set, GoMap.get?, Ne.symm h]
  | cons e m ih =>
    obtain ⟨k0, w⟩ := e
    by_cases h0 : k0 = k
    · subst h0
      simp [GoMap.set, GoMap.get?, Ne.symm h]
    · by_cases h1 : k0 = k'
      · subst h1
        simp [GoMap.set, GoMap.get?, h0]
      · simp [GoMap.set, GoMap.get?, h0, h1, ih]

theorem GoMap.get?_eq_none_iff (m : GoMap β) (k : String) :
    m.get? k = none ↔ k ∉ m.keys := by
  induction m with
  | nil => simp [GoMap.get?, GoMap.keys]
  | cons e m ih =>
    obtain ⟨k0, w⟩ := e
    by_cases h0 : k0 = k
    · simp [GoMap.get?, GoMap.keys, h0]
    · have : ¬ k = k0 := fun h => h0 h.symm
      simp only [GoMap.keys] at ih
      simp [GoMap.get?, GoMap.keys, h0, this, ih]

theorem GoMap.keys_set (m : GoMap β) (k : String) (v : β) :
    (m.set k v).keys = if k ∈ m.keys then m.keys else m.keys ++ [k] := by
  induction m with
  | nil => simp [GoMap.set, GoMap.keys]
  | cons e m ih =>
    obtain ⟨k0, w⟩ := e
    by_cases h0 : k0 = k
    · simp [GoMap.set, GoMap.keys, h0]
    · have h1 : ¬ k = k0 := fun h => h0 h.symm
      simp only [GoMap.keys] at ih
      by_cases hm : k ∈ List.map Prod.fst m
      · simp [GoMap.set, GoMap.keys, h0, h1, ih, hm]
      · simp [GoMap.set, GoMap.keys, h0, h1, ih, hm]

theorem GoMap.mem_keys_set (m : GoMap β) (k k' : String) (v : β) :
    k' ∈ (m.set k v).keys ↔ k' = k ∨ k' ∈ m.keys := by
  rw [GoMap.keys_set]
  by_cases hm : k ∈ m.keys
  · simp only [hm, if_true]
    constructor
    · intro h; exact Or.inr h
    · rintro (rfl | h)
      · exact hm
      · exact h
  · simp only [hm, if_false, List.mem_append, List.mem_singleton]
    tauto

theorem GoMap.get?_of_mem_nodup (m : GoMap β) (k : String) (v : β)
    (hnd : m.keys.Nodup) (hmem : (k, v) ∈ m) : m.get? k = some v := by
  induction m with
  | nil => cases hmem
  | cons e m ih =>
    obtain ⟨k0, w⟩ := e
    simp only [GoMap.keys, List.map_cons, List.nodup_cons] at hnd
    rcases List.mem_cons.1 hmem with h | h
    · cases h
      simp [GoMap.get?]
    · have hk : k0 ≠ k := by
        intro e
        apply hnd.1
        rw [e]
        exact List.mem_map_of_mem Prod.fst h
      simp [GoMap.get?, hk, ih hnd.2 h]

end MapLemmas

theorem TempFS.fresh_gt (fs : TempFS) : ∀ e ∈ fs, e.1 < fs.fresh := by
  induction fs with
  | nil => intro e he; cases he
  | cons a fs ih =>
    intro e he
    simp only [TempFS.fresh, List.map_cons, List.foldr_cons] at ih ⊢
    rcases List.mem_cons.1 he with rfl | h
    · omega
    · have := ih e h
      omega

theorem TempFS.write_fresh (fs : TempFS) (m : ManifestFile) :
    fs.write fs.fresh m = fs := by
  have hfr := TempFS.fresh_gt fs
  unfold TempFS.write
  have : ∀ e ∈ fs, (fun e : ℕ × ManifestFile => if e.1 = fs.fresh then (fs.fresh, m) else e) e
      = id e := by
    intro e he
    have := hfr e he
    have hne : e.1 ≠ fs.fresh := by omega
    simp [hne]
  rw [List.map_congr_left this, List.map_id]

theorem TempFS.removeAll_fresh (fs : TempFS) : fs.removeAll fs.fresh = fs := by
  have hfr := TempFS.fresh_gt fs
  unfold TempFS.removeAll
  apply List.filter_eq_self.2
  intro e he
  have := hfr e he
  have hne : e.1 ≠ fs.fresh := by omega
  simp [hne]

theorem TempFS.removeAll_cons_fresh (fs : TempFS) (m : ManifestFile) :
    TempFS.removeAll ((fs.fresh, m) :: fs) fs.fresh = fs := by
  have h := TempFS.removeAll_fresh fs
  unfold TempFS.removeAll at h ⊢
  rw [List.filter_cons_of_neg (by simp), h]

theorem TempFS.write_cons_fresh (fs : TempFS) (m m' : ManifestFile) :
    TempFS.write ((fs.fresh, m) :: fs) fs.fresh m' = (fs.fresh, m') :: fs := by
  have h := TempFS.write_fresh fs m'
  unfold TempFS.write at h ⊢
  simp only [List.map_cons, if_true]
  rw [h]

theorem TempFS.read_cons_self (fs : TempFS) (d : ℕ) (m : ManifestFile) :
    TempFS.read ((d, m) :: fs) d = m := by
  simp [TempFS.read]

/-! ## Properties of version selection -/

section SelectionLemmas

variable {K C : Type} [LinearOrder K]

omit [LinearOrder K] in
theorem NewVersion_original (sv : Semver K C) {t : String} {w : Version K}
    (h : sv.NewVersion t = some w) : w.original = t := by
  unfold Semver.NewVersion at h
  cases hk : sv.parseVersion t with
  | none => simp [hk] at h
  | some k =>
    simp [hk] at h
    rw [← h]

omit [LinearOrder K] in
theorem satisfies_iff (sv : Semver K C) (c : C) (t : String) :
    sv.satisfies c t = true ↔ ∃ w, sv.NewVersion t = some w ∧ sv.check c w = true := by
  unfold Semver.satisfies
  cases h : sv.NewVersion t with
  | none => simp
  | some v => simp

theorem selectBest_some_ne_none (sv : Semver K C) (c : C) :
    ∀ (tags : List String) (b : Version K), selectBest sv c tags (some b) ≠ none := by
  intro tags
  induction tags with
  | nil => intro b; simp [selectBest]
  | cons t ts ih =>
    intro b
    unfold selectBest
    cases hv : sv.NewVersion t with
    | none => simpa using ih b
    | some w =>
      by_cases hc : sv.check c w = true
      · by_cases hg : w.GreaterThan b = true
        · simpa [hc, hg] using ih w
        · simpa [hc, hg] using ih b
      · simpa [hc] using ih b

theorem selectBest_none_iff (sv : Semver K C) (c : C) :
    ∀ tags : List String, selectBest sv c tags none = none ↔
      ∀ t ∈ tags, sv.satisfies c t = false := by
  intro tags
  induction tags with
  | nil => simp [selectBest]
  | cons t ts ih =>
    unfold selectBest
    cases hv : sv.NewVersion t with
    | none =>
      simp only [List.mem_cons, forall_eq_or_imp]
      rw [ih]
      simp [Semver.satisfies, hv]
    | some w =>
      by_cases hc : sv.check c w = true
      · simp only [hc, if_true, List.mem_cons, forall_eq_or_imp]
        constructor
        · intro h
          exact absurd h (selectBest_some_ne_none sv c ts w)
        · intro h
          have := h.1
          simp [Semver.satisfies, hv, hc] at this
      · simp only [hc, List.mem_cons, forall_eq_or_imp]
        rw [if_neg (by simp), ih]
        simp [Semver.satisfies, hv, hc]

theorem selectBest_acc (sv : Semver K C) (c : C) :
    ∀ (tags : List String) (b v : Version K), selectBest sv c tags (some b) = some v →
      (v = b ∧ ∀ t ∈ tags, ∀ w, sv.NewVersion t = some w → sv.check c w = true →
          w.key ≤ b.key) ∨
      (b.key < v.key ∧ ∃ pre post, tags = pre ++ v.original :: post ∧
        sv.NewVersion v.original = some v ∧ sv.check c v = true ∧
        (∀ t ∈ pre, ∀ w, sv.NewVersion t = some w → sv.check c w = true → w.key < v.key) ∧
        (∀ t ∈ post, ∀ w, sv.NewVersion t = some w → sv.check c w = true →
          w.key ≤ v.key)) := by
  intro tags
  induction tags with
  | nil =>
    intro b v h
    simp [selectBest] at h
    left
    exact ⟨h.symm, by simp⟩
  | cons t ts ih =>
    intro b v h
    unfold selectBest at h
    cases hv : sv.NewVersion t with
    | none =>
      simp only [hv] at h
      rcases ih b v h with ⟨e, hall⟩ | ⟨hlt, pre, post, hd, hnv, hck, hpre, hpost⟩
      · left
        refine ⟨e, ?_⟩
        intro t' ht' w hw hcw
        rcases List.mem_cons.1 ht' with rfl | hm
        · rw [hv] at hw; cases hw
        · exact hall t' hm w hw hcw
      · right
        refine ⟨hlt, t :: pre, post, by simp [hd], hnv, hck, ?_, hpost⟩
        intro t' ht' w hw hcw
        rcases List.mem_cons.1 ht' with rfl | hm
        · rw [hv] at hw; cases hw
        · exact hpre t' hm w hw hcw
    | some u =>
      simp only [hv] at h
      by_cases hc : sv.check c u = true
      · by_cases hg : u.GreaterThan b = true
        · simp only [hc, hg, if_true] at h
          have hbu : b.key < u.key := by simpa [Version.GreaterThan] using hg
          have huo : u.original = t := NewVersion_original sv hv
          right
          rcases ih u v h with ⟨e, hall⟩ | ⟨hlt, pre, post, hd, hnv, hck, hpre, hpost⟩
          · subst e
            refine ⟨hbu, [], ts, by simp [huo], by rw [huo]; exact hv, hc, by simp, hall⟩
          · refine ⟨lt_trans hbu hlt, t :: pre, post, by simp [hd], hnv, hck, ?_, hpost⟩
            intro t' ht' w hw hcw
            rcases List.mem_cons.1 ht' with rfl | hm
            · rw [hv] at hw
              cases hw
              exact hlt
            · exact hpre t' hm w hw hcw
        · simp only [hc, hg, if_true] at h
          have hub : u.key ≤ b.key := by
            have : ¬ b.key < u.key := by simpa [Version.GreaterThan] using hg
            exact not_lt.1 this
          rcases ih b v h with ⟨e, hall⟩ | ⟨hlt, pre, post, hd, hnv, hck, hpre, hpost⟩
          · left
            refine ⟨e, ?_⟩
            intro t' ht' w hw hcw
            rcases List.mem_cons.1 ht' with rfl | hm
            · rw [hv] at hw
              cases hw
              exact hub
            · exact hall t' hm w hw hcw
          · right
            refine ⟨hlt, t :: pre, post, by simp [hd], hnv, hck, ?_, hpost⟩
            intro t' ht' w hw hcw
            rcases List.mem_cons.1 ht' with rfl | hm
            · rw [hv] at hw
              cases hw
              exact lt_of_le_of_lt hub hlt
            · exact hpre t' hm w hw hcw
      · simp only [hc] at h
        rw [if_neg (by simp)] at h
        rcases ih b v h with ⟨e, hall⟩ | ⟨hlt, pre, post, hd, hnv, hck, hpre, hpost⟩
        · left
          refine ⟨e, ?_⟩
          intro t' ht' w hw hcw
          rcases List.mem_cons.1 ht' with rfl | hm
          · rw [hv] at hw
            cases hw
            exact absurd hcw hc
          · exact hall t' hm w hw hcw
        · right
          refine ⟨hlt, t :: pre, post, by simp [hd], hnv, hck, ?_, hpost⟩
          intro t' ht' w hw hcw
          rcases List.mem_cons.1 ht' with rfl | hm
          · rw [hv] at hw
            cases hw
            exact absurd hcw hc
          · exact hpre t' hm w hw hcw

theorem selectBest_firstMax (sv : Semver K C) (c : C) :
    ∀ (tags : List String) (v : Version K), selectBest sv c tags none = some v →
      IsFirstMax sv c tags v.original := by
  intro tags
  induction tags with
  | nil => intro v h; simp [selectBest] at h
  | cons t ts ih =>
    intro v h
    unfold selectBest at h
    cases hv : sv.NewVersion t with
    | none =>
      simp only [hv] at h
      obtain ⟨pre, post, w, hd, hnv, hck, hpre, hpost⟩ := ih v h
      refine ⟨t :: pre, post, w, by simp [hd], hnv, hck, ?_, hpost⟩
      intro t' ht' w' hw hcw
      rcases List.mem_cons.1 ht' with rfl | hm
      · rw [hv] at hw; cases hw
      · exact hpre t' hm w' hw hcw
    | some u =>
      simp only [hv] at h
      by_cases hc : sv.check c u = true
      · simp only [hc, if_true] at h
        have huo : u.original = t := NewVersion_original sv hv
        rcases selectBest_acc sv c ts u v h with
          ⟨e, hall⟩ | ⟨hlt, pre, post, hd, hnv, hck, hpre, hpost⟩
        · subst e
          exact ⟨[], ts, v, by simp [huo], by rw [huo]; exact hv, hc, by simp, hall⟩
        · refine ⟨t :: pre, post, v, by simp [hd], hnv, hck, ?_, hpost⟩
          intro t' ht' w hw hcw
          rcases List.mem_cons.1 ht' with rfl | hm
          · rw [hv] at hw
            cases hw
            exact hlt
          · exact hpre t' hm w hw hcw
      · simp only [hc] at h
        rw [if_neg (by simp)] at h
        obtain ⟨pre, post, w, hd, hnv, hck, hpre, hpost⟩ := ih v h
        refine ⟨t :: pre, post, w, by simp [hd], hnv, hck, ?_, hpost⟩
        intro t' ht' w' hw hcw
        rcases List.mem_cons.1 ht' with rfl | hm
        · rw [hv] at hw
          cases hw
          exact absurd hcw hc
        · exact hpre t' hm w' hw hcw

/-- The result of `resolveVersion` on a range constraint, once the clone and
the tag listing have succeeded: the no-version error when no tag satisfies the
range, otherwise what the commit lookup and the checkout of the first maximal
satisfying tag give. -/
theorem resolveVersion_range (sv : Semver K C) (git : Git) (url c : String) (k : C)
    (tags : List String) (fs : TempFS)
    (hc : sv.parseConstraint c = some k) (hm : git.mkdirTemp = true)
    (hcl : git.clone url = true) (ht : git.listTags url = some tags) :
    ((∀ t ∈ tags, sv.satisfies k t = false) ∧
      (resolveVersion sv git url c fs).1 = .error (.noVersion c url)) ∨
    (∃ label, IsFirstMax sv k tags label ∧
      (resolveVersion sv git url c fs).1 =
        match git.getCommitHash url label with
        | none => .error (.noCommit label)
        | some commit =>
          if git.checkout url commit = false then .error (.checkout commit)
          else .ok (label, commit, fs.mkdir.1)) := by
  cases hs : selectBest sv k tags none with
  | none =>
    left
    refine ⟨(selectBest_none_iff sv k tags).1 hs, ?_⟩
    simp [resolveVersion, hm, hcl, ht, hc, hs]
  | some v =>
    right
    refine ⟨v.original, selectBest_firstMax sv k tags v hs, ?_⟩
    cases hh : git.getCommitHash url v.original with
    | none => simp [resolveVersion, hm, hcl, ht, hc, hs, hh]
    | some commit =>
      by_cases hco : git.checkout url commit = false
      · simp [resolveVersion, hm, hcl, ht, hc, hs, hh, hco]
      · simp [resolveVersion, hm, hcl, ht, hc, hs, hh, hco]

theorem IsFirstMax.label_mem {sv : Semver K C} {c : C} {tags : List String} {label : String}
    (h : IsFirstMax sv c tags label) : label ∈ tags ∧ sv.satisfies c label = true := by
  obtain ⟨pre, post, v, hd, hnv, hck, _, _⟩ := h
  refine ⟨by simp [hd], ?_⟩
  exact (satisfies_iff sv c label).2 ⟨v, hnv, hck⟩

end SelectionLemmas

/-! ## C1: version selection -/

section C1

variable {K C : Type} [LinearOrder K]

/-- C1 (as amended): for every tag list and every constraint string that parses
as a range, provided the revision source resolves every listed tag to a commit
and every checkout succeeds, `resolveVersion` succeeds iff some tag parses as a
version and satisfies the range, fails with the no-version error otherwise, and
on success returns as label a satisfying tag of maximal version, the first such
tag in list order, together with the commit of that tag. -/
theorem resolveVersion_selects_first_maximal (sv : Semver K C) (git : Git)
    (url c : String) (k : C) (tags : List String) (fs : TempFS)
    (hc : sv.parseConstraint c = some k) (hm : git.mkdirTemp = true)
    (hcl : git.clone url = true) (ht : git.listTags url = some tags)
    (hhash : ∀ t ∈ tags, (git.getCommitHash url t).isSome = true)
    (hco : ∀ commit, git.checkout url commit = true) :
    ((∃ r, (resolveVersion sv git url c fs).1 = .ok r) ↔
        ∃ t ∈ tags, sv.satisfies k t = true) ∧
    ((¬ ∃ t ∈ tags, sv.satisfies k t = true) →
        (resolveVersion sv git url c fs).1 = .error (.noVersion c url)) ∧
    (∀ label commit dir, (resolveVersion sv git url c fs).1 = .ok (label, commit, dir) →
        IsFirstMax sv k tags label ∧ git.getCommitHash url label = some commit) := by
  rcases resolveVersion_range sv git url c k tags fs hc hm hcl ht with
    ⟨hno, hres⟩ | ⟨label, hfm, hres⟩
  · refine ⟨?_, fun _ => hres, ?_⟩
    · constructor
      · rintro ⟨r, hr⟩
        rw [hres] at hr
        cases hr
      · rintro ⟨t, ht', hs⟩
        rw [hno t ht'] at hs
        cases hs
    · intro label commit dir hr
      rw [hres] at hr
      cases hr
  · have hmem := hfm.label_mem
    obtain ⟨commit, hcm⟩ := Option.isSome_iff_exists.1 (hhash label hmem.1)
    have hok : (resolveVersion sv git url c fs).1 = .ok (label, commit, fs.mkdir.1) := by
      rw [hres, hcm]
      simp [hco commit]
    refine ⟨?_, ?_, ?_⟩
    · exact ⟨fun _ => ⟨label, hmem.1, hmem.2⟩, fun _ => ⟨_, hok⟩⟩
    · intro hne
      exact absurd ⟨label, hmem.1, hmem.2⟩ hne
    · intro label' commit' dir' hr
      rw [hok] at hr
      injection hr with hr
      injection hr with h1 h2
      injection h2 with h2 h3
      subst h1
      subst h2
      exact ⟨hfm, hcm⟩

/-- Witness of C1: tags 1.0.0, 1.2.0, 1.2.3, 2.0.0 with constraint `^1.0.0` give
the label 1.2.3, which is the first maximal satisfying tag. -/
theorem resolveVersion_selects_first_maximal_witness :
    (resolveVersion plainSemver sampleGit "u" "^1.0.0" []).1
        = .ok ("1.2.3", "commit-1.2.3", 1) ∧
    IsFirstMax plainSemver (.range (PlainKey.mk 1 0 0) (PlainKey.mk 2 0 0))
        ["1.0.0", "1.2.0", "1.2.3", "2.0.0"] "1.2.3" :=
  ⟨by decide,
    ((resolveVersion_selects_first_maximal plainSemver sampleGit "u" "^1.0.0"
      (.range (PlainKey.mk 1 0 0) (PlainKey.mk 2 0 0))
      ["1.0.0", "1.2.0", "1.2.3", "2.0.0"] [] (by decide) (by decide) (by decide)
      (by decide) (by intro t _; rfl) (by intro _; rfl)).2.2
      "1.2.3" "commit-1.2.3" 1 (by decide)).1⟩

/-- Counterexample to C1 as stated: the constraint `^1.0.0` parses as a range
and the listed tag 1.0.0 satisfies it, yet `resolveVersion` fails (with the
commit-lookup error, not the no-version error) because the revision source does
not resolve the selected tag. -/
theorem resolveVersion_fails_despite_satisfying_tag :
    plainSemver.parseConstraint "^1.0.0"
        = some (.range (PlainKey.mk 1 0 0) (PlainKey.mk 2 0 0)) ∧
    offlineGit.listTags "u" = some ["1.0.0"] ∧
    plainSemver.satisfies (.range (PlainKey.mk 1 0 0) (PlainKey.mk 2 0 0)) "1.0.0" = true ∧
    resolveVersion plainSemver offlineGit "u" "^1.0.0" [] = (.error (.noCommit "1.0.0"), []) := by
  refine ⟨by decide, by decide, by decide, by decide⟩

end C1

section
variable {K C : Type} [LinearOrder K]

theorem TempFS.mkdir_fst (fs : TempFS) : fs.mkdir.1 = fs.fresh := rfl
theorem TempFS.mkdir_snd (fs : TempFS) : fs.mkdir.2 = (fs.fresh, ManifestFile.absent) :: fs := rfl

/-- `resolveVersion` acts on the transient directories as the resolver function
of its oracle. -/
theorem resolveVersion_eq_call (sv : Semver K C) (git : Git) (url c : String) (fs : TempFS) :
    resolveVersion sv git url c fs = (resolveOracle sv git).call url c fs := by
  have e0 : TempFS.fresh [] = 1 := rfl
  unfold Oracle.call resolveOracle resolveVersion
  simp only [TempFS.mkdir_fst, TempFS.mkdir_snd, TempFS.write_cons_fresh,
    TempFS.removeAll_cons_fresh]
  by_cases hm : git.mkdirTemp = false
  · simp [hm]
  by_cases hcl : git.clone url = false
  · simp [hm, hcl]
  simp only [hm, hcl, if_false]
  cases ht : git.listTags url with
  | none => simp
  | some tags =>
    cases hc : sv.parseConstraint c with
    | none =>
      cases hh : git.getCommitHash url c with
      | none => simp
      | some commit => simp [TempFS.read_cons_self]
    | some k =>
      cases hs : selectBest sv k tags none with
      | none => simp [hs]
      | some v =>
        cases hh : git.getCommitHash url v.original with
        | none => simp [hs, hh]
        | some commit =>
          by_cases hco : git.checkout url commit = false
          · simp [hs, hh, hco]
          · simp [hs, hh, hco, TempFS.read_cons_self]
end

/-! ## Resolver calls through an oracle -/

theorem Sys.call_oracle (o : Oracle) (url c : String) (sys : Sys) :
    Sys.call o.call url c sys =
      match o url c with
      | .error e =>
        (.error e, { fs := sys.fs,
                     trace := { sys.trace with calls := sys.trace.calls ++ [(url, c)] } })
      | .ok p =>
        (.ok (p.label, p.commit, sys.fs.fresh),
          { fs := (sys.fs.fresh, p.manifest) :: sys.fs,
            trace := { sys.trace with calls := sys.trace.calls ++ [(url, c)] } }) := by
  unfold Sys.call Oracle.call
  cases h : o url c with
  | error e => simp
  | ok p => simp [TempFS.mkdir_fst, TempFS.mkdir_snd, TempFS.write_cons_fresh]

section ConflictLemmas

variable {K C : Type} [LinearOrder K]

omit [LinearOrder K] in
theorem NewVersion_inj (sv : Semver K C) {t : String} {v w : Version K}
    (hv : sv.NewVersion t = some v) (hw : sv.NewVersion t = some w) : v = w := by
  rw [hv] at hw
  exact Option.some.inj hw

theorem highest_acc :
    ∀ (vs : List (Version K)) (h r : Version K), highest h vs = r →
      (r = h ∧ ∀ w ∈ vs, w.key ≤ h.key) ∨
      (h.key < r.key ∧ ∃ pre post, vs = pre ++ r :: post ∧
        (∀ w ∈ pre, w.key < r.key) ∧ (∀ w ∈ post, w.key ≤ r.key)) := by
  intro vs
  induction vs with
  | nil =>
    intro h r e
    left
    exact ⟨by simpa [highest] using e.symm, by simp⟩
  | cons v vs ih =>
    intro h r e
    unfold highest at e
    by_cases hg : v.GreaterThan h = true
    · simp only [hg, if_true] at e
      have hlt : h.key < v.key := by simpa [Version.GreaterThan] using hg
      right
      rcases ih v r e with ⟨e1, hall⟩ | ⟨hlt', pre, post, hd, hpre, hpost⟩
      · subst e1
        exact ⟨hlt, [], vs, by simp, by simp, hall⟩
      · refine ⟨lt_trans hlt hlt', v :: pre, post, by simp [hd], ?_, hpost⟩
        intro w hw
        rcases List.mem_cons.1 hw with rfl | hm
        · exact hlt'
        · exact hpre w hm
    · simp only [hg] at e
      rw [if_neg (by simp)] at e
      have hle : v.key ≤ h.key := by
        have : ¬ h.key < v.key := by simpa [Version.GreaterThan] using hg
        exact not_lt.1 this
      rcases ih h r e with ⟨e1, hall⟩ | ⟨hlt', pre, post, hd, hpre, hpost⟩
      · left
        refine ⟨e1, ?_⟩
        intro w hw
        rcases List.mem_cons.1 hw with rfl | hm
        · exact hle
        · exact hall w hm
      · right
        refine ⟨hlt', v :: pre, post, by simp [hd], ?_, hpost⟩
        intro w hw
        rcases List.mem_cons.1 hw with rfl | hm
        · exact lt_of_le_of_lt hle hlt'
        · exact hpre w hm

/-- The running maximum of a non-empty list of parsed labels is the first
highest label. -/
theorem highest_isFirstHighest (sv : Semver K C) (v0 : Version K) (vs : List (Version K))
    (hp : ∀ v ∈ v0 :: vs, sv.NewVersion v.original = some v) :
    IsFirstHighest sv ((v0 :: vs).map (fun v => v.original)) (highest v0 vs).original := by
  have hmemP : ∀ (l : List (Version K)), (∀ v ∈ l, sv.NewVersion v.original = some v) →
      ∀ t ∈ l.map (fun v => v.original), ∀ w, sv.NewVersion t = some w → w ∈ l := by
    intro l hl t ht w hw
    obtain ⟨v, hv, rfl⟩ := List.mem_map.1 ht
    have := NewVersion_inj sv (hl v hv) hw
    rw [← this]
    exact hv
  generalize hR : highest v0 vs = r
  rcases highest_acc vs v0 r hR with ⟨e, hall⟩ | ⟨hlt, pre, post, hd, hpre, hpost⟩
  · refine ⟨[], vs.map (fun v => v.original), v0, by simp [e], ?_, by simp, ?_⟩
    · rw [e]
      exact hp v0 (List.mem_cons_self _ _)
    · intro t ht w hw
      have hvs : ∀ v ∈ vs, sv.NewVersion v.original = some v :=
        fun v hv => hp v (List.mem_cons_of_mem _ hv)
      exact hall w (hmemP vs hvs t ht w hw)
  · have hr : r ∈ v0 :: vs := by
      rw [hd]
      simp
    have hpreP : ∀ v ∈ v0 :: pre, sv.NewVersion v.original = some v := by
      intro v hv
      apply hp
      rcases List.mem_cons.1 hv with rfl | hm
      · exact List.mem_cons_self _ _
      · apply List.mem_cons_of_mem
        rw [hd]
        exact List.mem_append_left _ hm
    have hpostP : ∀ v ∈ post, sv.NewVersion v.original = some v := by
      intro v hv
      apply hp
      apply List.mem_cons_of_mem
      rw [hd]
      exact List.mem_append_right _ (List.mem_cons_of_mem _ hv)
    refine ⟨(v0 :: pre).map (fun v => v.original), post.map (fun v => v.original),
      r, ?_, hp _ hr, ?_, ?_⟩
    · rw [hd]
      simp
    · intro t ht w hw
      have hw' := hmemP (v0 :: pre) hpreP t ht w hw
      rcases List.mem_cons.1 hw' with rfl | hm
      · exact hlt
      · exact hpre w hm
    · intro t ht w hw
      exact hpost w (hmemP post hpostP t ht w hw)

omit [LinearOrder K] in
theorem Oracle.versions_spec (sv : Semver K C) (o : Oracle) (url : String) :
    ∀ cs : List String,
      (∀ c ∈ cs, ∃ p v, o url c = .ok p ∧ sv.NewVersion p.label = some v) →
      (o.versions sv url cs).map (fun v => v.original) = o.labels url cs ∧
      (o.versions sv url cs).length = cs.length ∧
      ∀ v ∈ o.versions sv url cs, sv.NewVersion v.original = some v := by
  intro cs
  induction cs with
  | nil => intro _; simp [Oracle.versions, Oracle.labels]
  | cons c cs ih =>
    intro h
    obtain ⟨p, v, hp, hv⟩ := h c (List.mem_cons_self _ _)
    obtain ⟨h1, h2, h3⟩ := ih (fun c' hc' => h c' (List.mem_cons_of_mem _ hc'))
    have hvo : v.original = p.label := NewVersion_original sv hv
    have e1 : o.versions sv url (c :: cs) = v :: o.versions sv url cs := by
      simp [Oracle.versions, hp, hv]
    have e2 : o.labels url (c :: cs) = p.label :: o.labels url cs := by
      simp [Oracle.labels, hp]
    rw [e1, e2]
    refine ⟨by simp [h1, hvo], by simp [h2], ?_⟩
    intro w hw
    rcases List.mem_cons.1 hw with rfl | hm
    · rw [hvo]; exact hv
    · exact h3 w hm

omit [LinearOrder K] in
/-- When every constraint resolves to a label that parses, the first loop
collects the parsed labels in order. -/
theorem resolveEach_ok (sv : Semver K C) (o : Oracle) (release : Bool) (name url : String) :
    ∀ (cs : List String) (acc : List (Version K)) (sys : Sys),
      (∀ c ∈ cs, ∃ p v, o url c = .ok p ∧ sv.NewVersion p.label = some v) →
      (resolveEach sv o.call release name url cs acc sys).1
        = .ok (acc ++ o.versions sv url cs) := by
  intro cs
  induction cs with
  | nil =>
    intro acc sys _
    simp [resolveEach, Oracle.versions]
  | cons c cs ih =>
    intro acc sys h
    obtain ⟨p, v, hp, hv⟩ := h c (List.mem_cons_self _ _)
    have hrest : ∀ c' ∈ cs, ∃ p v, o url c' = .ok p ∧ sv.NewVersion p.label = some v :=
      fun c' hc' => h c' (List.mem_cons_of_mem _ hc')
    have e1 : o.versions sv url (c :: cs) = v :: o.versions sv url cs := by
      simp [Oracle.versions, hp, hv]
    unfold resolveEach
    rw [Sys.call_oracle]
    simp only [hp, hv]
    rw [ih _ _ hrest, e1]
    simp

/-- The result of the loop body for one name, when every constraint resolves
to a label that parses: the entry for the first highest label with the commit
of a further resolver call on that label, or the error of that call. -/
theorem resolveName_oracle (sv : Semver K C) (o : Oracle) (name url : String)
    (cs : List String) (hcs : cs ≠ [])
    (h : ∀ c ∈ cs, ∃ p v, o url c = .ok p ∧ sv.NewVersion p.label = some v) :
    ∃ winner, IsFirstHighest sv (o.labels url cs) winner ∧
      ∀ (release : Bool) (sys : Sys), (resolveName sv o.call release name url cs sys).1 =
        match o url winner with
        | .error e => .error e
        | .ok p => .ok { url := url, version := winner, commit := p.commit } := by
  obtain ⟨h2, h3, h4⟩ := Oracle.versions_spec sv o url cs h
  cases hvs : o.versions sv url cs with
  | nil =>
    exfalso
    apply hcs
    rw [hvs] at h3
    exact List.length_eq_zero.1 h3.symm
  | cons v0 vs =>
    rw [hvs] at h2 h4
    refine ⟨(highest v0 vs).original, ?_, ?_⟩
    · rw [← h2]
      exact highest_isFirstHighest sv v0 vs h4
    · intro release sys
      have hre := resolveEach_ok sv o release name url cs [] sys h
      rw [hvs, List.nil_append] at hre
      unfold resolveName
      generalize hR : resolveEach sv o.call release name url cs [] sys = R at hre
      obtain ⟨r1, sys1⟩ := R
      simp only at hre
      subst hre
      simp only
      rw [Sys.call_oracle]
      cases o url (highest v0 vs).original with
      | error e => simp
      | ok p => simp

/-- The map returned by the outer loop holds, for every name visited, the
entry computed by the loop body for that name. -/
theorem resolveEntries_ok (sv : Semver K C) (rv : ResolverFn) (release : Bool)
    (urls : GoMap String) :
    ∀ (entries : List (String × List String)) (acc : GoMap LockedDependency) (sys : Sys)
      (m : GoMap LockedDependency) (sys' : Sys),
      resolveEntries sv rv release urls entries acc sys = (.ok m, sys') →
      (entries.map Prod.fst).Nodup →
      (∀ name cs, (name, cs) ∈ entries → ∃ sys0 sys1 dep,
        resolveName sv rv release name (urls.getStr name) cs sys0 = (.ok dep, sys1) ∧
        m.get? name = some dep) ∧
      (∀ k, k ∉ entries.map Prod.fst → m.get? k = acc.get? k) := by
  intro entries
  induction entries with
  | nil =>
    intro acc sys m sys' h _
    simp only [resolveEntries, Prod.mk.injEq, Outcome.ok.injEq] at h
    obtain ⟨rfl, _⟩ := h
    exact ⟨by simp, fun _ _ => rfl⟩
  | cons e rest ih =>
    intro acc sys m sys' h hnd
    obtain ⟨n, cs0⟩ := e
    simp only [List.map_cons, List.nodup_cons] at hnd
    unfold resolveEntries at h
    generalize hR : resolveName sv rv release n (urls.getStr n) cs0 sys = R at h
    obtain ⟨r, sys1⟩ := R
    cases r with
    | error e => simp at h
    | panic => simp at h
    | ok dep =>
      simp only at h
      obtain ⟨ih1, ih2⟩ := ih (acc.set n dep) sys1 m sys' h hnd.2
      constructor
      · intro name cs hmem
        rcases List.mem_cons.1 hmem with heq | hm
        · cases heq
          refine ⟨sys, sys1, dep, hR, ?_⟩
          rw [ih2 n hnd.1, GoMap.get?_set_self]
        · exact ih1 name cs hm
      · intro k hk
        simp only [List.map_cons, List.mem_cons, not_or] at hk
        rw [ih2 k hk.2, GoMap.get?_set_other _ _ _ _ hk.1]

/-- The entry of a name in the map returned by the outer loop over an
oracle. -/
theorem resolveEntries_entry (sv : Semver K C) (o : Oracle) (release : Bool) (ord : MapOrder)
    (discovered : DiscoveryResult) (name : String) (cs : List String) (winner : String)
    (hnd : discovered.constraints.keys.Nodup)
    (hmem : (name, cs) ∈ discovered.constraints)
    (hw : ∀ (release : Bool) (sys : Sys),
      (resolveName sv o.call release name (discovered.urls.getStr name) cs sys).1 =
        match o (discovered.urls.getStr name) winner with
        | .error e => .error e
        | .ok p => .ok { url := discovered.urls.getStr name, version := winner,
                         commit := p.commit })
    (sys : Sys) (m : GoMap LockedDependency) (sys' : Sys)
    (hok : resolveEntries sv o.call release discovered.urls
      (ord.order discovered.constraints) [] sys = (.ok m, sys')) :
    ∃ p, o (discovered.urls.getStr name) winner = .ok p ∧
      m.get? name = some { url := discovered.urls.getStr name, version := winner,
                           commit := p.commit } := by
  have hperm := ord.perm discovered.constraints
  have hnd' : ((ord.order discovered.constraints).map Prod.fst).Nodup :=
    (List.Perm.nodup_iff (List.Perm.map Prod.fst hperm)).2 hnd
  have hmem' : (name, cs) ∈ ord.order discovered.constraints := (List.Perm.mem_iff hperm).2 hmem
  obtain ⟨sys0, sys1, dep, hdep, hget⟩ :=
    (resolveEntries_ok sv o.call release discovered.urls _ [] sys m sys' hok hnd').1
      name cs hmem'
  have h1 := hw release sys0
  rw [hdep] at h1
  cases hp : o (discovered.urls.getStr name) winner with
  | error e =>
    rw [hp] at h1
    cases h1
  | ok p =>
    rw [hp] at h1
    simp only [Outcome.ok.injEq] at h1
    exact ⟨p, rfl, by rw [hget, h1]⟩

end ConflictLemmas

/-! ## C2: conflict arbitration -/

section C2

variable {K C : Type} [LinearOrder K]

theorem resolveVersion_funext (sv : Semver K C) (git : Git) :
    resolveVersion sv git = (resolveOracle sv git).call := by
  funext url c fs
  exact resolveVersion_eq_call sv git url c fs

end C2

/-! ## Invariants of discovery -/

theorem GoMap.getList_set_self (m : GoMap (List String)) (k : String) (v : List String) :
    (m.set k v).getList k = v := by
  simp [GoMap.getList, GoMap.get?_set_self]

theorem GoMap.getList_set_other (m : GoMap (List String)) (k k' : String) (v : List String)
    (h : k' ≠ k) : (m.set k v).getList k' = m.getList k' := by
  simp [GoMap.getList, GoMap.get?_set_other _ _ _ _ h]

theorem GoMap.keys_nodup_set {β : Type} (m : GoMap β) (k : String) (v : β)
    (h : m.keys.Nodup) : (m.set k v).keys.Nodup := by
  rw [GoMap.keys_set]
  by_cases hm : k ∈ m.keys
  · simpa [hm] using h
  · simp only [hm, if_false]
    rw [List.nodup_append]
    refine ⟨h, by simp, ?_⟩
    intro a ha hb
    simp only [List.mem_singleton] at hb
    subst hb
    exact hm ha

/-- What one declaration does to the variables and the trace. -/
theorem declare_eq (parse : String → Option (String × String)) (requester : Option String)
    (st st' : DiscState) (name pkgStr : String)
    (h : declare parse requester st name pkgStr = some st') :
    ∃ url constraint, parse pkgStr = some (url, constraint) ∧
      st'.result.urls = st.result.urls.set name url ∧
      st'.result.constraints = st.result.constraints.set name
        (st.result.constraints.getList name ++ [constraint]) ∧
      st'.sys.fs = st.sys.fs ∧
      st'.sys.trace.probed = st.sys.trace.probed ∧
      st'.sys.trace.calls = st.sys.trace.calls ∧
      st'.sys.trace.declared = st.sys.trace.declared ++
        [{ requester := requester, name := name, url := url, constraint := constraint }] ∧
      (((st.processed.get? name).getD false = true ∧ st'.queue = st.queue ∧
          st'.processed = st.processed ∧
          st'.sys.trace.enqueued = st.sys.trace.enqueued) ∨
       ((st.processed.get? name).getD false ≠ true ∧ st'.queue = st.queue ++ [name] ∧
          st'.processed = st.processed.set name true ∧
          st'.sys.trace.enqueued = st.sys.trace.enqueued ++ [name])) := by
  unfold declare at h
  cases hp : parse pkgStr with
  | none => simp [hp] at h
  | some uc =>
    obtain ⟨url, constraint⟩ := uc
    simp only [hp] at h
    by_cases hpr : (st.processed.get? name).getD false = true
    · rw [if_pos hpr] at h
      simp only [Option.some.injEq] at h
      subst h
      exact ⟨url, constraint, rfl, rfl, rfl, rfl, rfl, rfl, rfl, Or.inl ⟨hpr, rfl, rfl, rfl⟩⟩
    · rw [if_neg hpr] at h
      simp only [Option.some.injEq] at h
      subst h
      exact ⟨url, constraint, rfl, rfl, rfl, rfl, rfl, rfl, rfl, Or.inr ⟨hpr, rfl, rfl, rfl⟩⟩

theorem IsLastUrl.snoc_self (declared : List Decl) (d : Decl) :
    IsLastUrl (declared ++ [d]) d.name d.url :=
  ⟨declared, d, [], rfl, rfl, rfl, by simp⟩

theorem IsLastUrl.snoc_other {declared : List Decl} {n u : String} (d : Decl)
    (h : IsLastUrl declared n u) (hd : d.name ≠ n) : IsLastUrl (declared ++ [d]) n u := by
  obtain ⟨pre, d0, post, e, h1, h2, h3⟩ := h
  refine ⟨pre, d0, post ++ [d], by simp [e], h1, h2, ?_⟩
  intro d' hd'
  rcases List.mem_append.1 hd' with hm | hm
  · exact h3 d' hm
  · simp only [List.mem_singleton] at hm
    rw [hm]
    exact hd

/-- One declaration preserves the invariant. -/
theorem declare_inv (parse : String → Option (String × String)) (requester : Option String)
    (st st' : DiscState) (name pkgStr : String)
    (hreq : ∀ r, requester = some r → r ∈ st.sys.trace.probed)
    (hinv : DiscInv st) (h : declare parse requester st name pkgStr = some st') :
    DiscInv st' := by
  obtain ⟨url, constraint, _, hu, hc, _, hpb, _, hdecl, hcase⟩ :=
    declare_eq parse requester st st' name pkgStr h
  have henq_mem : ∀ n, n ∈ st'.sys.trace.enqueued ↔ n = name ∨ n ∈ st.sys.trace.enqueued := by
    intro n
    rcases hcase with ⟨hpr, _, _, he⟩ | ⟨hpr, _, _, he⟩
    · rw [he]
      constructor
      · exact Or.inr
      · rintro (rfl | hm)
        · exact (hinv.proc n).1 hpr
        · exact hm
    · rw [he]
      simp only [List.mem_append, List.mem_singleton]
      tauto
  refine
    { enq := ?_, nodup := ?_, proc := ?_, ukeys := ?_, ckeys := ?_, dnames := ?_, cons := ?_,
      urls := ?_, req := ?_, unodup := ?_, cnodup := ?_ }
  · rcases hcase with ⟨_, hq, _, he⟩ | ⟨_, hq, _, he⟩
    · rw [he, hq, hpb]; exact hinv.enq
    · rw [he, hq, hpb, hinv.enq, List.append_assoc]
  · rcases hcase with ⟨_, _, _, he⟩ | ⟨hpr, _, _, he⟩
    · rw [he]; exact hinv.nodup
    · rw [he, List.nodup_append]
      refine ⟨hinv.nodup, by simp, ?_⟩
      intro a ha hb
      simp only [List.mem_singleton] at hb
      subst hb
      exact hpr ((hinv.proc a).2 ha)
  · intro n
    rw [henq_mem]
    rcases hcase with ⟨hpr, _, hp, _⟩ | ⟨hpr, _, hp, _⟩
    · rw [hp, hinv.proc]
      constructor
      · exact Or.inr
      · rintro (rfl | hm)
        · exact (hinv.proc n).1 hpr
        · exact hm
    · rw [hp]
      by_cases hn : n = name
      · subst hn
        simp [GoMap.get?_set_self]
      · rw [GoMap.get?_set_other _ _ _ _ hn, hinv.proc]
        simp [hn]
  · intro n
    rw [henq_mem, hu, GoMap.mem_keys_set, hinv.ukeys]
  · intro n
    rw [henq_mem, hc, GoMap.mem_keys_set, hinv.ckeys]
  · intro n
    rw [henq_mem, hdecl, hinv.dnames]
    constructor
    · rintro (rfl | ⟨d, hd, hn⟩)
      · exact ⟨_, List.mem_append_right _ (List.mem_singleton_self _), rfl⟩
      · exact ⟨d, List.mem_append_left _ hd, hn⟩
    · rintro ⟨d, hd, hn⟩
      rcases List.mem_append.1 hd with hm | hm
      · exact Or.inr ⟨d, hm, hn⟩
      · simp only [List.mem_singleton] at hm
        subst hm
        exact Or.inl hn.symm
  · intro n
    rw [hc, hdecl, List.filter_append, List.map_append]
    by_cases hn : n = name
    · subst hn
      rw [GoMap.getList_set_self, hinv.cons]
      simp
    · rw [GoMap.getList_set_other _ _ _ _ hn, hinv.cons]
      have : ¬ name = n := fun e => hn e.symm
      simp [this]
  · intro n u hget
    rw [hu] at hget
    rw [hdecl]
    by_cases hn : n = name
    · subst hn
      rw [GoMap.get?_set_self] at hget
      cases hget
      exact IsLastUrl.snoc_self st.sys.trace.declared
        { requester := requester, name := n, url := url, constraint := constraint }
    · rw [GoMap.get?_set_other _ _ _ _ hn] at hget
      exact IsLastUrl.snoc_other _ (hinv.urls n u hget) (fun e => hn e.symm)
  · intro d hd r hr
    rw [hdecl] at hd
    rw [hpb]
    rcases List.mem_append.1 hd with hm | hm
    · exact hinv.req d hm r hr
    · simp only [List.mem_singleton] at hm
      subst hm
      exact hreq r hr
  · rw [hu]
    exact GoMap.keys_nodup_set _ _ _ hinv.unodup
  · rw [hc]
    exact GoMap.keys_nodup_set _ _ _ hinv.cnodup

theorem declare_withFs (parse : String → Option (String × String)) (requester : Option String)
    (st : DiscState) (fs : TempFS) (name pkgStr : String) :
    declare parse requester (st.withFs fs) name pkgStr =
      (declare parse requester st name pkgStr).map (fun s => s.withFs fs) := by
  unfold declare
  cases parse pkgStr with
  | none => rfl
  | some uc =>
    obtain ⟨url, constraint⟩ := uc
    by_cases hpr : (st.processed.get? name).getD false = true
    · simp [DiscState.withFs, hpr]
    · simp [DiscState.withFs, hpr]

theorem declareAll_withFs (parse : String → Option (String × String))
    (requester : Option String) (fs : TempFS) :
    ∀ (l : List (String × String)) (st : DiscState),
      declareAll parse requester l (st.withFs fs) =
        (declareAll parse requester l st).map (fun s => s.withFs fs) := by
  intro l
  induction l with
  | nil => intro st; rfl
  | cons e l ih =>
    intro st
    obtain ⟨n, p⟩ := e
    unfold declareAll
    rw [declare_withFs]
    cases declare parse requester st n p with
    | none => rfl
    | some st' => simpa using ih st'

theorem declareAll_fs (parse : String → Option (String × String))
    (requester : Option String) :
    ∀ (l : List (String × String)) (st st' : DiscState),
      declareAll parse requester l st = some st' → st'.sys.fs = st.sys.fs := by
  intro l
  induction l with
  | nil =>
    intro st st' h
    simp only [declareAll, Option.some.injEq] at h
    rw [h]
  | cons e l ih =>
    intro st st' h
    obtain ⟨n, p⟩ := e
    unfold declareAll at h
    cases hd : declare parse requester st n p with
    | none => simp [hd] at h
    | some st1 =>
      simp only [hd] at h
      obtain ⟨_, _, _, _, _, hfs, _⟩ := declare_eq parse requester st st1 n p hd
      rw [ih st1 st' h, hfs]

/-- A `range` loop of discovery preserves the invariant; it leaves the
transient directories, the probed names and the resolver calls as they were,
and appends one declaration per entry visited. -/
theorem declareAll_inv (parse : String → Option (String × String))
    (requester : Option String) :
    ∀ (l : List (String × String)) (st st' : DiscState),
      (∀ r, requester = some r → r ∈ st.sys.trace.probed) →
      DiscInv st → declareAll parse requester l st = some st' →
      DiscInv st' ∧ st'.sys.fs = st.sys.fs ∧
        st'.sys.trace.probed = st.sys.trace.probed ∧
        st'.sys.trace.calls = st.sys.trace.calls ∧
        (∃ ds, st'.sys.trace.declared = st.sys.trace.declared ++ ds ∧
          List.Forall₂ (fun (e : String × String) (d : Decl) =>
            d.requester = requester ∧ d.name = e.1 ∧
              parse e.2 = some (d.url, d.constraint)) l ds) := by
  intro l
  induction l with
  | nil =>
    intro st st' _ hinv h
    simp only [declareAll, Option.some.injEq] at h
    subst h
    exact ⟨hinv, rfl, rfl, rfl, [], by simp, List.Forall₂.nil⟩
  | cons e l ih =>
    intro st st' hreq hinv h
    obtain ⟨n, p⟩ := e
    unfold declareAll at h
    cases hd : declare parse requester st n p with
    | none => simp [hd] at h
    | some st1 =>
      simp only [hd] at h
      obtain ⟨url, constraint, hp, _, _, hfs, hpb, hcl, hdecl, _⟩ :=
        declare_eq parse requester st st1 n p hd
      have hinv1 := declare_inv parse requester st st1 n p hreq hinv hd
      have hreq1 : ∀ r, requester = some r → r ∈ st1.sys.trace.probed := by
        intro r hr
        rw [hpb]
        exact hreq r hr
      obtain ⟨hinv', hfs', hpb', hcl', ds, hds, hall⟩ := ih st1 st' hreq1 hinv1 h
      refine ⟨hinv', by rw [hfs', hfs], by rw [hpb', hpb], by rw [hcl', hcl],
        { requester := requester, name := n, url := url, constraint := constraint } :: ds,
        ?_, ?_⟩
      · rw [hds, hdecl]
        simp
      · exact List.Forall₂.cons ⟨rfl, rfl, hp⟩ hall

/-- One iteration of the work-queue loop over an oracle. -/
theorem discoverLoop_succ (o : Oracle) (parse : String → Option (String × String))
    (ord : MapOrder) (fuel : ℕ) (st : DiscState) :
    discoverLoop o.call parse ord (fuel + 1) st =
      match st.queue with
      | [] => some (.ok st.result, st.sys)
      | name :: queue =>
        match st.result.constraints.getList name with
        | [] => some (.panic, st.sys)
        | c0 :: _ =>
          match o (st.result.urls.getStr name) c0 with
          | .error e =>
            some (.error (.tempResolve name e),
              (st.dequeued name queue (st.result.urls.getStr name) c0).sys)
          | .ok p =>
            match p.manifest with
            | .absent =>
              discoverLoop o.call parse ord fuel
                (st.dequeued name queue (st.result.urls.getStr name) c0)
            | .unreadable =>
              some (.error (.readManifest name),
                (st.dequeued name queue (st.result.urls.getStr name) c0).sys)
            | .deps d =>
              match declareAll parse (some name) (ord.order d)
                  (st.dequeued name queue (st.result.urls.getStr name) c0) with
              | none =>
                some (.panic,
                  { fs := (st.sys.fs.fresh, ManifestFile.deps d) :: st.sys.fs,
                    trace := (st.dequeued name queue (st.result.urls.getStr name) c0).sys.trace })
              | some st' => discoverLoop o.call parse ord fuel st' := by
  conv_lhs => unfold discoverLoop
  cases hq : st.queue with
  | nil => rfl
  | cons name queue =>
    simp only
    cases hc : st.result.constraints.getList name with
    | nil => rfl
    | cons c0 cs =>
      simp only
      rw [Sys.call_oracle]
      cases ho : o (st.result.urls.getStr name) c0 with
      | error e => rfl
      | ok p =>
        simp only [TempFS.read_cons_self]
        cases hm : p.manifest with
        | absent =>
          simp only [Sys.release, if_true, TempFS.removeAll_cons_fresh]
          rfl
        | unreadable =>
          simp only [Sys.release, if_true, TempFS.removeAll_cons_fresh]
          rfl
        | deps d =>
          simp only
          have hfs := declareAll_withFs parse (some name) ((st.sys.fs.fresh, ManifestFile.deps d) :: st.sys.fs)
            (ord.order d) (st.dequeued name queue (st.result.urls.getStr name) c0)
          have hst : (st.dequeued name queue (st.result.urls.getStr name) c0).withFs
              ((st.sys.fs.fresh, ManifestFile.deps d) :: st.sys.fs) =
              { st with queue := queue,
                        sys := { fs := (st.sys.fs.fresh, ManifestFile.deps d) :: st.sys.fs,
                                 trace := { st.sys.trace with
                                   probed := st.sys.trace.probed ++ [name],
                                   calls := st.sys.trace.calls ++
                                     [(st.result.urls.getStr name, c0)] } } } := rfl
          rw [hst] at hfs
          rw [hfs]
          cases hda : declareAll parse (some name) (ord.order d)
              (st.dequeued name queue (st.result.urls.getStr name) c0) with
          | none => rfl
          | some st' =>
            simp only [Option.map_some']
            have hfs' := declareAll_fs parse (some name) _ _ _ hda
            have : ({ st'.withFs ((st.sys.fs.fresh, ManifestFile.deps d) :: st.sys.fs) with
                sys := (st'.withFs ((st.sys.fs.fresh, ManifestFile.deps d) :: st.sys.fs)).sys.release
                  true st.sys.fs.fresh } : DiscState) = st' := by
              simp only [DiscState.withFs, Sys.release, if_true, TempFS.removeAll_cons_fresh]
              have e : st.sys.fs = st'.sys.fs := by rw [hfs']; rfl
              rw [e]
            rw [this]

theorem forall₂_exists_left {α β : Type} {R : α → β → Prop} :
    ∀ {l : List α} {ds : List β}, List.Forall₂ R l ds → ∀ d ∈ ds, ∃ e ∈ l, R e d := by
  intro l ds h
  induction h with
  | nil => intro d hd; cases hd
  | cons hab _ ih =>
    intro d hd
    rcases List.mem_cons.1 hd with rfl | hm
    · exact ⟨_, List.mem_cons_self _ _, hab⟩
    · obtain ⟨e, he, hr⟩ := ih d hm
      exact ⟨e, List.mem_cons_of_mem _ he, hr⟩

theorem forall₂_exists_right {α β : Type} {R : α → β → Prop} :
    ∀ {l : List α} {ds : List β}, List.Forall₂ R l ds → ∀ e ∈ l, ∃ d ∈ ds, R e d := by
  intro l ds h
  induction h with
  | nil => intro e he; cases he
  | cons hab _ ih =>
    intro e he
    rcases List.mem_cons.1 he with rfl | hm
    · exact ⟨_, List.mem_cons_self _ _, hab⟩
    · obtain ⟨d, hd, hr⟩ := ih e hm
      exact ⟨d, List.mem_cons_of_mem _ hd, hr⟩

theorem dequeued_inv (st : DiscState) (name : String) (queue : List String) (url c : String)
    (hinv : DiscInv st) (hq : st.queue = name :: queue) :
    DiscInv (st.dequeued name queue url c) := by
  refine
    { enq := ?_, nodup := hinv.nodup, proc := hinv.proc, ukeys := hinv.ukeys,
      ckeys := hinv.ckeys, dnames := hinv.dnames, cons := hinv.cons, urls := hinv.urls,
      req := ?_, unodup := hinv.unodup, cnodup := hinv.cnodup }
  · show st.sys.trace.enqueued = (st.sys.trace.probed ++ [name]) ++ queue
    rw [hinv.enq, hq]
    simp
  · intro d hd r hr
    show r ∈ st.sys.trace.probed ++ [name]
    exact List.mem_append_left _ (hinv.req d hd r hr)

/-- What holds of the result of the work-queue loop: the result state comes
from a state satisfying the invariant; on success its queue is empty and its
graph is the one returned; unless an error is returned, every resolver call
made succeeded. -/
theorem discoverLoop_post (o : Oracle) (parse : String → Option (String × String))
    (ord : MapOrder) :
    ∀ (fuel : ℕ) (st : DiscState) (r : Outcome DiscoveryResult × Sys),
      DiscInv st → (∀ uc ∈ st.sys.trace.calls, ∃ p, o uc.1 uc.2 = .ok p) →
      discoverLoop o.call parse ord fuel st = some r →
      ∃ st', DiscInv st' ∧ st'.sys.trace = r.2.trace ∧
        (∀ g, r.1 = .ok g → st'.queue = [] ∧ st'.result = g ∧ st'.sys = r.2) ∧
        (r.1.isError = false → ∀ uc ∈ r.2.trace.calls, ∃ p, o uc.1 uc.2 = .ok p) := by
  intro fuel
  induction fuel with
  | zero => intro st r _ _ h; simp [discoverLoop] at h
  | succ fuel ih =>
    intro st r hinv hcalls h
    rw [discoverLoop_succ] at h
    cases hq : st.queue with
    | nil =>
      simp only [hq, Option.some.injEq] at h
      subst h
      refine ⟨st, hinv, rfl, ?_, fun _ => hcalls⟩
      intro g hg
      simp only [Outcome.ok.injEq] at hg
      exact ⟨hq, hg, rfl⟩
    | cons name queue =>
      simp only [hq] at h
      have hdq := fun url c => dequeued_inv st name queue url c hinv hq
      cases hc : st.result.constraints.getList name with
      | nil =>
        simp only [hc, Option.some.injEq] at h
        subst h
        exact ⟨st, hinv, rfl, (by intro g hg; cases hg), fun _ => hcalls⟩
      | cons c0 cs =>
        simp only [hc] at h
        cases ho : o (st.result.urls.getStr name) c0 with
        | error e =>
          simp only [ho, Option.some.injEq] at h
          subst h
          exact ⟨_, hdq _ c0, rfl, (by intro g hg; cases hg), (by intro hf; simp [Outcome.isError] at hf)⟩
        | ok p =>
          simp only [ho] at h
          have hcalls' : ∀ uc ∈ (st.dequeued name queue
              (st.result.urls.getStr name) c0).sys.trace.calls, ∃ p, o uc.1 uc.2 = .ok p := by
            intro uc huc
            have huc' : uc ∈ st.sys.trace.calls ++ [(st.result.urls.getStr name, c0)] := huc
            rcases List.mem_append.1 huc' with hm | hm
            · exact hcalls uc hm
            · simp only [List.mem_singleton] at hm
              subst hm
              exact ⟨p, ho⟩
          cases hm : p.manifest with
          | absent =>
            simp only [hm] at h
            exact ih _ r (hdq _ c0) hcalls' h
          | unreadable =>
            simp only [hm, Option.some.injEq] at h
            subst h
            exact ⟨_, hdq _ c0, rfl, (by intro g hg; cases hg),
              (by intro hf; simp [Outcome.isError] at hf)⟩
          | deps d =>
            simp only [hm] at h
            cases hda : declareAll parse (some name) (ord.order d)
                (st.dequeued name queue (st.result.urls.getStr name) c0) with
            | none =>
              simp only [hda, Option.some.injEq] at h
              subst h
              exact ⟨_, hdq _ c0, rfl, (by intro g hg; cases hg), fun _ => hcalls'⟩
            | some st1 =>
              simp only [hda] at h
              have hreq : ∀ r, some name = some r →
                  r ∈ (st.dequeued name queue (st.result.urls.getStr name) c0).sys.trace.probed := by
                intro r hr
                cases hr
                show name ∈ st.sys.trace.probed ++ [name]
                simp
              obtain ⟨hinv1, _, _, hcl1, _⟩ :=
                declareAll_inv parse (some name) (ord.order d) _ st1 hreq (hdq _ c0) hda
              apply ih st1 r hinv1 _ h
              rw [hcl1]
              exact hcalls'

/-- The work-queue loop ends within as many iterations as there are package
names still to probe: with every declared name drawn from the list `U`, a
budget of `U.length + 1 - probed` iterations suffices. -/
theorem discoverLoop_terminates (o : Oracle) (parse : String → Option (String × String))
    (ord : MapOrder) (U : List String)
    (hU : ∀ url c p d, o url c = .ok p → p.manifest = .deps d → ∀ e ∈ d, e.1 ∈ U) :
    ∀ (fuel : ℕ) (st : DiscState), DiscInv st →
      (∀ n ∈ st.sys.trace.enqueued, n ∈ U) →
      U.length + 1 ≤ fuel + st.sys.trace.probed.length →
      ∃ r, discoverLoop o.call parse ord fuel st = some r := by
  intro fuel
  induction fuel with
  | zero =>
    intro st hinv hsub hlen
    exfalso
    have h1 : st.sys.trace.enqueued.length ≤ U.length :=
      (List.Nodup.subperm hinv.nodup hsub).length_le
    have h2 : st.sys.trace.probed.length ≤ st.sys.trace.enqueued.length := by
      rw [hinv.enq]
      simp
    omega
  | succ fuel ih =>
    intro st hinv hsub hlen
    rw [discoverLoop_succ]
    cases hq : st.queue with
    | nil => exact ⟨_, rfl⟩
    | cons name queue =>
      simp only
      have hdq := fun url c => dequeued_inv st name queue url c hinv hq
      cases hc : st.result.constraints.getList name with
      | nil => exact ⟨_, rfl⟩
      | cons c0 cs =>
        simp only
        cases ho : o (st.result.urls.getStr name) c0 with
        | error e => exact ⟨_, rfl⟩
        | ok p =>
          simp only
          have hlen' : U.length + 1 ≤ fuel +
              (st.dequeued name queue (st.result.urls.getStr name) c0).sys.trace.probed.length := by
            show U.length + 1 ≤ fuel + (st.sys.trace.probed ++ [name]).length
            simp only [List.length_append, List.length_singleton]
            omega
          cases hm : p.manifest with
          | absent => exact ih _ (hdq _ c0) hsub hlen'
          | unreadable => exact ⟨_, rfl⟩
          | deps d =>
            simp only
            cases hda : declareAll parse (some name) (ord.order d)
                (st.dequeued name queue (st.result.urls.getStr name) c0) with
            | none => exact ⟨_, rfl⟩
            | some st1 =>
              simp only
              have hreq : ∀ r, some name = some r →
                  r ∈ (st.dequeued name queue (st.result.urls.getStr name) c0).sys.trace.probed := by
                intro r hr
                cases hr
                show name ∈ st.sys.trace.probed ++ [name]
                simp
              obtain ⟨hinv1, _, hpb1, _, ds, hds, hall⟩ :=
                declareAll_inv parse (some name) (ord.order d) _ st1 hreq (hdq _ c0) hda
              apply ih st1 hinv1
              · intro n hn
                obtain ⟨dd, hdd, hname⟩ := (hinv1.dnames n).1 hn
                rw [hds] at hdd
                rcases List.mem_append.1 hdd with hm1 | hm1
                · apply hsub
                  exact ((hdq (st.result.urls.getStr name) c0).dnames n).2 ⟨dd, hm1, hname⟩
                · obtain ⟨e, he, _, hen, _⟩ := forall₂_exists_left hall dd hm1
                  rw [← hname, hen]
                  exact hU _ _ p d ho hm e ((List.Perm.mem_iff (ord.perm d)).1 he)
              · rw [hpb1]
                exact hlen'

theorem init_inv (fs : TempFS) : DiscInv (DiscState.init { fs := fs, trace := Trace.empty }) := by
  refine
    { enq := rfl, nodup := List.nodup_nil, proc := ?_, ukeys := ?_, ckeys := ?_, dnames := ?_,
      cons := ?_, urls := ?_, req := ?_, unodup := List.nodup_nil, cnodup := List.nodup_nil }
  · intro n; simp [DiscState.init, Trace.empty, GoMap.get?]
  · intro n; simp [DiscState.init, Trace.empty, GoMap.keys]
  · intro n; simp [DiscState.init, Trace.empty, GoMap.keys]
  · intro n; simp [DiscState.init, Trace.empty]
  · intro n; simp [DiscState.init, Trace.empty, GoMap.getList, GoMap.get?]
  · intro n u h; simp [DiscState.init, GoMap.get?] at h
  · intro d hd; simp [DiscState.init, Trace.empty] at hd

theorem discoverWith_eq (rv : ResolverFn) (parse : String → Option (String × String))
    (ord : MapOrder) (fuel : ℕ) (root : RootManifest) (sys : Sys) :
    discoverWith rv parse ord fuel root sys =
      match root with
      | none => some (.error .loadConfig, sys)
      | some deps =>
        match declareAll parse none (ord.order deps) (DiscState.init sys) with
        | none => some (.panic, sys)
        | some st => discoverLoop rv parse ord fuel st := rfl

/-- What holds of the result of a discovery run started with an empty trace. -/
theorem discoverWith_post (o : Oracle) (parse : String → Option (String × String))
    (ord : MapOrder) (fuel : ℕ) (root : RootManifest) (fs : TempFS)
    (r : Outcome DiscoveryResult × Sys)
    (h : discoverWith o.call parse ord fuel root { fs := fs, trace := Trace.empty } = some r) :
    ∃ st', DiscInv st' ∧ st'.sys.trace = r.2.trace ∧
      (∀ g, r.1 = .ok g → st'.queue = [] ∧ st'.result = g ∧ st'.sys = r.2) ∧
      (r.1.isError = false → ∀ uc ∈ r.2.trace.calls, ∃ p, o uc.1 uc.2 = .ok p) := by
  rw [discoverWith_eq] at h
  have hinit := init_inv fs
  cases root with
  | none =>
    simp only [Option.some.injEq] at h
    subst h
    exact ⟨_, hinit, rfl, (by intro g hg; cases hg), (by intro hf; simp [Outcome.isError] at hf)⟩
  | some deps =>
    simp only at h
    cases hda : declareAll parse none (ord.order deps)
        (DiscState.init { fs := fs, trace := Trace.empty }) with
    | none =>
      simp only [hda, Option.some.injEq] at h
      subst h
      exact ⟨_, hinit, rfl, (by intro g hg; cases hg),
        (by intro _ uc huc; simp [Trace.empty] at huc)⟩
    | some st =>
      simp only [hda] at h
      obtain ⟨hinv, _, _, hcl, _⟩ :=
        declareAll_inv parse none (ord.order deps) _ st (by intro r hr; cases hr) hinit hda
      apply discoverLoop_post o parse ord fuel st r hinv _ h
      rw [hcl]
      intro uc huc
      simp [DiscState.init, Trace.empty] at huc

theorem nodup_count_le_one {l : List String} (h : l.Nodup) (n : String) : l.count n ≤ 1 :=
  List.nodup_iff_count_le_one.1 h n

theorem DiscInv.probed_nodup {st : DiscState} (h : DiscInv st) : st.sys.trace.probed.Nodup := by
  have := h.nodup
  rw [h.enq] at this
  exact (List.nodup_append.1 this).1

/-- Every discovery run over an oracle enqueues and probes each name at most
once, and on success probes each name of the graph exactly once. -/
theorem discoverWith_once (o : Oracle) (parse : String → Option (String × String))
    (ord : MapOrder) (fuel : ℕ) (root : RootManifest) (fs : TempFS)
    (r : Outcome DiscoveryResult × Sys)
    (h : discoverWith o.call parse ord fuel root { fs := fs, trace := Trace.empty } = some r) :
    EachNameOnce r := by
  obtain ⟨st', hinv, htr, hok, _⟩ := discoverWith_post o parse ord fuel root fs r h
  refine ⟨?_, ?_, ?_⟩
  · intro n
    rw [← htr]
    exact nodup_count_le_one hinv.nodup n
  · intro n
    rw [← htr]
    exact nodup_count_le_one hinv.probed_nodup n
  · intro g hg n hn
    obtain ⟨hq, hres, _⟩ := hok g hg
    rw [← htr]
    have henq : st'.sys.trace.enqueued = st'.sys.trace.probed := by
      rw [hinv.enq, hq, List.append_nil]
    have hmem : n ∈ st'.sys.trace.probed := by
      rw [← henq]
      rcases hn with hn | hn
      · rw [← hres] at hn
        exact (hinv.ukeys n).1 hn
      · rw [← hres] at hn
        exact (hinv.ckeys n).1 hn
    exact List.count_eq_one_of_mem hinv.probed_nodup hmem

/-- With every declared name drawn from the list `U`, a discovery run over an
oracle ends within `U.length + 1` iterations of the work-queue loop. -/
theorem discoverWith_terminates (o : Oracle) (parse : String → Option (String × String))
    (ord : MapOrder) (U : List String) (fuel : ℕ) (root : RootManifest) (fs : TempFS)
    (hfuel : U.length + 1 ≤ fuel)
    (hroot : ∀ deps, root = some deps → ∀ e ∈ deps, e.1 ∈ U)
    (hU : ∀ url c p d, o url c = .ok p → p.manifest = .deps d → ∀ e ∈ d, e.1 ∈ U) :
    ∃ r, discoverWith o.call parse ord fuel root { fs := fs, trace := Trace.empty } = some r := by
  rw [discoverWith_eq]
  have hinit := init_inv fs
  cases root with
  | none => exact ⟨_, rfl⟩
  | some deps =>
    simp only
    cases hda : declareAll parse none (ord.order deps)
        (DiscState.init { fs := fs, trace := Trace.empty }) with
    | none => exact ⟨_, rfl⟩
    | some st =>
      simp only
      obtain ⟨hinv, _, hpb, _, ds, hds, hall⟩ :=
        declareAll_inv parse none (ord.order deps) _ st (by intro r hr; cases hr) hinit hda
      apply discoverLoop_terminates o parse ord U hU fuel st hinv
      · intro n hn
        obtain ⟨dd, hdd, hname⟩ := (hinv.dnames n).1 hn
        rw [hds] at hdd
        have hdd' : dd ∈ ds := by simpa [DiscState.init, Trace.empty] using hdd
        obtain ⟨e, he, _, hen, _⟩ := forall₂_exists_left hall dd hdd'
        rw [← hname, hen]
        exact hroot deps rfl e ((List.Perm.mem_iff (ord.perm deps)).1 he)
      · rw [hpb]
        simp only [DiscState.init, Trace.empty, List.length_nil]
        omega

section OracleManifest

variable {K C : Type} [LinearOrder K]

/-- The manifest in a checkout made by `resolveVersion` is a manifest of the
repository. -/
theorem resolveOracle_manifest (sv : Semver K C) (git : Git) (url c : String) (p : Probe)
    (h : resolveOracle sv git url c = .ok p) : ∃ oc, p.manifest = git.manifestAt url oc := by
  unfold resolveOracle resolveVersion at h
  simp only [TempFS.mkdir_fst, TempFS.mkdir_snd, TempFS.write_cons_fresh,
    TempFS.removeAll_cons_fresh] at h
  by_cases hm : git.mkdirTemp = false
  · simp [hm] at h
  by_cases hcl : git.clone url = false
  · simp [hm, hcl] at h
  simp only [hm, hcl, if_false] at h
  cases ht : git.listTags url with
  | none => simp [ht] at h
  | some tags =>
    cases hc : sv.parseConstraint c with
    | none =>
      cases hh : git.getCommitHash url c with
      | none => simp [ht, hc, hh] at h
      | some commit =>
        simp [ht, hc, hh, TempFS.read_cons_self] at h
        exact ⟨none, by rw [← h]⟩
    | some k =>
      cases hs : selectBest sv k tags none with
      | none => simp [ht, hc, hs] at h
      | some v =>
        cases hh : git.getCommitHash url v.original with
        | none => simp [ht, hc, hs, hh] at h
        | some commit =>
          by_cases hco : git.checkout url commit = false
          · simp [ht, hc, hs, hh, hco] at h
          · simp [ht, hc, hs, hh, hco, TempFS.read_cons_self] at h
            exact ⟨some commit, by rw [← h]⟩

end OracleManifest

/-! ## C3: termination of discovery -/

section C3

variable {K C : Type} [LinearOrder K]

/-- C3: with every declared package name drawn from a finite list `U` (cyclic
and diamond graphs included), discovery terminates: `U.length + 1` iterations
of the work-queue loop suffice for both implementations to return. In the run
no name is enqueued twice, so the resolver is called for probing at most once
per name, and exactly once for every name of the graph returned on success. -/
theorem discovery_terminates (sv : Semver K C) (git : Git) (o : Oracle) (ord : MapOrder)
    (U : List String) (fuel : ℕ) (root : RootManifest) (fs : TempFS)
    (hfuel : U.length + 1 ≤ fuel)
    (hroot : ∀ deps, root = some deps → ∀ e ∈ deps, e.1 ∈ U)
    (hO : ∀ url c p d, o url c = .ok p → p.manifest = .deps d → ∀ e ∈ d, e.1 ∈ U)
    (hG : ∀ url oc d, git.manifestAt url oc = .deps d → ∀ e ∈ d, e.1 ∈ U) :
    (∃ r, DiscoverAllDependenciesWithResolver o.call ord fuel root
        { fs := fs, trace := Trace.empty } = some r ∧ EachNameOnce r) ∧
    (∃ r, discoverAllDependencies sv git ord fuel root
        { fs := fs, trace := Trace.empty } = some r ∧ EachNameOnce r) := by
  constructor
  · obtain ⟨r, hr⟩ := discoverWith_terminates o ParsePkgStr ord U fuel root fs hfuel hroot hO
    exact ⟨r, hr, discoverWith_once o ParsePkgStr ord fuel root fs r hr⟩
  · have hO' : ∀ url c p d, resolveOracle sv git url c = .ok p → p.manifest = .deps d →
        ∀ e ∈ d, e.1 ∈ U := by
      intro url c p d hp hm
      obtain ⟨oc, hoc⟩ := resolveOracle_manifest sv git url c p hp
      rw [hoc] at hm
      exact hG url oc d hm
    obtain ⟨r, hr⟩ := discoverWith_terminates (resolveOracle sv git) parsePkgStr ord U fuel
      root fs hfuel hroot hO'
    refine ⟨r, ?_, discoverWith_once _ parsePkgStr ord fuel root fs r hr⟩
    unfold discoverAllDependencies
    rw [resolveVersion_funext]
    exact hr

/-- Witness of C3: the cyclic graph in which `A` depends on `B` and `B` on `A`
is discovered within three iterations, each name probed once. -/
theorem discovery_terminates_witness :
    (discoverAllDependencies plainSemver cyclicGit MapOrder.stored 3
        (some [("A", "ua#^1.0.0")]) { fs := [], trace := Trace.empty }).map
      (fun r => (r.1, r.2.trace.probed)) =
      some (.ok { urls := [("A", "ua"), ("B", "ub")],
                  constraints := [("A", ["^1.0.0", "^1.0.0"]), ("B", ["^1.0.0"])] },
            ["A", "B"]) ∧
    ((∃ r, DiscoverAllDependenciesWithResolver (resolveOracle plainSemver cyclicGit).call
        MapOrder.stored 3 (some [("A", "ua#^1.0.0")])
        { fs := [], trace := Trace.empty } = some r ∧ EachNameOnce r) ∧
     (∃ r, discoverAllDependencies plainSemver cyclicGit MapOrder.stored 3
        (some [("A", "ua#^1.0.0")]) { fs := [], trace := Trace.empty } = some r ∧
        EachNameOnce r)) := by
  have hG : ∀ url oc d, cyclicGit.manifestAt url oc = .deps d → ∀ e ∈ d, e.1 ∈ ["A", "B"] := by
    intro url oc d hd e he
    simp only [cyclicGit] at hd
    by_cases h1 : url = "ua"
    · simp only [h1, if_true, ManifestFile.deps.injEq] at hd
      subst hd
      simp only [List.mem_singleton] at he
      subst he
      decide
    · by_cases h2 : url = "ub"
      · simp only [h2, if_true, ManifestFile.deps.injEq] at hd
        rw [if_neg (by decide)] at hd
        simp only [ManifestFile.deps.injEq] at hd
        subst hd
        simp only [List.mem_singleton] at he
        subst he
        decide
      · simp [h1, h2] at hd
  refine ⟨by decide, ?_⟩
  exact discovery_terminates plainSemver cyclicGit (resolveOracle plainSemver cyclicGit)
    MapOrder.stored ["A", "B"] 3 (some [("A", "ua#^1.0.0")]) [] (by decide)
    (by
      intro deps hdeps e he
      simp only [Option.some.injEq] at hdeps
      subst hdeps
      simp only [List.mem_singleton] at he
      subst he
      decide)
    (by
      intro url c p d hp hm
      obtain ⟨oc, hoc⟩ := resolveOracle_manifest plainSemver cyclicGit url c p hp
      rw [hoc] at hm
      exact hG url oc d hm)
    hG

end C3

/-! ## C4: which URL a name keeps -/

section C4

variable {K C : Type} [LinearOrder K]

theorem resolveName_url (sv : Semver K C) (rv : ResolverFn) (release : Bool)
    (name url : String) (cs : List String) (sys sys1 : Sys) (dep : LockedDependency)
    (h : resolveName sv rv release name url cs sys = (.ok dep, sys1)) : dep.url = url := by
  unfold resolveName at h
  generalize resolveEach sv rv release name url cs [] sys = R at h
  obtain ⟨r, s1⟩ := R
  cases r with
  | error e => simp at h
  | ok vs =>
    cases vs with
    | nil => simp at h
    | cons v0 vs =>
      simp only at h
      generalize Sys.call rv url (highest v0 vs).original s1 = R2 at h
      obtain ⟨r2, s2⟩ := R2
      cases r2 with
      | error e => simp at h
      | ok res =>
        obtain ⟨l, cm, d⟩ := res
        simp only [Prod.mk.injEq, Outcome.ok.injEq] at h
        rw [← h.1]

/-- Every entry of the map returned by the outer loop belongs to a name of
the graph and carries the URL the graph stores for that name. -/
theorem resolveEntries_url (sv : Semver K C) (rv : ResolverFn) (release : Bool) (ord : MapOrder)
    (g : DiscoveryResult) (hnd : g.constraints.keys.Nodup) (sys sys' : Sys)
    (m : GoMap LockedDependency)
    (h : resolveEntries sv rv release g.urls (ord.order g.constraints) [] sys = (.ok m, sys'))
    (n : String) (dep : LockedDependency) (hget : m.get? n = some dep) :
    n ∈ g.constraints.keys ∧ dep.url = g.urls.getStr n := by
  have hperm := ord.perm g.constraints
  have hnd' : ((ord.order g.constraints).map Prod.fst).Nodup :=
    (List.Perm.nodup_iff (List.Perm.map Prod.fst hperm)).2 hnd
  obtain ⟨h1, h2⟩ := resolveEntries_ok sv rv release g.urls _ [] sys m sys' h hnd'
  have hmem : n ∈ (ord.order g.constraints).map Prod.fst := by
    by_contra hn
    have := h2 n hn
    rw [hget] at this
    simp [GoMap.get?] at this
  obtain ⟨e, he, hen⟩ := List.mem_map.1 hmem
  obtain ⟨n', cs⟩ := e
  simp only at hen
  subst hen
  obtain ⟨sys0, sys1, dep', hdep, hget'⟩ := h1 n' cs he
  rw [hget] at hget'
  cases hget'
  refine ⟨?_, resolveName_url sv rv release n' _ cs sys0 sys1 dep hdep⟩
  exact (List.Perm.mem_iff (List.Perm.map Prod.fst hperm)).1 hmem

/-- C4 (as amended): in every successful discovery run, of either
implementation, the URL stored in the returned graph for a name is the URL of
the last declaration of that name that discovery processed (a later
declaration overwrites the recorded URL), and this is the URL that the name's
lock entry carries. -/
theorem discovery_last_url_wins (sv : Semver K C) (git : Git) (o : Oracle) (ord ord' : MapOrder)
    (fuel : ℕ) (root : RootManifest) (fs : TempFS)
    (r : Outcome DiscoveryResult × Sys) (g : DiscoveryResult)
    (hrun : DiscoverAllDependenciesWithResolver o.call ord fuel root
        { fs := fs, trace := Trace.empty } = some r ∨
      (resolveOracle sv git = o ∧
        discoverAllDependencies sv git ord fuel root { fs := fs, trace := Trace.empty } = some r))
    (hok : r.1 = .ok g) :
    (∀ n u, g.urls.get? n = some u → IsLastUrl r.2.trace.declared n u) ∧
    (∀ m sys', (ResolveConflicts sv o.call ord' g r.2 = (.ok m, sys') ∨
        resolveConflicts sv git ord' g r.2 = (.ok m, sys')) →
      ∀ n dep, m.get? n = some dep → IsLastUrl r.2.trace.declared n dep.url) := by
  have hpost : ∃ st', DiscInv st' ∧ st'.sys.trace = r.2.trace ∧
      (∀ g, r.1 = .ok g → st'.queue = [] ∧ st'.result = g ∧ st'.sys = r.2) := by
    rcases hrun with h | ⟨hgit, h⟩
    · obtain ⟨st', a, b, c, _⟩ := discoverWith_post o ParsePkgStr ord fuel root fs r h
      exact ⟨st', a, b, c⟩
    · unfold discoverAllDependencies at h
      rw [resolveVersion_funext, hgit] at h
      obtain ⟨st', a, b, c, _⟩ := discoverWith_post o parsePkgStr ord fuel root fs r h
      exact ⟨st', a, b, c⟩
  obtain ⟨st', hinv, htr, hfin⟩ := hpost
  obtain ⟨_, hres, _⟩ := hfin g hok
  have hurls : ∀ n u, g.urls.get? n = some u → IsLastUrl r.2.trace.declared n u := by
    intro n u hget
    rw [← htr]
    rw [← hres] at hget
    exact hinv.urls n u hget
  refine ⟨hurls, ?_⟩
  intro m sys' hrc n dep hget
  have hnd : g.constraints.keys.Nodup := by
    rw [← hres]
    exact hinv.cnodup
  have hkey : n ∈ g.constraints.keys ∧ dep.url = g.urls.getStr n := by
    rcases hrc with h | h
    · exact resolveEntries_url sv o.call false ord' g hnd r.2 sys' m h n dep hget
    · exact resolveEntries_url sv (resolveVersion sv git) true ord' g hnd r.2 sys' m h n dep hget
  have hin : n ∈ g.urls.keys := by
    rw [← hres]
    apply (hinv.ukeys n).2
    apply (hinv.ckeys n).1
    rw [hres]
    exact hkey.1
  cases hg : g.urls.get? n with
  | none => exact absurd hin ((GoMap.get?_eq_none_iff g.urls n).1 hg)
  | some u =>
    have : dep.url = u := by
      rw [hkey.2]
      simp [GoMap.getStr, hg]
    rw [this]
    exact hurls n u hg

/-- Witness of C4 (as amended): the root declares `B` at `u1`, the manifest of
`A` declares `B` at `u2`; the graph stores `u2`, the URL of the last
declaration of `B`. -/
theorem discovery_last_url_wins_witness :
    IsLastUrl
      [{ requester := none, name := "A", url := "ua", constraint := "^1.0.0" },
       { requester := none, name := "B", url := "u1", constraint := "^1.0.0" },
       { requester := some "A", name := "B", url := "u2", constraint := "^1.0.0" }]
      "B" "u2" :=
  (discovery_last_url_wins plainSemver overwriteGit (resolveOracle plainSemver overwriteGit)
    MapOrder.stored MapOrder.stored 3 (some [("A", "ua#^1.0.0"), ("B", "u1#^1.0.0")]) []
    (.ok { urls := [("A", "ua"), ("B", "u2")],
           constraints := [("A", ["^1.0.0"]), ("B", ["^1.0.0", "^1.0.0"])] },
      { fs := [],
        trace :=
          { declared :=
              [{ requester := none, name := "A", url := "ua", constraint := "^1.0.0" },
               { requester := none, name := "B", url := "u1", constraint := "^1.0.0" },
               { requester := some "A", name := "B", url := "u2", constraint := "^1.0.0" }],
            enqueued := ["A", "B"],
            probed := ["A", "B"],
            calls := [("ua", "^1.0.0"), ("u2", "^1.0.0")] } })
    { urls := [("A", "ua"), ("B", "u2")],
      constraints := [("A", ["^1.0.0"]), ("B", ["^1.0.0", "^1.0.0"])] }
    (Or.inr ⟨rfl, by decide⟩) rfl).1 "B" "u2" (by decide)

/-- Counterexample to C4 as stated: the root manifest declares `A` and `B`, with
`B` at URL `u1`; the manifest of `A` declares `B` at `u2`. The first declaration
of `B` that discovery processes has URL `u1`, yet the returned graph stores
`u2` for `B`. -/
theorem discovery_first_url_overwritten :
    (discoverAllDependencies plainSemver overwriteGit MapOrder.stored 3
        (some [("A", "ua#^1.0.0"), ("B", "u1#^1.0.0")]) { fs := [], trace := Trace.empty }).map
      (fun r => (r.1, r.2.trace.declared)) =
      some (.ok { urls := [("A", "ua"), ("B", "u2")],
                  constraints := [("A", ["^1.0.0"]), ("B", ["^1.0.0", "^1.0.0"])] },
            [{ requester := none, name := "A", url := "ua", constraint := "^1.0.0" },
             { requester := none, name := "B", url := "u1", constraint := "^1.0.0" },
             { requester := some "A", name := "B", url := "u2", constraint := "^1.0.0" }]) ∧
    IsFirstUrl
      [{ requester := none, name := "A", url := "ua", constraint := "^1.0.0" },
       { requester := none, name := "B", url := "u1", constraint := "^1.0.0" },
       { requester := some "A", name := "B", url := "u2", constraint := "^1.0.0" }]
      "B" "u1" ∧
    GoMap.get? [("A", "ua"), ("B", "u2")] "B" = some "u2" := by
  refine ⟨by decide, ?_, by decide⟩
  exact ⟨[{ requester := none, name := "A", url := "ua", constraint := "^1.0.0" }],
    { requester := none, name := "B", url := "u1", constraint := "^1.0.0" },
    [{ requester := some "A", name := "B", url := "u2", constraint := "^1.0.0" }],
    rfl, rfl, rfl, by decide⟩

end C4

/-! ## C5: literal references -/

section C5

variable {K C : Type} [LinearOrder K]

theorem resolveOracle_literal (sv : Semver K C) (git : Git) (url c commit : String)
    (tags : List String)
    (hc : sv.parseConstraint c = none) (hm : git.mkdirTemp = true)
    (hcl : git.clone url = true) (ht : git.listTags url = some tags)
    (hh : git.getCommitHash url c = some commit) :
    resolveOracle sv git url c =
      .ok { label := c, commit := commit, manifest := git.manifestAt url none } := by
  unfold resolveOracle resolveVersion
  simp [hm, hcl, ht, hc, hh, TempFS.mkdir_fst, TempFS.mkdir_snd, TempFS.write_cons_fresh,
    TempFS.read_cons_self]

/-- C5 (as amended): for a dependency whose constraint string does not parse
as a range and which the revision source resolves to a commit, `resolveVersion`
succeeds with the literal reference as label and that commit; the conflict
resolver then computes the entry with that version and commit when the literal
also parses as a semantic version, and fails with the invalid-semver error
otherwise, so `resolveConflicts` succeeds only if the literal parses as a
semantic version. -/
theorem literal_reference_entry (sv : Semver K C) (git : Git) (ord : MapOrder)
    (g : DiscoveryResult) (name url c commit : String) (tags : List String)
    (hc : sv.parseConstraint c = none) (hm : git.mkdirTemp = true)
    (hcl : git.clone url = true) (ht : git.listTags url = some tags)
    (hh : git.getCommitHash url c = some commit)
    (hnd : g.constraints.keys.Nodup) (hmem : (name, [c]) ∈ g.constraints)
    (hu : g.urls.getStr name = url) :
    (∀ fs, (resolveVersion sv git url c fs).1 = .ok (c, commit, fs.fresh)) ∧
    (∀ sys, (resolveName sv (resolveVersion sv git) true name url [c] sys).1 =
      match sv.NewVersion c with
      | none => .error (.notSemver c name)
      | some _ => .ok { url := url, version := c, commit := commit }) ∧
    (∀ sys m sys', resolveConflicts sv git ord g sys = (.ok m, sys') →
      sv.NewVersion c ≠ none ∧
        m.get? name = some { url := url, version := c, commit := commit }) := by
  have ho := resolveOracle_literal sv git url c commit tags hc hm hcl ht hh
  have h2 : ∀ sys, (resolveName sv (resolveVersion sv git) true name url [c] sys).1 =
      match sv.NewVersion c with
      | none => .error (.notSemver c name)
      | some _ => .ok { url := url, version := c, commit := commit } := by
    intro sys
    rw [resolveVersion_funext]
    unfold resolveName resolveEach
    rw [Sys.call_oracle]
    simp only [ho]
    cases hv : sv.NewVersion c with
    | none => rfl
    | some v =>
      have hvo : v.original = c := NewVersion_original sv hv
      simp only [resolveEach, highest, List.nil_append, hvo]
      rw [Sys.call_oracle]
      simp only [ho]
  refine ⟨?_, h2, ?_⟩
  · intro fs
    rw [resolveVersion_eq_call]
    unfold Oracle.call
    simp [ho, TempFS.mkdir_fst]
  · intro sys m sys' hok
    unfold resolveConflicts at hok
    have hperm := ord.perm g.constraints
    have hnd' : ((ord.order g.constraints).map Prod.fst).Nodup :=
      (List.Perm.nodup_iff (List.Perm.map Prod.fst hperm)).2 hnd
    have hmem' : (name, [c]) ∈ ord.order g.constraints := (List.Perm.mem_iff hperm).2 hmem
    obtain ⟨sys0, sys1, dep, hdep, hget⟩ :=
      (resolveEntries_ok sv (resolveVersion sv git) true g.urls _ [] sys m sys' hok hnd').1
        name [c] hmem'
    rw [hu] at hdep
    have h := h2 sys0
    rw [hdep] at h
    cases hv : sv.NewVersion c with
    | none =>
      rw [hv] at h
      cases h
    | some v =>
      rw [hv] at h
      simp only [Outcome.ok.injEq] at h
      exact ⟨by simp, by rw [hget, h]⟩

/-- Witness of C5 (as amended): the reference `main` resolves to its commit,
and the conflict resolver rejects it as not a semantic version. -/
theorem literal_reference_entry_witness :
    (resolveVersion plainSemver literalGit "u" "main" []).1
        = .ok ("main", "commit-main", 1) ∧
    (resolveName plainSemver (resolveVersion plainSemver literalGit) true "P" "u" ["main"]
        Sys.init).1 = .error (.notSemver "main" "P") :=
  ⟨(literal_reference_entry plainSemver literalGit MapOrder.stored literalGraph "P" "u" "main"
      "commit-main" ["1.0.0"] (by decide) (by decide) (by decide) (by decide) (by decide)
      (by decide) (by decide) (by decide)).1 [],
   (literal_reference_entry plainSemver literalGit MapOrder.stored literalGraph "P" "u" "main"
      "commit-main" ["1.0.0"] (by decide) (by decide) (by decide) (by decide) (by decide)
      (by decide) (by decide) (by decide)).2.1 Sys.init⟩

/-- Counterexample to C5 as stated: the constraint `main` does not parse as a
range and the revision source resolves it to a commit, so `resolveVersion`
succeeds with label `main`; `resolveConflicts` then returns the invalid-semver
error and emits no lock entry. -/
theorem literal_reference_rejected :
    plainSemver.parseConstraint "main" = none ∧
    literalGit.getCommitHash "u" "main" = some "commit-main" ∧
    (resolveVersion plainSemver literalGit "u" "main" []).1
        = .ok ("main", "commit-main", 1) ∧
    (resolveConflicts plainSemver literalGit MapOrder.stored literalGraph Sys.init).1
        = .error (.notSemver "main" "P") := by
  refine ⟨by decide, by decide, by decide, by decide⟩

end C5

/-! ## Effects of conflict resolution on the transient state -/

section ConflictEffects

variable {K C : Type} [LinearOrder K]

theorem Sys.after_fs_release (sys : Sys) (url c : String) (m : ManifestFile) :
    (Sys.after true sys url c m).fs = sys.fs := rfl

theorem Sys.after_declared (release : Bool) (sys : Sys) (url c : String) (m : ManifestFile) :
    (Sys.after release sys url c m).trace.calls = sys.trace.calls ++ [(url, c)] := by
  cases release <;> rfl

theorem CallsOk.called {o : Oracle} {sys : Sys} (h : CallsOk o sys) (url c : String) (p : Probe)
    (hp : o url c = .ok p) (release : Bool) (m : ManifestFile) :
    CallsOk o (Sys.after release sys url c m) := by
  intro uc huc
  rw [Sys.after_declared] at huc
  rcases List.mem_append.1 huc with hm | hm
  · exact h uc hm
  · simp only [List.mem_singleton] at hm
    subst hm
    exact ⟨p, hp⟩

omit [LinearOrder K] in
/-- One iteration of the first loop of conflict resolution over an oracle. -/
theorem resolveEach_cons (sv : Semver K C) (o : Oracle) (release : Bool) (name url c : String)
    (cs : List String) (acc : List (Version K)) (sys : Sys) :
    resolveEach sv o.call release name url (c :: cs) acc sys =
      match o url c with
      | .error e => (.error e, sys.called url c)
      | .ok p =>
        match sv.NewVersion p.label with
        | none => (.error (.notSemver p.label name), Sys.after release sys url c p.manifest)
        | some v =>
          resolveEach sv o.call release name url cs (acc ++ [v])
            (Sys.after release sys url c p.manifest) := by
  conv_lhs => unfold resolveEach
  rw [Sys.call_oracle]
  cases ho : o url c with
  | error e => rfl
  | ok p =>
    have hs : Sys.release release sys.fs.fresh
        { fs := (sys.fs.fresh, p.manifest) :: sys.fs,
          trace := { sys.trace with calls := sys.trace.calls ++ [(url, c)] } } =
        Sys.after release sys url c p.manifest := by
      cases release
      · rfl
      · simp only [Sys.release, Sys.after, if_true, TempFS.removeAll_cons_fresh]
        rfl
    simp only [hs]

omit [LinearOrder K] in
/-- The first loop over an oracle: with `release` the transient directories
end as they began; unless an error is returned every recorded call succeeded;
a returned list means every constraint resolved to a label that parses. -/
theorem resolveEach_effects (sv : Semver K C) (o : Oracle) (release : Bool) (name url : String) :
    ∀ (cs : List String) (acc : List (Version K)) (sys : Sys),
      (release = true → (resolveEach sv o.call release name url cs acc sys).2.fs = sys.fs) ∧
      (CallsOk o sys → ∀ vs, (resolveEach sv o.call release name url cs acc sys).1 = .ok vs →
        CallsOk o (resolveEach sv o.call release name url cs acc sys).2) ∧
      (∀ vs, (resolveEach sv o.call release name url cs acc sys).1 = .ok vs →
        ∀ c ∈ cs, ∃ p v, o url c = .ok p ∧ sv.NewVersion p.label = some v) ∧
      (∀ vs, (resolveEach sv o.call release name url cs acc sys).1 = .ok vs →
        vs.length = acc.length + cs.length) := by
  intro cs
  induction cs with
  | nil =>
    intro acc sys
    refine ⟨fun _ => rfl, fun h _ _ => h, by simp, ?_⟩
    intro vs h
    simp only [resolveEach, Except.ok.injEq] at h
    simp [h]
  | cons c cs ih =>
    intro acc sys
    rw [resolveEach_cons]
    cases ho : o url c with
    | error e =>
      refine ⟨fun _ => rfl, ?_, ?_, ?_⟩
      · intro _ vs h; cases h
      · intro vs h; cases h
      · intro vs h; cases h
    | ok p =>
      simp only
      cases hv : sv.NewVersion p.label with
      | none =>
        refine ⟨?_, ?_, ?_, ?_⟩
        · intro hr; subst hr; rfl
        · intro _ vs h; cases h
        · intro vs h; cases h
        · intro vs h; cases h
      | some v =>
        simp only
        obtain ⟨h1, h2, h3, h4⟩ := ih (acc ++ [v]) (Sys.after release sys url c p.manifest)
        refine ⟨?_, ?_, ?_, ?_⟩
        · intro hr
          rw [h1 hr]
          subst hr
          rfl
        · intro hc vs h
          exact h2 (hc.called url c p ho release p.manifest) vs h
        · intro vs h c' hc'
          rcases List.mem_cons.1 hc' with rfl | hm
          · exact ⟨p, v, ho, hv⟩
          · exact h3 vs h c' hm
        · intro vs h
          have := h4 vs h
          simp only [List.length_append, List.length_singleton, List.length_cons, List.length_nil] at this ⊢
          omega

/-- The loop body for one name over an oracle. -/
theorem resolveName_eq (sv : Semver K C) (o : Oracle) (release : Bool) (name url : String)
    (cs : List String) (sys : Sys) :
    resolveName sv o.call release name url cs sys =
      match resolveEach sv o.call release name url cs [] sys with
      | (.error e, sys1) => (.error e, sys1)
      | (.ok [], sys1) => (.panic, sys1)
      | (.ok (v0 :: vs), sys1) =>
        match o url (highest v0 vs).original with
        | .error e => (.error e, sys1.called url (highest v0 vs).original)
        | .ok p =>
          (.ok { url := url, version := (highest v0 vs).original, commit := p.commit },
            Sys.after release sys1 url (highest v0 vs).original p.manifest) := by
  unfold resolveName
  generalize resolveEach sv o.call release name url cs [] sys = R
  obtain ⟨r, sys1⟩ := R
  cases r with
  | error e => rfl
  | ok l =>
    cases l with
    | nil => rfl
    | cons v0 vs =>
      simp only
      rw [Sys.call_oracle]
      cases ho : o url (highest v0 vs).original with
      | error e => rfl
      | ok p =>
        simp only
        cases release
        · rfl
        · simp only [Sys.release, Sys.after, if_true, TempFS.removeAll_cons_fresh]
          rfl

/-- The loop body for one name over an oracle: with `release` the transient
directories end as they began; unless an error is returned every recorded call
succeeded; an entry is returned only if every constraint resolved to a label
that parses; a non-empty constraint list does not panic. -/
theorem resolveName_effects (sv : Semver K C) (o : Oracle) (release : Bool) (name url : String)
    (cs : List String) (sys : Sys) :
    (release = true → (resolveName sv o.call release name url cs sys).2.fs = sys.fs) ∧
    (CallsOk o sys → (resolveName sv o.call release name url cs sys).1.isError = false →
      CallsOk o (resolveName sv o.call release name url cs sys).2) ∧
    (∀ dep, (resolveName sv o.call release name url cs sys).1 = .ok dep →
      ∀ c ∈ cs, ∃ p v, o url c = .ok p ∧ sv.NewVersion p.label = some v) ∧
    (cs ≠ [] → (resolveName sv o.call release name url cs sys).1 ≠ .panic) := by
  obtain ⟨h1, h2, h3, h4⟩ := resolveEach_effects sv o release name url cs [] sys
  rw [resolveName_eq]
  generalize resolveEach sv o.call release name url cs [] sys = R at h1 h2 h3 h4
  obtain ⟨r, sys1⟩ := R
  simp only at h1 h2 h3 h4
  cases r with
  | error e =>
    refine ⟨h1, ?_, ?_, ?_⟩
    · intro _ hf; simp [Outcome.isError] at hf
    · intro dep h; cases h
    · intro _ h; cases h
  | ok l =>
    cases l with
    | nil =>
      refine ⟨h1, fun hc _ => h2 hc [] rfl, ?_, ?_⟩
      · intro dep h; cases h
      · intro hcs _
        have := h4 [] rfl
        simp only [List.length_nil, zero_add] at this
        exact hcs (List.length_eq_zero.1 this.symm)
    | cons v0 vs =>
      simp only
      cases ho : o url (highest v0 vs).original with
      | error e =>
        refine ⟨h1, ?_, ?_, ?_⟩
        · intro _ hf; simp [Outcome.isError] at hf
        · intro dep h; cases h
        · intro _ h; cases h
      | ok p =>
        refine ⟨?_, ?_, ?_, ?_⟩
        · intro hr
          have := h1 hr
          subst hr
          exact this
        · intro hc _
          exact (h2 hc _ rfl).called url _ p ho release p.manifest
        · intro dep _
          exact h3 _ rfl
        · intro _ h; cases h

/-- The outer loop over an oracle: with `release` the transient directories
end as they began; unless an error is returned every recorded call succeeded;
a map is returned only if every constraint of every name resolved to a label
that parses; without empty constraint lists the loop does not panic. -/
theorem resolveEntries_effects (sv : Semver K C) (o : Oracle) (release : Bool)
    (urls : GoMap String) :
    ∀ (entries : List (String × List String)) (acc : GoMap LockedDependency) (sys : Sys),
      (release = true →
        (resolveEntries sv o.call release urls entries acc sys).2.fs = sys.fs) ∧
      (CallsOk o sys → (resolveEntries sv o.call release urls entries acc sys).1.isError = false →
        CallsOk o (resolveEntries sv o.call release urls entries acc sys).2) ∧
      (∀ m, (resolveEntries sv o.call release urls entries acc sys).1 = .ok m →
        ∀ e ∈ entries, ∀ c ∈ e.2, ∃ p v, o (urls.getStr e.1) c = .ok p ∧
          sv.NewVersion p.label = some v) ∧
      ((∀ e ∈ entries, e.2 ≠ []) →
        (resolveEntries sv o.call release urls entries acc sys).1 ≠ .panic) := by
  intro entries
  induction entries with
  | nil =>
    intro acc sys
    refine ⟨fun _ => rfl, fun h _ => h, by simp, ?_⟩
    intro _ h
    cases h
  | cons e entries ih =>
    intro acc sys
    obtain ⟨n, cs⟩ := e
    obtain ⟨h1, h2, h3, h4⟩ := resolveName_effects sv o release n (urls.getStr n) cs sys
    unfold resolveEntries
    generalize resolveName sv o.call release n (urls.getStr n) cs sys = R at h1 h2 h3 h4
    obtain ⟨r, sys1⟩ := R
    simp only at h1 h2 h3 h4
    cases r with
    | error e =>
      refine ⟨h1, ?_, ?_, ?_⟩
      · intro _ hf; simp [Outcome.isError] at hf
      · intro m h; cases h
      · intro _ h; cases h
    | panic =>
      refine ⟨h1, fun hc _ => h2 hc rfl, ?_, ?_⟩
      · intro m h; cases h
      · intro hne _
        exact h4 (hne (n, cs) (List.mem_cons_self _ _)) rfl
    | ok dep =>
      simp only
      obtain ⟨i1, i2, i3, i4⟩ := ih (acc.set n dep) sys1
      refine ⟨?_, ?_, ?_, ?_⟩
      · intro hr
        rw [i1 hr, h1 hr]
      · intro hc hf
        exact i2 (h2 hc rfl) hf
      · intro m hm e he
        rcases List.mem_cons.1 he with rfl | hmem
        · exact h3 dep rfl
        · exact i3 m hm e hmem
      · intro hne
        exact i4 (fun e he => hne e (List.mem_cons_of_mem _ he))

end ConflictEffects

/-! ## C10: release of the transient checkouts -/

section C10

variable {K C : Type} [LinearOrder K]

/-- `resolveConflicts` of install.go leaves the transient directories as it
found them, whatever it returns. -/
theorem resolveConflicts_releases (sv : Semver K C) (git : Git) (ord : MapOrder)
    (g : DiscoveryResult) (sys : Sys) :
    (resolveConflicts sv git ord g sys).2.fs = sys.fs := by
  unfold resolveConflicts
  rw [resolveVersion_funext]
  exact (resolveEntries_effects sv (resolveOracle sv git) true g.urls _ [] sys).1 rfl

/-- C10 (failing input): on the graph with package `P` required at `^1.0.0` and
`^2.0.0`, `conflicts.ResolveConflicts` run with `resolveVersion` as its resolver
succeeds and leaves the three transient checkouts of its three resolver calls
on disk, while `resolveConflicts` of install.go, on the same input, leaves
none. -/
theorem ResolveConflicts_leaves_checkouts :
    (ResolveConflicts plainSemver (resolveVersion plainSemver conflictGit) MapOrder.stored
        conflictGraph Sys.init).1
      = .ok [("P", { url := "u", version := "2.1.0", commit := "commit-2.1.0" })] ∧
    (ResolveConflicts plainSemver (resolveVersion plainSemver conflictGit) MapOrder.stored
        conflictGraph Sys.init).2.fs.dirs = [3, 2, 1] ∧
    (resolveConflicts plainSemver conflictGit MapOrder.stored conflictGraph Sys.init).2.fs.dirs
      = [] := by
  refine ⟨by decide, by decide, by decide⟩

end C10

/-! ## C7: failure atomicity of install -/

section C7

variable {K C : Type} [LinearOrder K]

theorem Outcome.error_of_isError {α : Type} {x : Outcome α} (h : x.isError ≠ false) :
    ∃ e, x = .error e := by
  cases x with
  | ok a => simp [Outcome.isError] at h
  | error e => exact ⟨e, rfl⟩
  | panic => simp [Outcome.isError] at h

/-- In a state satisfying the invariant no recorded constraint list is empty. -/
theorem DiscInv.cons_nonempty {st : DiscState} (h : DiscInv st) :
    ∀ e ∈ st.result.constraints, e.2 ≠ [] := by
  intro e he
  obtain ⟨n, cs⟩ := e
  have hget := GoMap.get?_of_mem_nodup _ n cs h.cnodup he
  have hl : st.result.constraints.getList n = cs := by simp [GoMap.getList, hget]
  have hk : n ∈ st.result.constraints.keys := List.mem_map_of_mem Prod.fst he
  obtain ⟨d, hd, hn⟩ := (h.dnames n).1 ((h.ckeys n).1 hk)
  intro hcs
  simp only at hcs
  rw [← hl, h.cons n] at hcs
  have hmem : d.constraint ∈ (st.sys.trace.declared.filter (fun d => d.name = n)).map
      (fun d => d.constraint) := by
    apply List.mem_map_of_mem
    simp [List.mem_filter, hd, hn]
  rw [hcs] at hmem
  cases hmem

theorem sys_eta_empty (sys : Sys) (h : sys.trace = Trace.empty) :
    sys = { fs := sys.fs, trace := Trace.empty } := by
  cases sys
  simp only at h
  subst h
  rfl

/-- The result of `InstallDependencies` when resolution failed. -/
theorem install_of_resolution_failed (sv : Semver K C) (git : Git) (env : Env) (ord : MapOrder)
    (fuel : ℕ) (up : Bool) (disk : Disk) (out : Outcome Unit) (disk' : Disk)
    (hrun : InstallDependencies sv git env ord fuel up disk = some (out, disk'))
    (hfail : ResolutionFailed sv git ord fuel disk) :
    (∃ e, out = .error e) ∧ disk'.lock = disk.lock := by
  unfold InstallDependencies at hrun
  by_cases hrm : env.removeModules = false
  · simp only [hrm, if_true, Option.some.injEq, Prod.mk.injEq] at hrun
    obtain ⟨h1, h2⟩ := hrun
    subst h1 h2
    exact ⟨⟨_, rfl⟩, rfl⟩
  · simp only [hrm, if_false] at hrun
    rcases hfail with ⟨e, sys1, hd⟩ | ⟨g, sys1, e, sys2, hd, hc⟩
    · simp only [hd, Option.some.injEq, Prod.mk.injEq] at hrun
      obtain ⟨rfl, rfl⟩ := hrun
      exact ⟨⟨_, rfl⟩, rfl⟩
    · simp only [hd, hc, Option.some.injEq, Prod.mk.injEq] at hrun
      obtain ⟨rfl, rfl⟩ := hrun
      exact ⟨⟨_, rfl⟩, rfl⟩

/-- C7: in an install started with an empty trace, (i) discovery returns an
error, and no graph, whenever one of its resolver calls fails; (ii) on the
discovered graph `resolveConflicts` returns an error, and no map, whenever one
of its resolver calls fails or a constraint resolves to a label that is not a
valid semantic version; (iii) whenever either stage returns an error,
`InstallDependencies` returns an error and the lockfile is what it was before
the call. -/
theorem install_failure_atomic (sv : Semver K C) (git : Git) (env : Env) (ord : MapOrder)
    (fuel : ℕ) (up : Bool) (disk : Disk) (out : Outcome Unit) (disk' : Disk)
    (htr : disk.sys.trace = Trace.empty)
    (hrun : InstallDependencies sv git env ord fuel up disk = some (out, disk')) :
    (∀ r, discoverAllDependencies sv git ord fuel
        (disk.config.map (fun cfg => cfg.dependencies)) disk.sys = some r →
      (∃ uc ∈ r.2.trace.calls, ∃ e, resolveOracle sv git uc.1 uc.2 = .error e) →
      ∃ e, r.1 = .error e) ∧
    (∀ g sys1, discoverAllDependencies sv git ord fuel
        (disk.config.map (fun cfg => cfg.dependencies)) disk.sys = some (.ok g, sys1) →
      ((∃ uc ∈ (resolveConflicts sv git ord g sys1).2.trace.calls,
          ∃ e, resolveOracle sv git uc.1 uc.2 = .error e) ∨
        (∃ name cs c p, (name, cs) ∈ g.constraints ∧ c ∈ cs ∧
          resolveOracle sv git (g.urls.getStr name) c = .ok p ∧
          sv.NewVersion p.label = none)) →
      ∃ e, (resolveConflicts sv git ord g sys1).1 = .error e) ∧
    (ResolutionFailed sv git ord fuel disk →
      (∃ e, out = .error e) ∧ disk'.lock = disk.lock) := by
  have hpost : ∀ r, discoverAllDependencies sv git ord fuel
      (disk.config.map (fun cfg => cfg.dependencies)) disk.sys = some r →
      ∃ st', DiscInv st' ∧ st'.sys.trace = r.2.trace ∧
        (∀ g, r.1 = .ok g → st'.queue = [] ∧ st'.result = g ∧ st'.sys = r.2) ∧
        (r.1.isError = false →
          ∀ uc ∈ r.2.trace.calls, ∃ p, resolveOracle sv git uc.1 uc.2 = .ok p) := by
    intro r hr
    unfold discoverAllDependencies at hr
    rw [resolveVersion_funext, sys_eta_empty disk.sys htr] at hr
    exact discoverWith_post _ parsePkgStr ord fuel _ _ r hr
  refine ⟨?_, ?_, install_of_resolution_failed sv git env ord fuel up disk out disk' hrun⟩
  · intro r hr ⟨uc, huc, e, he⟩
    obtain ⟨_, _, _, _, hcalls⟩ := hpost r hr
    apply Outcome.error_of_isError
    intro hf
    obtain ⟨p, hp⟩ := hcalls hf uc huc
    rw [hp] at he
    cases he
  · intro g sys1 hd hbad
    obtain ⟨st', hinv, _, hfin, hcalls⟩ := hpost _ hd
    obtain ⟨_, hres, _⟩ := hfin g rfl
    have hcok : CallsOk (resolveOracle sv git) sys1 := hcalls rfl
    have hne : ∀ e ∈ ord.order g.constraints, e.2 ≠ [] := by
      intro e he
      rw [← hres] at he
      exact hinv.cons_nonempty e ((List.Perm.mem_iff (ord.perm _)).1 he)
    obtain ⟨_, e2, e3, e4⟩ :=
      resolveEntries_effects sv (resolveOracle sv git) true g.urls
        (ord.order g.constraints) [] sys1
    have hrc : resolveConflicts sv git ord g sys1 =
        resolveEntries sv (resolveOracle sv git).call true g.urls
          (ord.order g.constraints) [] sys1 := by
      unfold resolveConflicts
      rw [resolveVersion_funext]
    rw [hrc]
    rw [hrc] at hbad
    generalize resolveEntries sv (resolveOracle sv git).call true g.urls
      (ord.order g.constraints) [] sys1 = R at e2 e3 e4 hbad
    obtain ⟨r, sys2⟩ := R
    simp only at e2 e3 e4 hbad ⊢
    cases r with
    | error e => exact ⟨e, rfl⟩
    | panic => exact absurd rfl (e4 hne)
    | ok m =>
      exfalso
      rcases hbad with ⟨uc, huc, e, he⟩ | ⟨name, cs, c, p, hmem, hc, hp, hv⟩
      · obtain ⟨p, hp⟩ := e2 hcok rfl uc huc
        rw [hp] at he
        cases he
      · obtain ⟨p', v, hp', hv'⟩ :=
          e3 m rfl (name, cs) ((List.Perm.mem_iff (ord.perm _)).2 hmem) c hc
        simp only at hp'
        rw [hp] at hp'
        cases hp'
        rw [hv] at hv'
        cases hv'

end C7

/-- Witness of C7: the manifest requires `P` at `^3.0.0` while the repository
has only the tags 1.5.0 and 2.1.0; the probing call fails, the install returns
the discovery error and the lockfile of the earlier install is untouched. -/
theorem install_failure_atomic_witness :
    InstallDependencies plainSemver conflictGit Env.allOk MapOrder.stored 3 false
        unsatisfiableDisk =
      some (.error (.discovery (.tempResolve "P" (.noVersion "^3.0.0" "u"))),
        { unsatisfiableDisk with
          sys := { fs := [],
                   trace := { declared := [{ requester := none, name := "P", url := "u",
                                             constraint := "^3.0.0" }],
                              enqueued := ["P"], probed := ["P"],
                              calls := [("u", "^3.0.0")] } } }) ∧
    ((∃ e, (Outcome.error (.discovery (.tempResolve "P" (.noVersion "^3.0.0" "u"))) :
        Outcome Unit) = .error e) ∧
      unsatisfiableDisk.lock = unsatisfiableDisk.lock) :=
  ⟨by decide,
    (install_failure_atomic plainSemver conflictGit Env.allOk MapOrder.stored 3 false
      unsatisfiableDisk _
      { unsatisfiableDisk with
          sys := { fs := [],
                   trace := { declared := [{ requester := none, name := "P", url := "u",
                                             constraint := "^3.0.0" }],
                              enqueued := ["P"], probed := ["P"],
                              calls := [("u", "^3.0.0")] } } }
      rfl (by decide)).2.2
      (Or.inl ⟨.tempResolve "P" (.noVersion "^3.0.0" "u"),
        { fs := [],
          trace := { declared := [{ requester := none, name := "P", url := "u",
                                    constraint := "^3.0.0" }],
                     enqueued := ["P"], probed := ["P"],
                     calls := [("u", "^3.0.0")] } }, by decide⟩)⟩

/-! ## C8: uninstall and re-resolution -/

section C8

variable {K C : Type} [LinearOrder K]

/-- An invariant of the trace that the bookkeeping of a probe and the
declarations of a probed manifest preserve holds of the result of the
work-queue loop. -/
theorem discoverLoop_trace_inv (o : Oracle) (parse : String → Option (String × String))
    (ord : MapOrder) (Q : Trace → Prop)
    (hq : ∀ (st : DiscState) name queue url c,
      Q st.sys.trace → Q (st.dequeued name queue url c).sys.trace)
    (hd : ∀ (st st' : DiscState) name l, Q st.sys.trace →
      declareAll parse (some name) l st = some st' → Q st'.sys.trace) :
    ∀ (fuel : ℕ) (st : DiscState) (r : Outcome DiscoveryResult × Sys),
      Q st.sys.trace → discoverLoop o.call parse ord fuel st = some r → Q r.2.trace := by
  intro fuel
  induction fuel with
  | zero => intro st r _ h; simp [discoverLoop] at h
  | succ fuel ih =>
    intro st r hQ h
    rw [discoverLoop_succ] at h
    cases hqe : st.queue with
    | nil =>
      simp only [hqe, Option.some.injEq] at h
      subst h
      exact hQ
    | cons name queue =>
      simp only [hqe] at h
      cases hc : st.result.constraints.getList name with
      | nil =>
        simp only [hc, Option.some.injEq] at h
        subst h
        exact hQ
      | cons c0 cs =>
        simp only [hc] at h
        have hQ' := hq st name queue (st.result.urls.getStr name) c0 hQ
        cases ho : o (st.result.urls.getStr name) c0 with
        | error e =>
          simp only [ho, Option.some.injEq] at h
          subst h
          exact hQ'
        | ok p =>
          simp only [ho] at h
          cases hm : p.manifest with
          | absent =>
            simp only [hm] at h
            exact ih _ r hQ' h
          | unreadable =>
            simp only [hm, Option.some.injEq] at h
            subst h
            exact hQ'
          | deps d =>
            simp only [hm] at h
            cases hda : declareAll parse (some name) (ord.order d)
                (st.dequeued name queue (st.result.urls.getStr name) c0) with
            | none =>
              simp only [hda, Option.some.injEq] at h
              subst h
              exact hQ'
            | some st1 =>
              simp only [hda] at h
              exact ih st1 r (hd _ st1 name _ hQ' hda) h

/-- The declarations appended by a `range` loop carry its requester and the
names of the entries visited. -/
theorem declareAll_declared (parse : String → Option (String × String))
    (requester : Option String) :
    ∀ (l : List (String × String)) (st st' : DiscState),
      declareAll parse requester l st = some st' →
      ∃ ds, st'.sys.trace.declared = st.sys.trace.declared ++ ds ∧
        ∀ d ∈ ds, d.requester = requester ∧ d.name ∈ l.map Prod.fst := by
  intro l
  induction l with
  | nil =>
    intro st st' h
    simp only [declareAll, Option.some.injEq] at h
    subst h
    exact ⟨[], by simp, by simp⟩
  | cons e l ih =>
    intro st st' h
    obtain ⟨n, p⟩ := e
    unfold declareAll at h
    cases hd : declare parse requester st n p with
    | none => simp [hd] at h
    | some st1 =>
      simp only [hd] at h
      obtain ⟨url, constraint, _, _, _, _, _, _, hdecl, _⟩ :=
        declare_eq parse requester st st1 n p hd
      obtain ⟨ds, hds, hall⟩ := ih st1 st' h
      refine ⟨{ requester := requester, name := n, url := url, constraint := constraint } :: ds,
        by rw [hds, hdecl]; simp, ?_⟩
      intro d hdm
      rcases List.mem_cons.1 hdm with rfl | hm
      · exact ⟨rfl, by simp⟩
      · obtain ⟨h1, h2⟩ := hall d hm
        exact ⟨h1, by simp [h2]⟩

/-- In a discovery run started with an empty trace, every declaration whose
requester is the root manifest names a root dependency. -/
theorem discoverWith_root_decls (o : Oracle) (parse : String → Option (String × String))
    (ord : MapOrder) (fuel : ℕ) (deps : GoMap String) (fs : TempFS)
    (r : Outcome DiscoveryResult × Sys)
    (h : discoverWith o.call parse ord fuel (some deps)
      { fs := fs, trace := Trace.empty } = some r) :
    ∀ d ∈ r.2.trace.declared, d.requester = none → d.name ∈ deps.keys := by
  rw [discoverWith_eq] at h
  simp only at h
  cases hda : declareAll parse none (ord.order deps)
      (DiscState.init { fs := fs, trace := Trace.empty }) with
  | none =>
    simp only [hda, Option.some.injEq] at h
    subst h
    intro d hd
    simp [Trace.empty] at hd
  | some st =>
    simp only [hda] at h
    obtain ⟨ds, hds, hall⟩ := declareAll_declared parse none _ _ st hda
    apply discoverLoop_trace_inv o parse ord
      (fun tr => ∀ d ∈ tr.declared, d.requester = none → d.name ∈ deps.keys) _ _ fuel st r _ h
    · intro st name queue url c hQ
      exact hQ
    · intro st0 st' name l hQ hdl d hd hnone
      obtain ⟨ds', hds', hall'⟩ := declareAll_declared parse (some name) l st0 st' hdl
      rw [hds'] at hd
      rcases List.mem_append.1 hd with hm | hm
      · exact hQ d hm hnone
      · rw [(hall' d hm).1] at hnone
        cases hnone
    · intro d hd _
      rw [hds] at hd
      have hd' : d ∈ ds := by simpa [DiscState.init, Trace.empty] using hd
      have := (hall d hd').2
      exact (List.Perm.mem_iff (List.Perm.map Prod.fst (ord.perm deps))).1 this

omit [LinearOrder K] in
/-- Conflict resolution leaves the discovery part of the trace untouched. -/
theorem resolveEach_trace (sv : Semver K C) (rv : ResolverFn) (release : Bool)
    (name url : String) :
    ∀ (cs : List String) (acc : List (Version K)) (sys : Sys),
      (resolveEach sv rv release name url cs acc sys).2.trace.declared = sys.trace.declared ∧
      (resolveEach sv rv release name url cs acc sys).2.trace.probed = sys.trace.probed := by
  intro cs
  induction cs with
  | nil => intro acc sys; exact ⟨rfl, rfl⟩
  | cons c cs ih =>
    intro acc sys
    unfold resolveEach
    generalize hR : Sys.call rv url c sys = R
    obtain ⟨r, sys1⟩ := R
    have h1 : sys1.trace.declared = sys.trace.declared ∧ sys1.trace.probed = sys.trace.probed := by
      have : sys1 = (Sys.call rv url c sys).2 := by rw [hR]
      rw [this]
      exact ⟨rfl, rfl⟩
    cases r with
    | error e => exact h1
    | ok res =>
      obtain ⟨resolved, cm, tempDir⟩ := res
      simp only
      have hrel : (sys1.release release tempDir).trace = sys1.trace := by
        unfold Sys.release
        split <;> rfl
      cases sv.NewVersion resolved with
      | none =>
        simp only
        rw [hrel]
        exact h1
      | some v =>
        simp only
        obtain ⟨i1, i2⟩ := ih (acc ++ [v]) (sys1.release release tempDir)
        rw [i1, i2, hrel]
        exact h1

theorem resolveName_trace (sv : Semver K C) (rv : ResolverFn) (release : Bool)
    (name url : String) (cs : List String) (sys : Sys) :
    (resolveName sv rv release name url cs sys).2.trace.declared = sys.trace.declared ∧
    (resolveName sv rv release name url cs sys).2.trace.probed = sys.trace.probed := by
  have h := resolveEach_trace sv rv release name url cs [] sys
  unfold resolveName
  generalize resolveEach sv rv release name url cs [] sys = R at h
  obtain ⟨r, s1⟩ := R
  simp only at h
  cases r with
  | error e => exact h
  | ok vs =>
    cases vs with
    | nil => exact h
    | cons v0 vs =>
      simp only
      generalize hR2 : Sys.call rv url (highest v0 vs).original s1 = R2
      obtain ⟨r2, s2⟩ := R2
      have h2 : s2.trace.declared = s1.trace.declared ∧ s2.trace.probed = s1.trace.probed := by
        have : s2 = (Sys.call rv url (highest v0 vs).original s1).2 := by rw [hR2]
        rw [this]
        exact ⟨rfl, rfl⟩
      cases r2 with
      | error e =>
        simp only
        rw [h2.1, h2.2]
        exact h
      | ok res =>
        obtain ⟨l, cm, d⟩ := res
        simp only
        have hrel : (s2.release release d).trace = s2.trace := by
          unfold Sys.release
          split <;> rfl
        rw [hrel, h2.1, h2.2]
        exact h

theorem resolveEntries_trace (sv : Semver K C) (rv : ResolverFn) (release : Bool)
    (urls : GoMap String) :
    ∀ (entries : List (String × List String)) (acc : GoMap LockedDependency) (sys : Sys),
      (resolveEntries sv rv release urls entries acc sys).2.trace.declared
        = sys.trace.declared ∧
      (resolveEntries sv rv release urls entries acc sys).2.trace.probed = sys.trace.probed := by
  intro entries
  induction entries with
  | nil => intro acc sys; exact ⟨rfl, rfl⟩
  | cons e entries ih =>
    intro acc sys
    obtain ⟨n, cs⟩ := e
    have h := resolveName_trace sv rv release n (urls.getStr n) cs sys
    unfold resolveEntries
    generalize resolveName sv rv release n (urls.getStr n) cs sys = R at h
    obtain ⟨r, s1⟩ := R
    simp only at h
    cases r with
    | error e => exact h
    | panic => exact h
    | ok dep =>
      simp only
      obtain ⟨i1, i2⟩ := ih (acc.set n dep) s1
      rw [i1, i2]
      exact h

/-! ### Paths and byte slices -/

theorem splitChar_of_not_mem (sep : Char) :
    ∀ cs : List Char, sep ∉ cs → splitChar sep cs = [cs] := by
  intro cs
  induction cs with
  | nil => intro _; rfl
  | cons c cs ih =>
    intro h
    simp only [List.mem_cons, not_or] at h
    have hc : ¬ c = sep := fun e => h.1 e.symm
    simp [splitChar, hc, ih h.2]

theorem splitChar_append_sep (sep : Char) :
    ∀ (a b : List Char), sep ∉ a → splitChar sep (a ++ sep :: b) = a :: splitChar sep b := by
  intro a
  induction a with
  | nil =>
    intro b _
    simp [splitChar]
  | cons c a ih =>
    intro b h
    simp only [List.mem_cons, not_or] at h
    have hc : ¬ c = sep := fun e => h.1 e.symm
    simp [splitChar, hc, ih b h.2]

theorem plainComponent_iff (s : String) :
    plainComponent s = true ↔
      '/' ∉ s.toList ∧ s.toList ≠ [] ∧ s.toList ≠ ['.'] ∧ s.toList ≠ ['.', '.'] := by
  simp [plainComponent, and_assoc]

/-- Joining a directory name and a single path component gives the two
components. -/
theorem filepathJoin_plain (dir s : String) (hd : plainComponent dir = true)
    (hs : plainComponent s = true) : filepathJoin dir s = [dir.toList, s.toList] := by
  obtain ⟨d0, d1, d2, d3⟩ := (plainComponent_iff dir).1 hd
  obtain ⟨s0, s1, s2, s3⟩ := (plainComponent_iff s).1 hs
  unfold filepathJoin
  rw [splitChar_append_sep '/' _ _ d0, splitChar_of_not_mem '/' _ s0]
  simp only [String.toList] at d1 d2 d3 s1 s2 s3 ⊢
  simp [cleanComponents, d1, d2, d3, s1, s2, s3]

/-- The two paths of a plain name and a plain key are the entries of that name
in `cpp_modules` and of that key in `.cppkg_cache`. -/
theorem locate_plain (s : String) (hs : plainComponent s = true) :
    locate (filepathJoin ModulesDir s) = .modules s ∧
      locate (filepathJoin CacheDir s) = .cache s := by
  rw [filepathJoin_plain ModulesDir s (by decide) hs, filepathJoin_plain CacheDir s (by decide) hs]
  constructor
  · simp [locate]
  · have hne : ¬ CacheDir.data = ModulesDir.data := by decide
    simp [locate, hne]

/-- Paths of names that are not single components: the destination of `..` is
the project directory itself, the destination of `../.cppkg_cache/K` is the
cache entry `K`, and the cache path of a key that starts with
`../cpp_modules/` is an entry of `cpp_modules`. -/
theorem filepathJoin_escaping :
    filepathJoin ModulesDir ".." = [] ∧
    locate (filepathJoin ModulesDir "..") = .elsewhere ∧
    locate (filepathJoin ModulesDir "../.cppkg_cache/K") = .cache "K" ∧
    locate (filepathJoin CacheDir "../cpp_modules/y-commit-1.2.3") =
      .modules "y-commit-1.2.3" := by
  decide

theorem utf8Len_pos (c : Char) : 0 < utf8Len c := by
  unfold utf8Len
  split
  · exact Nat.one_pos
  · split
    · decide
    · split <;> decide

/-- The slice of a string at the byte length of a prefix of its characters is
that prefix. -/
theorem sliceBytes_append :
    ∀ (p rest : List Char), sliceBytes (p.map utf8Len).sum (p ++ rest) = some p := by
  intro p
  induction p with
  | nil =>
    intro rest
    simp [sliceBytes]
  | cons c p ih =>
    intro rest
    have hpos := utf8Len_pos c
    obtain ⟨k, hk⟩ : ∃ k, (List.map utf8Len (c :: p)).sum = k + 1 := by
      refine ⟨utf8Len c + (p.map utf8Len).sum - 1, ?_⟩
      simp only [List.map_cons, List.sum_cons]
      omega
    have hle : utf8Len c ≤ k + 1 := by
      simp only [List.map_cons, List.sum_cons] at hk
      omega
    have hsub : k + 1 - utf8Len c = (p.map utf8Len).sum := by
      simp only [List.map_cons, List.sum_cons] at hk
      omega
    rw [hk]
    show sliceBytes (k + 1) (c :: (p ++ rest)) = some (c :: p)
    rw [sliceBytes]
    simp only [hle, if_true, hsub, ih rest, Option.map_some']

theorem byteLength_append (p rest : String) :
    byteLength (p ++ rest) = byteLength p + byteLength rest := by
  simp [byteLength, String.toList, String.data_append]

/-- The key of a name without separator and a prefix without separator is a
single path component. -/
theorem plainComponent_key (name : String) (p : List Char) (hn : '/' ∉ name.toList)
    (hp : '/' ∉ p) : plainComponent (name ++ "-" ++ String.mk p) = true := by
  rw [plainComponent_iff]
  have hl : (name ++ "-" ++ String.mk p).toList = name.toList ++ '-' :: p := by
    simp [String.toList, String.data_append]
  rw [hl]
  have hdash : '-' ∈ name.toList ++ '-' :: p := by simp
  refine ⟨?_, ?_, ?_, ?_⟩
  · simp only [List.mem_append, List.mem_cons, not_or]
    exact ⟨hn, by decide, hp⟩
  · intro h
    rw [h] at hdash
    cases hdash
  · intro h
    rw [h] at hdash
    revert hdash
    decide
  · intro h
    rw [h] at hdash
    revert hdash
    decide

theorem Disk.put_frame (disk : Disk) (loc : Loc) (tree : Tree) :
    (disk.put loc tree).config = disk.config ∧ (disk.put loc tree).lock = disk.lock ∧
      (disk.put loc tree).sys = disk.sys := by
  cases loc <;> exact ⟨rfl, rfl, rfl⟩

/-- The body of `installPackage` on entries leaves the manifest, the lockfile
and the trace as they were. -/
theorem installEntries_frame (git : Git) (env : Env) (name url commit key : String)
    (c d : Loc) (disk : Disk) :
    (installEntries git env name url commit key c d disk).2.config = disk.config ∧
    (installEntries git env name url commit key c d disk).2.lock = disk.lock ∧
    (installEntries git env name url commit key c d disk).2.sys.trace = disk.sys.trace := by
  have hput : ∀ (x : Disk) (loc : Loc) (t : Tree),
      (x.put loc t).config = x.config ∧ (x.put loc t).lock = x.lock ∧
        (x.put loc t).sys.trace = x.sys.trace := fun x loc t => by
    obtain ⟨h1, h2, h3⟩ := Disk.put_frame x loc t
    exact ⟨h1, h2, by rw [h3]⟩
  unfold installEntries
  split
  · split
    · exact ⟨rfl, rfl, rfl⟩
    · exact hput _ _ _
  · split
    · exact ⟨rfl, rfl, rfl⟩
    · simp only
      split
      · exact ⟨rfl, rfl, rfl⟩
      · split
        · exact ⟨rfl, rfl, rfl⟩
        · split
          · exact ⟨rfl, rfl, rfl⟩
          · split
            · exact ⟨rfl, rfl, rfl⟩
            · split
              · exact hput _ _ _
              · exact ⟨(hput _ d _).1.trans (hput _ c _).1,
                  (hput _ d _).2.1.trans (hput _ c _).2.1,
                  (hput _ d _).2.2.trans (hput _ c _).2.2⟩

/-- `installPackage` leaves the ghost trace as it was. -/
theorem installPackage_trace (git : Git) (env : Env) (name url commit : String) (disk : Disk) :
    (installPackage git env name url commit disk).2.sys.trace = disk.sys.trace := by
  unfold installPackage
  split
  · rfl
  · split
    · rfl
    · simp only
      split
      · rfl
      · exact (installEntries_frame git env name url commit _ _ _ disk).2.2

/-- With a plain name and a plain commit prefix, `installPackage` is the body
on the entries of the name in `cpp_modules` and of the key in
`.cppkg_cache`. -/
theorem installPackage_plain (git : Git) (env : Env) (name url commit : String) (disk : Disk)
    (hn : plainComponent name = true) (hc : plainPrefix commit = true) :
    ∃ p, sliceBytes 12 commit.toList = some p ∧ '/' ∉ p ∧
      plainComponent (name ++ "-" ++ String.mk p) = true ∧
      installPackage git env name url commit disk =
        if byteLength commit < 12 then (.panic, disk)
        else installEntries git env name url commit (name ++ "-" ++ String.mk p)
          (.cache (name ++ "-" ++ String.mk p)) (.modules name) disk := by
  unfold plainPrefix at hc
  cases hsl : sliceBytes 12 commit.toList with
  | none =>
    rw [hsl] at hc
    cases hc
  | some p =>
    rw [hsl] at hc
    have hc : '/' ∉ p := by simpa using hc
    have hk := plainComponent_key name p ((plainComponent_iff name).1 hn).1 hc
    refine ⟨p, rfl, hc, hk, ?_⟩
    unfold installPackage
    simp only [cacheKey, hsl, Option.map_some', (locate_plain name hn).1,
      (locate_plain _ hk).2]
    simp

/-- The body of `installPackage` on a cache entry and a modules entry neither
removes nor changes a cache entry. -/
theorem installEntries_cache_kept (git : Git) (env : Env) (name url commit key : String)
    (k n : String) (disk : Disk) :
    CacheKept disk (installEntries git env name url commit key (.cache k) (.modules n) disk).2 := by
  intro k' t hk
  unfold installEntries
  cases hc : disk.entry (.cache k) with
  | some tree =>
    simp only
    split <;> exact hk
  | none =>
    have hne : k' ≠ k := by
      intro he
      rw [he] at hk
      have : disk.cache.get? k = none := hc
      rw [this] at hk
      cases hk
    simp only
    split
    · exact hk
    · split
      · exact hk
      · split
        · exact hk
        · split
          · exact hk
          · split
            · exact hk
            · split
              · show (disk.cache.set k _).get? k' = some t
                rw [GoMap.get?_set_other _ _ _ _ hne]
                exact hk
              · show (disk.cache.set k _).get? k' = some t
                rw [GoMap.get?_set_other _ _ _ _ hne]
                exact hk

theorem CacheKept.kept_refl (d : Disk) : CacheKept d d := fun _ _ h => h

theorem CacheKept.kept_trans {d1 d2 d3 : Disk} (h12 : CacheKept d1 d2) (h23 : CacheKept d2 d3) :
    CacheKept d1 d3 := fun k t h => h23 k t (h12 k t h)

/-- With a plain name and a plain commit prefix, `installPackage` leaves the
manifest and the lockfile as they were and neither removes nor changes a cache
entry. -/
theorem installPackage_frame (git : Git) (env : Env) (name url commit : String) (disk : Disk)
    (hn : plainComponent name = true) (hc : plainPrefix commit = true) :
    (installPackage git env name url commit disk).2.config = disk.config ∧
    (installPackage git env name url commit disk).2.lock = disk.lock ∧
    CacheKept disk (installPackage git env name url commit disk).2 := by
  obtain ⟨p, _, _, _, heq⟩ := installPackage_plain git env name url commit disk hn hc
  rw [heq]
  split
  · exact ⟨rfl, rfl, CacheKept.kept_refl disk⟩
  · obtain ⟨h1, h2, _⟩ := installEntries_frame git env name url commit
      (name ++ "-" ++ String.mk p) (.cache (name ++ "-" ++ String.mk p)) (.modules name) disk
    exact ⟨h1, h2, installEntries_cache_kept git env name url commit _ _ _ disk⟩

/-- The install loop leaves the trace as it was, and the lock entries it
collects belong to the packages visited. -/
theorem installAll_frame (git : Git) (env : Env) :
    ∀ (l : List (String × LockedDependency)) (acc : LockFile) (disk : Disk),
      (installAll git env l acc disk).2.sys.trace = disk.sys.trace ∧
      ∀ lock, (installAll git env l acc disk).1 = .ok lock →
        ∀ k, k ∈ lock.keys → k ∈ acc.keys ∨ k ∈ l.map Prod.fst := by
  intro l
  induction l with
  | nil =>
    intro acc disk
    refine ⟨rfl, ?_⟩
    intro lock h k hk
    simp only [installAll, Outcome.ok.injEq] at h
    subst h
    exact Or.inl hk
  | cons e l ih =>
    intro acc disk
    obtain ⟨n, dep⟩ := e
    have hf := installPackage_trace git env n dep.url dep.commit disk
    unfold installAll
    generalize installPackage git env n dep.url dep.commit disk = R at hf
    obtain ⟨r, d1⟩ := R
    simp only at hf
    cases r with
    | error e => exact ⟨hf, by intro lock h; cases h⟩
    | panic => exact ⟨hf, by intro lock h; cases h⟩
    | ok u =>
      simp only
      obtain ⟨i3, i4⟩ := ih (acc.set n dep) d1
      refine ⟨by rw [i3, hf], ?_⟩
      intro lock h k hk
      rcases i4 lock h k hk with hm | hm
      · rcases (GoMap.mem_keys_set acc n k dep).1 hm with rfl | hm'
        · exact Or.inr (by simp)
        · exact Or.inl hm'
      · exact Or.inr (by simp [hm])

/-- Over plain names and plain commit prefixes the install loop leaves the
manifest and the lockfile as they were and neither removes nor changes a cache
entry. -/
theorem installAll_plain (git : Git) (env : Env) :
    ∀ (l : List (String × LockedDependency)) (acc : LockFile) (disk : Disk),
      (∀ e ∈ l, plainComponent e.1 = true ∧ plainPrefix e.2.commit = true) →
      (installAll git env l acc disk).2.config = disk.config ∧
      (installAll git env l acc disk).2.lock = disk.lock ∧
      CacheKept disk (installAll git env l acc disk).2 := by
  intro l
  induction l with
  | nil =>
    intro acc disk _
    exact ⟨rfl, rfl, CacheKept.kept_refl disk⟩
  | cons e l ih =>
    intro acc disk hl
    obtain ⟨n, dep⟩ := e
    obtain ⟨hn, hc⟩ := hl (n, dep) (List.mem_cons_self _ _)
    have hf := installPackage_frame git env n dep.url dep.commit disk hn hc
    unfold installAll
    generalize installPackage git env n dep.url dep.commit disk = R at hf
    obtain ⟨r, d1⟩ := R
    simp only at hf
    cases r with
    | error e => exact hf
    | panic => exact hf
    | ok u =>
      simp only
      obtain ⟨i1, i2, i3⟩ := ih (acc.set n dep) d1 (fun e he => hl e (List.mem_cons_of_mem _ he))
      exact ⟨by rw [i1, hf.1], by rw [i2, hf.2.1], hf.2.2.kept_trans i3⟩

/-- The lockfile collected by a successful install loop over distinct names
holds every package visited. -/
theorem installAll_ok_lock (git : Git) (env : Env) :
    ∀ (l : List (String × LockedDependency)) (acc : LockFile) (disk : Disk) (lock : LockFile),
      (installAll git env l acc disk).1 = .ok lock → (l.map Prod.fst).Nodup →
      (∀ e ∈ l, lock.get? e.1 = some e.2) ∧
      (∀ k, k ∉ l.map Prod.fst → lock.get? k = acc.get? k) := by
  intro l
  induction l with
  | nil =>
    intro acc disk lock h _
    simp only [installAll, Outcome.ok.injEq] at h
    subst h
    exact ⟨(by intro e he; cases he), fun _ _ => rfl⟩
  | cons e l ih =>
    intro acc disk lock h hnd
    obtain ⟨n, dep⟩ := e
    simp only [List.map_cons, List.nodup_cons] at hnd
    unfold installAll at h
    generalize installPackage git env n dep.url dep.commit disk = R at h
    obtain ⟨r, d1⟩ := R
    cases r with
    | error e => cases h
    | panic => cases h
    | ok u =>
      simp only at h
      obtain ⟨i1, i2⟩ := ih (acc.set n dep) d1 lock h hnd.2
      constructor
      · intro e he
        rcases List.mem_cons.1 he with rfl | hm
        · rw [i2 n hnd.1]
          exact GoMap.get?_set_self _ _ _
        · exact i1 e hm
      · intro k hk
        simp only [List.map_cons, List.mem_cons, not_or] at hk
        rw [i2 k hk.2, GoMap.get?_set_other _ _ _ _ hk.1]

theorem GoMap.mem_of_get? {β : Type} (m : GoMap β) (k : String) (v : β)
    (h : m.get? k = some v) : (k, v) ∈ m := by
  induction m with
  | nil => simp [GoMap.get?] at h
  | cons e m ih =>
    obtain ⟨k', v'⟩ := e
    by_cases hk : k' = k
    · simp [GoMap.get?, hk] at h
      simp [hk, h]
    · simp [GoMap.get?, hk] at h
      exact List.mem_cons_of_mem _ (ih h)

theorem GoMap.not_mem_keys_delete {β : Type} (m : GoMap β) (k : String) :
    k ∉ (m.delete k).keys := by
  intro h
  obtain ⟨e, he, hk⟩ := List.mem_map.1 h
  have := (List.mem_filter.1 he).2
  simp [hk] at this

theorem GoMap.mem_keys_of_get? {β : Type} (m : GoMap β) (k : String) (v : β)
    (h : m.get? k = some v) : k ∈ m.keys := by
  by_contra hn
  rw [(GoMap.get?_eq_none_iff m k).2 hn] at h
  cases h

theorem GoMap.get?_of_mem_keys {β : Type} (m : GoMap β) (k : String) (h : k ∈ m.keys) :
    ∃ v, m.get? k = some v := by
  cases hg : m.get? k with
  | none => exact absurd h ((GoMap.get?_eq_none_iff m k).1 hg)
  | some v => exact ⟨v, rfl⟩

/-- The keys of the map returned by the outer loop of conflict resolution are
distinct when those of the map it starts from are. -/
theorem resolveEntries_keys_nodup (sv : Semver K C) (rv : ResolverFn) (release : Bool)
    (urls : GoMap String) :
    ∀ (entries : List (String × List String)) (acc : GoMap LockedDependency) (sys sys' : Sys)
      (m : GoMap LockedDependency),
      resolveEntries sv rv release urls entries acc sys = (.ok m, sys') →
      acc.keys.Nodup → m.keys.Nodup := by
  intro entries
  induction entries with
  | nil =>
    intro acc sys sys' m h hnd
    simp only [resolveEntries, Prod.mk.injEq, Outcome.ok.injEq] at h
    rw [← h.1]
    exact hnd
  | cons e entries ih =>
    intro acc sys sys' m h hnd
    obtain ⟨n, cs⟩ := e
    unfold resolveEntries at h
    generalize resolveName sv rv release n (urls.getStr n) cs sys = R at h
    obtain ⟨r, sys1⟩ := R
    cases r with
    | error e => simp at h
    | panic => simp at h
    | ok dep =>
      simp only at h
      exact ih _ _ _ _ h (GoMap.keys_nodup_set acc n dep hnd)

/-- After a successful install started with an empty trace, whose lockfile
lists only plain names and plain commit prefixes, the manifest is unchanged,
every cache entry is kept, and every entry of the written lockfile belongs to
a name declared during discovery, by the root manifest or by the manifest of a
probed package. -/
theorem install_ok (sv : Semver K C) (git : Git) (env : Env) (ord : MapOrder) (fuel : ℕ)
    (up : Bool) (disk disk' : Disk) (htr : disk.sys.trace = Trace.empty)
    (hrun : InstallDependencies sv git env ord fuel up disk = some (.ok (), disk'))
    (hsafe : ∀ lock, disk'.lock = some lock → PlainLock lock) :
    disk'.config = disk.config ∧ CacheKept disk disk' ∧
    ∃ lock, disk'.lock = some lock ∧
      ∀ k ∈ lock.keys, ∃ d ∈ disk'.sys.trace.declared, d.name = k ∧
        (d.requester = none → ∃ cfg, disk.config = some cfg ∧ k ∈ cfg.dependencies.keys) ∧
        (∀ r, d.requester = some r → r ∈ disk'.sys.trace.probed) := by
  unfold InstallDependencies at hrun
  by_cases hrm : env.removeModules = false
  · simp [hrm] at hrun
  simp only [hrm, Bool.true_eq_false, if_false] at hrun
  obtain ⟨config, lock0, modules, cache, cmake, sys⟩ := disk
  simp only at htr hrun ⊢
  cases config with
  | none =>
    have hd : discoverAllDependencies sv git ord fuel none sys
        = some (.error .loadConfig, sys) := rfl
    simp [hd] at hrun
  | some cfg =>
    simp only [Option.map_some'] at hrun
    generalize hD : discoverAllDependencies sv git ord fuel (some cfg.dependencies) sys
      = D at hrun
    cases D with
    | none => simp at hrun
    | some r =>
      obtain ⟨out, sys1⟩ := r
      cases out with
      | error e => simp at hrun
      | panic => simp at hrun
      | ok g =>
        simp only at hrun
        have hD' : discoverWith (resolveOracle sv git).call parsePkgStr ord fuel
            (some cfg.dependencies) { fs := sys.fs, trace := Trace.empty }
            = some (.ok g, sys1) := by
          unfold discoverAllDependencies at hD
          rw [resolveVersion_funext, sys_eta_empty sys htr] at hD
          exact hD
        obtain ⟨st', hinv, hst, hfin, _⟩ := discoverWith_post _ _ _ _ _ _ _ hD'
        obtain ⟨_, hres, _⟩ := hfin g rfl
        have hroot := discoverWith_root_decls _ _ _ _ _ _ _ hD'
        simp only at hst hroot
        have hnd : g.constraints.keys.Nodup := by rw [← hres]; exact hinv.cnodup
        have htrc := resolveEntries_trace sv (resolveVersion sv git) true g.urls
          (ord.order g.constraints) [] sys1
        have hRC : resolveConflicts sv git ord g sys1 =
            resolveEntries sv (resolveVersion sv git) true g.urls
              (ord.order g.constraints) [] sys1 := rfl
        rw [hRC] at hrun
        generalize hR : resolveEntries sv (resolveVersion sv git) true g.urls
          (ord.order g.constraints) [] sys1 = R at hrun htrc
        obtain ⟨out2, sys2⟩ := R
        simp only at htrc
        cases out2 with
        | error e => simp at hrun
        | panic => simp at hrun
        | ok finalDeps =>
          simp only at hrun
          by_cases hmk : env.mkdirModules = false
          · simp [hmk] at hrun
          simp only [hmk, Bool.true_eq_false, if_false] at hrun
          have hndF : finalDeps.keys.Nodup :=
            resolveEntries_keys_nodup sv _ true g.urls _ [] sys1 sys2 finalDeps hR
              (by simp [GoMap.keys])
          have hndL : ((ord.order finalDeps).map Prod.fst).Nodup :=
            (List.Perm.nodup_iff (List.Perm.map Prod.fst (ord.perm finalDeps))).2 hndF
          have hfr := installAll_frame git env (ord.order finalDeps) []
            { config := some cfg, lock := lock0, modules := some [], cache := cache,
              cmake := cmake, sys := sys2 }
          have hlk := installAll_ok_lock git env (ord.order finalDeps) []
            { config := some cfg, lock := lock0, modules := some [], cache := cache,
              cmake := cmake, sys := sys2 }
          have hpl := installAll_plain git env (ord.order finalDeps) []
            { config := some cfg, lock := lock0, modules := some [], cache := cache,
              cmake := cmake, sys := sys2 }
          generalize hI : installAll git env (ord.order finalDeps) []
            { config := some cfg, lock := lock0, modules := some [], cache := cache,
              cmake := cmake, sys := sys2 } = I at hrun hfr hlk hpl
          obtain ⟨out3, disk2⟩ := I
          simp only at hfr hlk hpl
          obtain ⟨f3, f4⟩ := hfr
          cases out3 with
          | error e => simp at hrun
          | panic => simp at hrun
          | ok newLockFile =>
            simp only at hrun
            by_cases hsl : env.saveLockfile = false
            · simp [hsl] at hrun
            simp only [hsl, Bool.true_eq_false, if_false] at hrun
            by_cases hcm : env.writeCMake = false
            · simp [hcm] at hrun
            simp only [hcm, Bool.true_eq_false, if_false] at hrun
            cases hc2 : disk2.config with
            | none => simp [hc2] at hrun
            | some rootCfg =>
              simp only [hc2] at hrun
              cases hh : runHooks env rootCfg with
              | error e => simp [hh] at hrun
              | ok u =>
                simp only [hh, Option.some.injEq, Prod.mk.injEq, true_and] at hrun
                subst hrun
                have hPL : PlainLock newLockFile := hsafe newLockFile rfl
                have hl : ∀ e ∈ ord.order finalDeps,
                    plainComponent e.1 = true ∧ plainPrefix e.2.commit = true := fun e he =>
                  hPL (e.1, e.2)
                    (GoMap.mem_of_get? _ _ _ ((hlk newLockFile rfl hndL).1 e he))
                obtain ⟨p1, _, p3⟩ := hpl hl
                have hcfg : cfg = rootCfg := by
                  rw [hc2] at p1
                  exact (Option.some.inj p1).symm
                subst hcfg
                refine ⟨rfl, fun k t hk => p3 k t hk, newLockFile, rfl, ?_⟩
                intro k hk
                have hk' : k ∈ finalDeps.keys := by
                  rcases f4 newLockFile rfl k hk with hm | hm
                  · simp [GoMap.keys] at hm
                  · exact (List.Perm.mem_iff (List.Perm.map Prod.fst (ord.perm finalDeps))).1 hm
                obtain ⟨dep, hdep⟩ := GoMap.get?_of_mem_keys finalDeps k hk'
                obtain ⟨hkc, _⟩ := resolveEntries_url sv (resolveVersion sv git) true ord g hnd
                  sys1 sys2 finalDeps hR k dep hdep
                rw [← hres] at hkc
                obtain ⟨d, hd, hn⟩ := (hinv.dnames k).1 ((hinv.ckeys k).1 hkc)
                refine ⟨d, ?_, hn, ?_, ?_⟩
                · show d ∈ disk2.sys.trace.declared
                  rw [f3]
                  show d ∈ sys2.trace.declared
                  rw [htrc.1, ← hst]
                  exact hd
                · intro hnone
                  refine ⟨cfg, rfl, ?_⟩
                  rw [← hn]
                  apply hroot d _ hnone
                  rw [← hst]
                  exact hd
                · intro r hr
                  show r ∈ disk2.sys.trace.probed
                  rw [f3]
                  show r ∈ sys2.trace.probed
                  rw [htrc.2, ← hst]
                  exact hinv.req d hd r hr

/-- C8 (as amended): for every manifest that declares `n` as a direct
dependency, after `UninstallPackage(n)` succeeds, the names of the written
lockfile being single path components and its commits having 12 first bytes
without separator (so that every package is installed into its own entry of
`cpp_modules` and of `.cppkg_cache`), the saved manifest no longer declares
`n`, and the lockfile written by the re-run install has an entry for `n` only
if the manifest of a package probed during the re-run declares `n` (the
package is still required transitively). -/
theorem uninstall_removes_direct_dependency (sv : Semver K C) (git : Git) (env : Env)
    (ord : MapOrder) (fuel : ℕ) (n : String) (disk disk' : Disk)
    (htr : disk.sys.trace = Trace.empty)
    (hrun : UninstallPackage sv git env ord fuel n disk = some (.ok (), disk'))
    (hplain : ∀ lock, disk'.lock = some lock → PlainLock lock) :
    (∃ cfg cfg', disk.config = some cfg ∧ n ∈ cfg.dependencies.keys ∧
      disk'.config = some cfg' ∧ cfg'.dependencies = cfg.dependencies.delete n ∧
      cfg'.dependencies.get? n = none) ∧
    (∃ lock, disk'.lock = some lock ∧
      ((∃ dep, lock.get? n = some dep) →
        ∃ d ∈ disk'.sys.trace.declared, ∃ r, d.name = n ∧ d.requester = some r ∧
          r ∈ disk'.sys.trace.probed)) := by
  unfold UninstallPackage at hrun
  cases hcfg : disk.config with
  | none => simp [hcfg] at hrun
  | some cfg =>
    simp only [hcfg] at hrun
    cases hg : cfg.dependencies.get? n with
    | none => simp [hg] at hrun
    | some v =>
      simp only [hg] at hrun
      by_cases hsc : env.saveConfig = false
      · simp [hsc] at hrun
      simp only [hsc, Bool.true_eq_false, if_false] at hrun
      obtain ⟨hc', _, lock, hlock, hkeys⟩ :=
        install_ok sv git env ord fuel false
          { disk with config := some { cfg with
            dependencies := cfg.dependencies.delete n } } disk' htr hrun hplain
      have hdel : n ∉ (cfg.dependencies.delete n).keys := GoMap.not_mem_keys_delete _ n
      refine ⟨⟨cfg, { cfg with dependencies := cfg.dependencies.delete n }, rfl,
        GoMap.mem_keys_of_get? _ n v hg, hc', rfl,
        (GoMap.get?_eq_none_iff _ n).2 hdel⟩, lock, hlock, ?_⟩
      rintro ⟨dep, hdep⟩
      obtain ⟨d, hd, hn, hnone, hsome⟩ := hkeys n (GoMap.mem_keys_of_get? lock n dep hdep)
      cases hr : d.requester with
      | none =>
        obtain ⟨cfg0, hcfg0, hk⟩ := hnone hr
        simp only [Option.some.injEq] at hcfg0
        subst hcfg0
        exact absurd hk hdel
      | some r => exact ⟨d, hd, r, hn, hr, hsome r hr⟩

end C8

/-- Witness of C8 (as amended): uninstalling `B`, which `A` requires as well,
succeeds; the manifest no longer declares `B`, and the entry of `B` in the new
lockfile comes from the manifest of the probed package `A`. -/
theorem uninstall_removes_direct_dependency_witness :
    (∃ cfg cfg', sharedDisk.config = some cfg ∧ "B" ∈ cfg.dependencies.keys ∧
      sharedDiskAfter.config = some cfg' ∧ cfg'.dependencies = cfg.dependencies.delete "B" ∧
      cfg'.dependencies.get? "B" = none) ∧
    (∃ lock, sharedDiskAfter.lock = some lock ∧
      ((∃ dep, lock.get? "B" = some dep) →
        ∃ d ∈ sharedDiskAfter.sys.trace.declared, ∃ r, d.name = "B" ∧ d.requester = some r ∧
          r ∈ sharedDiskAfter.sys.trace.probed)) :=
  uninstall_removes_direct_dependency plainSemver overwriteGit Env.allOk MapOrder.stored 3 "B"
    sharedDisk sharedDiskAfter rfl (by decide)
    (by
      intro lock h
      simp only [sharedDiskAfter, Option.some.injEq] at h
      subst h
      unfold PlainLock
      decide)

/-- Counterexample to C8 as stated: the manifest declares `A` and `B` as direct
dependencies and the manifest of `A` declares `B` too. `UninstallPackage("B")`
succeeds and the saved manifest no longer declares `B`, yet the lockfile
written by the re-run install contains an entry for `B`. -/
theorem uninstall_keeps_transitive_dependency :
    (sharedDisk.config.map (fun cfg => cfg.dependencies))
      = some [("A", "ua#^1.0.0"), ("B", "u2#^1.0.0")] ∧
    (UninstallPackage plainSemver overwriteGit Env.allOk MapOrder.stored 3 "B" sharedDisk).map
      (fun r => (r.1, r.2.config.map (fun cfg => cfg.dependencies), r.2.lock)) =
      some (.ok (), some [("A", "ua#^1.0.0")],
        some [("A", { url := "ua", version := "1.0.0", commit := "commit-ua-1.0.0" }),
              ("B", { url := "u2", version := "1.0.0", commit := "commit-u2-1.0.0" })]) := by
  refine ⟨by decide, by rfl⟩

/-! ## C9: declarations without a separator -/

/-- A declaration string without `#` makes both parse functions panic, while
`AddNewPackage` returns an error and leaves the disk as it was. -/
theorem parse_without_separator (s : String) (h : '#' ∉ s.toList) :
    parsePkgStr s = none ∧ ParsePkgStr s = none ∧
    ∀ env disk, (AddNewPackage env s disk).1.isError = true ∧
      (AddNewPackage env s disk).2 = disk := by
  have hs : splitHash s = [s] := by
    unfold splitHash
    rw [splitChar_of_not_mem '#' s.toList h]
    rfl
  refine ⟨by simp [parsePkgStr, hs], by simp [ParsePkgStr, hs], ?_⟩
  intro env disk
  unfold AddNewPackage
  cases disk.config with
  | none => exact ⟨rfl, rfl⟩
  | some cfg =>
    simp [hs, Outcome.isError]

/-- C9 (failing input): the manifest entry `foo: https://example.com/foo.git`
has no `#`. `AddNewPackage` on that string returns the invalid-format error and
leaves the manifest unchanged, but `parsePkgStr` and `utils.ParsePkgStr` panic
on it (index out of range), and so do both discovery functions when they read
the entry from the manifest. -/
theorem discovery_panics_on_missing_separator :
    (AddNewPackage Env.allOk "https://example.com/foo.git" malformedDisk)
      = (.error .invalidFormat, malformedDisk) ∧
    parsePkgStr "https://example.com/foo.git" = none ∧
    ParsePkgStr "https://example.com/foo.git" = none ∧
    (discoverAllDependencies plainSemver sampleGit MapOrder.stored 3
        (malformedDisk.config.map (fun cfg => cfg.dependencies)) Sys.init).map
      (fun r => r.1) = some .panic ∧
    (DiscoverAllDependenciesWithResolver (resolveVersion plainSemver sampleGit) MapOrder.stored 3
        (malformedDisk.config.map (fun cfg => cfg.dependencies)) Sys.init).map
      (fun r => r.1) = some .panic ∧
    (InstallDependencies plainSemver sampleGit Env.allOk MapOrder.stored 3 false
        malformedDisk).map (fun r => r.1) = some .panic := by
  refine ⟨by decide, by decide, by decide, by decide, by decide, by decide⟩

/-! ## Discovery as a sequence of steps -/

/-- A successful run of the work-queue loop either starts with an empty queue
or makes one step and continues. -/
theorem discoverLoop_ok_unfold (o : Oracle) (parse : String → Option (String × String))
    (ord : MapOrder) (fuel : ℕ) (st : DiscState) (g : DiscoveryResult) (sys : Sys)
    (h : discoverLoop o.call parse ord (fuel + 1) st = some (.ok g, sys)) :
    (st.queue = [] ∧ st.result = g ∧ st.sys = sys) ∨
    ∃ st', Step o parse ord st st' ∧ discoverLoop o.call parse ord fuel st' = some (.ok g, sys) := by
  rw [discoverLoop_succ] at h
  cases hq : st.queue with
  | nil =>
    simp only [hq, Option.some.injEq, Prod.mk.injEq, Outcome.ok.injEq] at h
    exact Or.inl ⟨rfl, h.1, h.2⟩
  | cons name queue =>
    simp only [hq] at h
    cases hc : st.result.constraints.getList name with
    | nil => simp [hc] at h
    | cons c0 cs =>
      simp only [hc] at h
      cases ho : o (st.result.urls.getStr name) c0 with
      | error e => simp [ho] at h
      | ok p =>
        simp only [ho] at h
        cases hm : p.manifest with
        | absent =>
          simp only [hm] at h
          exact Or.inr ⟨_, ⟨name, queue, c0, cs, p, hq, hc, ho, Or.inl ⟨hm, rfl⟩⟩, h⟩
        | unreadable => simp [hm] at h
        | deps d =>
          simp only [hm] at h
          cases hda : declareAll parse (some name) (ord.order d)
              (st.dequeued name queue (st.result.urls.getStr name) c0) with
          | none => simp [hda] at h
          | some st1 =>
            simp only [hda] at h
            exact Or.inr ⟨st1, ⟨name, queue, c0, cs, p, hq, hc, ho, Or.inr ⟨d, hm, hda⟩⟩, h⟩

/-- A property preserved by every step holds of the final state of a
successful run. -/
theorem discoverLoop_ok_rule (o : Oracle) (parse : String → Option (String × String))
    (ord : MapOrder) (I : DiscState → Prop)
    (hstep : ∀ st st', I st → Step o parse ord st st' → I st') :
    ∀ (fuel : ℕ) (st : DiscState) (g : DiscoveryResult) (sys : Sys), I st →
      discoverLoop o.call parse ord fuel st = some (.ok g, sys) →
      ∃ st', I st' ∧ st'.queue = [] ∧ st'.result = g ∧ st'.sys = sys := by
  intro fuel
  induction fuel with
  | zero => intro st g sys _ h; simp [discoverLoop] at h
  | succ fuel ih =>
    intro st g sys hI h
    rcases discoverLoop_ok_unfold o parse ord fuel st g sys h with ⟨h1, h2, h3⟩ | ⟨st', hs, h'⟩
    · exact ⟨st, hI, h1, h2, h3⟩
    · exact ih st' g sys (hstep st st' hI hs) h'

/-- A step preserves the base invariant, appends the dequeued name to the
probed names, and appends the declarations of the manifest found. -/
theorem Step.effects {o : Oracle} {parse : String → Option (String × String)} {ord : MapOrder}
    {st st' : DiscState} (hs : Step o parse ord st st') (hinv : DiscInv st) :
    DiscInv st' ∧
    ∃ name queue c0 cs p, st.queue = name :: queue ∧
      st.result.constraints.getList name = c0 :: cs ∧
      o (st.result.urls.getStr name) c0 = .ok p ∧
      st'.sys.trace.probed = st.sys.trace.probed ++ [name] ∧
      ∃ l ds, st'.sys.trace.declared = st.sys.trace.declared ++ ds ∧
        ((p.manifest = .absent ∧ l = []) ∨ (∃ d, p.manifest = .deps d ∧ l.Perm d)) ∧
        List.Forall₂ (fun (e : String × String) (d : Decl) =>
          d.requester = some name ∧ d.name = e.1 ∧
            parse e.2 = some (d.url, d.constraint)) l ds := by
  obtain ⟨name, queue, c0, cs, p, hq, hc, ho, hcase⟩ := hs
  have hdq := dequeued_inv st name queue (st.result.urls.getStr name) c0 hinv hq
  rcases hcase with ⟨hm, rfl⟩ | ⟨d, hm, hda⟩
  · exact ⟨hdq, name, queue, c0, cs, p, hq, hc, ho, rfl, [], [], by simp [DiscState.dequeued],
      Or.inl ⟨hm, rfl⟩, List.Forall₂.nil⟩
  · have hreq : ∀ r, some name = some r →
        r ∈ (st.dequeued name queue (st.result.urls.getStr name) c0).sys.trace.probed := by
      intro r hr
      cases hr
      show name ∈ st.sys.trace.probed ++ [name]
      simp
    obtain ⟨hinv', _, hpb, _, ds, hds, hall⟩ :=
      declareAll_inv parse (some name) (ord.order d) _ st' hreq hdq hda
    exact ⟨hinv', name, queue, c0, cs, p, hq, hc, ho, hpb, ord.order d, ds, hds,
      Or.inr ⟨d, hm, ord.perm d⟩, hall⟩

/-- In a state where every processed declaration is the declared one, an
enqueued name has its declared URL recorded, and its constraint list is
non-empty and holds only its declared constraint. -/
theorem DiscInv.coords {st : DiscState} (hinv : DiscInv st)
    (parse : String → Option (String × String)) (D : String → String)
    (hdecl : ∀ d ∈ st.sys.trace.declared, parse (D d.name) = some (d.url, d.constraint))
    (n : String) (hn : n ∈ st.sys.trace.enqueued) :
    ∃ u c, parse (D n) = some (u, c) ∧ st.result.urls.getStr n = u ∧
      st.result.constraints.getList n ≠ [] ∧
      ∀ x ∈ st.result.constraints.getList n, x = c := by
  obtain ⟨u, hu⟩ := GoMap.get?_of_mem_keys _ n ((hinv.ukeys n).2 hn)
  obtain ⟨pre, d, post, hd, hdn, hdu, _⟩ := hinv.urls n u hu
  have hdm : d ∈ st.sys.trace.declared := by rw [hd]; simp
  have hp := hdecl d hdm
  rw [hdn, hdu] at hp
  refine ⟨u, d.constraint, hp, by simp [GoMap.getStr, hu], ?_, ?_⟩
  · rw [hinv.cons n]
    intro he
    have : d.constraint ∈ (st.sys.trace.declared.filter (fun d => d.name = n)).map
        (fun d => d.constraint) := by
      apply List.mem_map_of_mem
      simp [List.mem_filter, hdm, hdn]
    rw [he] at this
    cases this
  · intro x hx
    rw [hinv.cons n] at hx
    obtain ⟨d', hd', rfl⟩ := List.mem_map.1 hx
    obtain ⟨hdm1, hdn1⟩ := List.mem_filter.1 hd'
    have hdn2 : d'.name = n := by simpa using hdn1
    have hp' := hdecl d' hdm1
    rw [hdn2, hp] at hp'
    simp only [Option.some.injEq, Prod.mk.injEq] at hp'
    exact hp'.2.symm

/-! ## Discovery over consistently declared packages -/

theorem mem_keys_iff {β : Type} (m : GoMap β) (k : String) :
    k ∈ m.keys ↔ ∃ e ∈ m, e.1 = k := by
  simp [GoMap.keys]

/-- A step preserves the invariant of consistent runs, and keeps the enqueued
names inside every set of names closed under declaration. -/
theorem RunInv.step {o : Oracle} {parse : String → Option (String × String)} {ord : MapOrder}
    {D : String → String} {rootDeps : GoMap String} {st st' : DiscState}
    (hcons : Consistent o parse D rootDeps) (hinv : RunInv o parse D rootDeps st)
    (hs : Step o parse ord st st') :
    RunInv o parse D rootDeps st' ∧
    ∀ S : String → Prop, (∀ m, S m → ∀ n, DeclaresName o parse D m n → S n) →
      (∀ n ∈ st.sys.trace.enqueued, S n) → ∀ n ∈ st'.sys.trace.enqueued, S n := by
  obtain ⟨hb', name, queue, c0, cs, p, hq, hc, ho, hpb, l, ds, hds, hl, hall⟩ :=
    hs.effects hinv.base
  have hname : name ∈ st.sys.trace.enqueued := by
    rw [hinv.base.enq, hq]
    simp
  obtain ⟨u, c, hp, hu, _, hallc⟩ := hinv.base.coords parse D hinv.decl name hname
  have hc0 : c0 = c := hallc c0 (by rw [hc]; simp)
  rw [hu, hc0] at ho
  have hmono : ∀ n ∈ st.sys.trace.enqueued, n ∈ st'.sys.trace.enqueued := by
    intro n hn
    obtain ⟨d, hd, hdn⟩ := (hinv.base.dnames n).1 hn
    exact (hb'.dnames n).2 ⟨d, by rw [hds]; exact List.mem_append_left _ hd, hdn⟩
  have hnew : ∀ d ∈ ds, ∃ dd e, p.manifest = .deps dd ∧ e ∈ dd ∧ d.name = e.1 ∧
      parse e.2 = some (d.url, d.constraint) := by
    intro d hd
    obtain ⟨e, he, _, hen, hpe⟩ := forall₂_exists_left hall d hd
    rcases hl with ⟨_, hnil⟩ | ⟨dd, hm, hperm⟩
    · rw [hnil] at he
      cases he
    · exact ⟨dd, e, hm, (List.Perm.mem_iff hperm).1 he, hen, hpe⟩
  have hold : ∀ dd, p.manifest = .deps dd → ∀ e ∈ dd, ∃ d ∈ ds, d.name = e.1 ∧
      parse e.2 = some (d.url, d.constraint) := by
    intro dd hm e he
    rcases hl with ⟨habs, _⟩ | ⟨dd', hm', hperm⟩
    · rw [habs] at hm
      cases hm
    · rw [hm'] at hm
      cases hm
      obtain ⟨d, hd, _, hdn, hpe⟩ :=
        forall₂_exists_right hall e ((List.Perm.mem_iff hperm).2 he)
      exact ⟨d, hd, hdn, hpe⟩
  have hdeclares : ∀ n, DeclaresName o parse D name n → n ∈ st'.sys.trace.enqueued := by
    rintro n ⟨u', c', p', d', hp', ho', hm', hn'⟩
    rw [hp] at hp'
    simp only [Option.some.injEq, Prod.mk.injEq] at hp'
    rw [← hp'.1, ← hp'.2, ho] at ho'
    cases ho'
    obtain ⟨e, he, hek⟩ := (mem_keys_iff d' n).1 hn'
    obtain ⟨d, hd, hdn, _⟩ := hold d' hm' e he
    exact (hb'.dnames n).2 ⟨d, by rw [hds]; exact List.mem_append_right _ hd, by rw [hdn, hek]⟩
  constructor
  · refine { base := hb', decl := ?_, root := ?_, good := ?_, closed := ?_ }
    · intro d hd
      rw [hds] at hd
      rcases List.mem_append.1 hd with hm | hm
      · exact hinv.decl d hm
      · obtain ⟨dd, e, hmf, he, hen, hpe⟩ := hnew d hm
        rw [hen, ← hcons.2 name u c p dd hp ho hmf e he]
        exact hpe
    · intro e he
      exact hmono _ (hinv.root e he)
    · intro m hm
      rw [hpb] at hm
      rcases List.mem_append.1 hm with hm' | hm'
      · exact hinv.good m hm'
      · simp only [List.mem_singleton] at hm'
        subst hm'
        refine ⟨u, c, p, hp, ho, ?_, ?_⟩
        · rcases hl with ⟨habs, _⟩ | ⟨dd, hmf, _⟩
          · rw [habs]; simp
          · rw [hmf]; simp
        · intro dd hmf e he
          obtain ⟨d, _, _, hpe⟩ := hold dd hmf e he
          rw [hpe]
          simp
    · intro m hm n hdn
      rw [hpb] at hm
      rcases List.mem_append.1 hm with hm' | hm'
      · exact hmono n (hinv.closed m hm' n hdn)
      · simp only [List.mem_singleton] at hm'
        subst hm'
        exact hdeclares n hdn
  · intro S hclosed hsub n hn
    obtain ⟨d, hd, hdn⟩ := (hb'.dnames n).1 hn
    rw [hds] at hd
    rcases List.mem_append.1 hd with hm | hm
    · exact hsub n ((hinv.base.dnames n).2 ⟨d, hm, hdn⟩)
    · obtain ⟨dd, e, hmf, he, hen, _⟩ := hnew d hm
      apply hclosed name (hsub name hname) n
      exact ⟨u, c, p, dd, hp, ho, hmf, (mem_keys_iff dd n).2 ⟨e, he, by rw [← hen, hdn]⟩⟩

/-- The loop over the root dependencies establishes the invariant of
consistent runs; the names it enqueues are root dependencies. -/
theorem RunInv.init {o : Oracle} {parse : String → Option (String × String)} {ord : MapOrder}
    {D : String → String} {rootDeps : GoMap String} {st : DiscState} {fs : TempFS}
    (hcons : Consistent o parse D rootDeps)
    (h : declareAll parse none (ord.order rootDeps)
      (DiscState.init { fs := fs, trace := Trace.empty }) = some st) :
    RunInv o parse D rootDeps st ∧ st.sys.trace.probed = [] ∧
      ∀ n ∈ st.sys.trace.enqueued, n ∈ rootDeps.keys := by
  obtain ⟨hb, _, hpb, _, ds, hds, hall⟩ :=
    declareAll_inv parse none (ord.order rootDeps) _ st (by intro r hr; cases hr)
      (init_inv fs) h
  have hds' : st.sys.trace.declared = ds := by
    rw [hds]
    simp [DiscState.init, Trace.empty]
  have hpb' : st.sys.trace.probed = [] := by
    rw [hpb]
    rfl
  refine ⟨{ base := hb, decl := ?_, root := ?_, good := ?_, closed := ?_ }, hpb', ?_⟩
  · intro d hd
    rw [hds'] at hd
    obtain ⟨e, he, _, hen, hpe⟩ := forall₂_exists_left hall d hd
    rw [hen, ← hcons.1 e ((List.Perm.mem_iff (ord.perm rootDeps)).1 he)]
    exact hpe
  · intro e he
    obtain ⟨d, hd, _, hdn, _⟩ :=
      forall₂_exists_right hall e ((List.Perm.mem_iff (ord.perm rootDeps)).2 he)
    exact (hb.dnames e.1).2 ⟨d, by rw [hds']; exact hd, hdn⟩
  · intro m hm
    rw [hpb'] at hm
    cases hm
  · intro m hm
    rw [hpb'] at hm
    cases hm
  · intro n hn
    obtain ⟨d, hd, hdn⟩ := (hb.dnames n).1 hn
    rw [hds'] at hd
    obtain ⟨e, he, _, hen, _⟩ := forall₂_exists_left hall d hd
    exact (mem_keys_iff rootDeps n).2
      ⟨e, (List.Perm.mem_iff (ord.perm rootDeps)).1 he, by rw [← hen, hdn]⟩

theorem declareAll_some (parse : String → Option (String × String))
    (requester : Option String) :
    ∀ (l : List (String × String)) (st : DiscState), (∀ e ∈ l, parse e.2 ≠ none) →
      ∃ st', declareAll parse requester l st = some st' := by
  intro l
  induction l with
  | nil => intro st _; exact ⟨st, rfl⟩
  | cons e l ih =>
    intro st h
    obtain ⟨n, s⟩ := e
    have hp : parse s ≠ none := h (n, s) (List.mem_cons_self _ _)
    have hd : ∃ st1, declare parse requester st n s = some st1 := by
      unfold declare
      cases hps : parse s with
      | none => exact absurd hps hp
      | some uc =>
        obtain ⟨u, c⟩ := uc
        simp only
        split
        · exact ⟨_, rfl⟩
        · exact ⟨_, rfl⟩
    obtain ⟨st1, hst1⟩ := hd
    unfold declareAll
    rw [hst1]
    exact ih st1 (fun e he => h e (List.mem_cons_of_mem _ he))

theorem declareAll_parses (parse : String → Option (String × String))
    (requester : Option String) :
    ∀ (l : List (String × String)) (st st' : DiscState),
      declareAll parse requester l st = some st' → ∀ e ∈ l, parse e.2 ≠ none := by
  intro l
  induction l with
  | nil => intro st st' _ e he; cases he
  | cons e0 l ih =>
    intro st st' h e he
    obtain ⟨n, s⟩ := e0
    unfold declareAll at h
    cases hd : declare parse requester st n s with
    | none => simp [hd] at h
    | some st1 =>
      simp only [hd] at h
      rcases List.mem_cons.1 he with rfl | hm
      · obtain ⟨u, c, hp, _⟩ := declare_eq parse requester st st1 n s hd
        simp only
        rw [hp]
        simp
      · exact ih st1 st' h e hm

/-- A successful run of the work-queue loop uses one iteration per name it
probes, and one more to find the queue empty. -/
theorem discoverLoop_ok_fuel (o : Oracle) (parse : String → Option (String × String))
    (ord : MapOrder) :
    ∀ (fuel : ℕ) (st : DiscState) (g : DiscoveryResult) (sys : Sys), DiscInv st →
      discoverLoop o.call parse ord fuel st = some (.ok g, sys) →
      sys.trace.probed.length + 1 ≤ fuel + st.sys.trace.probed.length := by
  intro fuel
  induction fuel with
  | zero => intro st g sys _ h; simp [discoverLoop] at h
  | succ fuel ih =>
    intro st g sys hinv h
    rcases discoverLoop_ok_unfold o parse ord fuel st g sys h with ⟨_, _, h3⟩ | ⟨st', hs, h'⟩
    · rw [← h3]
      omega
    · obtain ⟨hinv', name, _, _, _, _, _, _, _, hpb, _⟩ := hs.effects hinv
      have := ih st' g sys hinv' h'
      rw [hpb] at this
      simp only [List.length_append, List.length_singleton] at this
      omega

/-- Over consistently declared packages, the work-queue loop succeeds from
every state whose enqueued names lie in a list of good packages closed under
declaration, within one iteration per name of the list not yet probed. -/
theorem discoverLoop_progress {o : Oracle} {parse : String → Option (String × String)}
    (ord : MapOrder) {D : String → String} {rootDeps : GoMap String}
    (hcons : Consistent o parse D rootDeps) (S : List String)
    (hgood : ∀ m ∈ S, GoodPackage o parse D m)
    (hclosed : ∀ m, m ∈ S → ∀ n, DeclaresName o parse D m n → n ∈ S) :
    ∀ (fuel : ℕ) (st : DiscState), RunInv o parse D rootDeps st →
      (∀ n ∈ st.sys.trace.enqueued, n ∈ S) →
      S.length + 1 ≤ fuel + st.sys.trace.probed.length →
      ∃ g sys, discoverLoop o.call parse ord fuel st = some (.ok g, sys) := by
  intro fuel
  induction fuel with
  | zero =>
    intro st hinv hsub hlen
    exfalso
    have h1 : st.sys.trace.enqueued.length ≤ S.length :=
      (List.Nodup.subperm hinv.base.nodup hsub).length_le
    have h2 : st.sys.trace.probed.length ≤ st.sys.trace.enqueued.length := by
      rw [hinv.base.enq]
      simp
    omega
  | succ fuel ih =>
    intro st hinv hsub hlen
    cases hq : st.queue with
    | nil =>
      rw [discoverLoop_succ]
      simp only [hq]
      exact ⟨_, _, rfl⟩
    | cons name queue =>
      have hname : name ∈ st.sys.trace.enqueued := by
        rw [hinv.base.enq, hq]
        simp
      obtain ⟨u, c, hp, hu, hne, hallc⟩ := hinv.base.coords parse D hinv.decl name hname
      obtain ⟨u', c', p, hp', ho, hnr, hparse⟩ := hgood name (hsub name hname)
      rw [hp] at hp'
      simp only [Option.some.injEq, Prod.mk.injEq] at hp'
      rw [← hp'.1, ← hp'.2] at ho
      cases hc : st.result.constraints.getList name with
      | nil => exact absurd hc hne
      | cons c0 cs =>
        have hc0 : c0 = c := hallc c0 (by rw [hc]; simp)
        have ho' : o (st.result.urls.getStr name) c0 = .ok p := by rw [hu, hc0]; exact ho
        have hstep : ∃ st', Step o parse ord st st' := by
          cases hm : p.manifest with
          | absent =>
            exact ⟨_, name, queue, c0, cs, p, hq, hc, ho', Or.inl ⟨hm, rfl⟩⟩
          | unreadable => exact absurd hm hnr
          | deps d =>
            obtain ⟨st', hst'⟩ := declareAll_some parse (some name) (ord.order d)
              (st.dequeued name queue (st.result.urls.getStr name) c0)
              (fun e he => hparse d hm e ((List.Perm.mem_iff (ord.perm d)).1 he))
            exact ⟨st', name, queue, c0, cs, p, hq, hc, ho', Or.inr ⟨d, hm, hst'⟩⟩
        obtain ⟨st', hs⟩ := hstep
        obtain ⟨hinv', hsub'⟩ := hinv.step hcons hs
        obtain ⟨_, name', queue', _, _, _, hq', _, _, hpb, _⟩ := hs.effects hinv.base
        have hlen' : S.length + 1 ≤ fuel + st'.sys.trace.probed.length := by
          rw [hpb]
          simp only [List.length_append, List.length_singleton]
          omega
        obtain ⟨g, sys, hres⟩ :=
          ih st' hinv' (hsub' (fun n => n ∈ S) hclosed hsub) hlen'
        refine ⟨g, sys, ?_⟩
        rw [← hres, discoverLoop_succ]
        obtain ⟨name2, queue2, c2, cs2, p2, hq2, hc2, ho2, hcase⟩ := hs
        rw [hq] at hq2
        cases hq2
        rw [hc] at hc2
        cases hc2
        rw [ho'] at ho2
        cases ho2
        simp only [hq, hc, ho']
        rcases hcase with ⟨hm, rfl⟩ | ⟨d, hm, hda⟩
        · simp only [hm]
        · simp only [hm, hda]

/-- The final state of a successful discovery run over consistently declared
packages. -/
theorem discoverWith_ok_final {o : Oracle} {parse : String → Option (String × String)}
    {ord : MapOrder} {D : String → String} {rootDeps : GoMap String}
    (hcons : Consistent o parse D rootDeps) {fuel : ℕ} {fs : TempFS}
    {g : DiscoveryResult} {sys : Sys}
    (h : discoverWith o.call parse ord fuel (some rootDeps)
      { fs := fs, trace := Trace.empty } = some (.ok g, sys)) :
    ∃ st, RunInv o parse D rootDeps st ∧ st.queue = [] ∧ st.result = g ∧ st.sys = sys ∧
      (∀ S : String → Prop, (∀ m, S m → ∀ n, DeclaresName o parse D m n → S n) →
        (∀ n ∈ rootDeps.keys, S n) → ∀ n ∈ st.sys.trace.enqueued, S n) ∧
      sys.trace.probed.length + 1 ≤ fuel ∧
      ∀ e ∈ rootDeps, parse e.2 ≠ none := by
  rw [discoverWith_eq] at h
  simp only at h
  cases hda : declareAll parse none (ord.order rootDeps)
      (DiscState.init { fs := fs, trace := Trace.empty }) with
  | none => simp [hda] at h
  | some st0 =>
    simp only [hda] at h
    obtain ⟨hinv0, hpb0, hsub0⟩ := RunInv.init hcons hda
    obtain ⟨st, ⟨hinv, hS⟩, hq, hres, hsys⟩ :=
      discoverLoop_ok_rule o parse ord
        (fun st => RunInv o parse D rootDeps st ∧
          ∀ S : String → Prop, (∀ m, S m → ∀ n, DeclaresName o parse D m n → S n) →
            (∀ n ∈ rootDeps.keys, S n) → ∀ n ∈ st.sys.trace.enqueued, S n)
        (by
          intro st st' hI hs
          obtain ⟨h1, h2⟩ := hI.1.step hcons hs
          exact ⟨h1, fun S hc hr => h2 S hc (hI.2 S hc hr)⟩)
        fuel st0 g sys
        ⟨hinv0, fun S _ hr n hn => hr n (hsub0 n hn)⟩ h
    refine ⟨st, hinv, hq, hres, hsys, hS, ?_, ?_⟩
    · have := discoverLoop_ok_fuel o parse ord fuel st0 g sys hinv0.base h
      rw [hpb0] at this
      simpa using this
    · intro e he
      exact declareAll_parses parse none _ _ st0 hda e
        ((List.Perm.mem_iff (ord.perm rootDeps)).2 he)

theorem RunInv.canonical {o : Oracle} {parse : String → Option (String × String)}
    {D : String → String} {rootDeps : GoMap String} {st : DiscState}
    (hinv : RunInv o parse D rootDeps st) : Canonical parse D st.result := by
  refine ⟨hinv.base.cnodup, ?_⟩
  intro n hn
  exact hinv.base.coords parse D hinv.decl n ((hinv.base.ckeys n).1 hn)

/-- Over consistently declared packages, a successful discovery run under one
iteration order implies a successful run under every other order with at
least as many iterations; the two graphs have the same names, each with its
declared URL and only its declared constraint. -/
theorem discoverWith_order_independent {o : Oracle}
    {parse : String → Option (String × String)} (ord1 ord2 : MapOrder)
    {D : String → String} {rootDeps : GoMap String}
    (hcons : Consistent o parse D rootDeps) {fuel1 : ℕ} (fuel2 : ℕ) {fs1 : TempFS}
    (fs2 : TempFS) {g1 : DiscoveryResult} {sys1 : Sys}
    (h1 : discoverWith o.call parse ord1 fuel1 (some rootDeps)
      { fs := fs1, trace := Trace.empty } = some (.ok g1, sys1))
    (hf : fuel1 ≤ fuel2) :
    ∃ g2 sys2, discoverWith o.call parse ord2 fuel2 (some rootDeps)
        { fs := fs2, trace := Trace.empty } = some (.ok g2, sys2) ∧
      Canonical parse D g1 ∧ Canonical parse D g2 ∧
      (∀ n, n ∈ g1.constraints.keys ↔ n ∈ g2.constraints.keys) := by
  obtain ⟨st1, hinv1, hq1, hres1, hsys1, hS1, hfuel1, hparse⟩ := discoverWith_ok_final hcons h1
  have henq1 : st1.sys.trace.enqueued = st1.sys.trace.probed := by
    rw [hinv1.base.enq, hq1, List.append_nil]
  -- the second run succeeds
  have hrun2 : ∃ g2 sys2, discoverWith o.call parse ord2 fuel2 (some rootDeps)
      { fs := fs2, trace := Trace.empty } = some (.ok g2, sys2) := by
    rw [discoverWith_eq]
    simp only
    obtain ⟨st0, hst0⟩ := declareAll_some parse none (ord2.order rootDeps)
      (DiscState.init { fs := fs2, trace := Trace.empty })
      (fun e he => hparse e ((List.Perm.mem_iff (ord2.perm rootDeps)).1 he))
    rw [hst0]
    simp only
    obtain ⟨hinv0, hpb0, hsub0⟩ := RunInv.init hcons hst0
    apply discoverLoop_progress ord2 hcons st1.sys.trace.probed
    · exact hinv1.good
    · intro m hm n hd
      rw [← henq1]
      exact hinv1.closed m hm n hd
    · exact hinv0
    · intro n hn
      obtain ⟨e, he, hek⟩ := (mem_keys_iff rootDeps n).1 (hsub0 n hn)
      rw [← henq1, ← hek]
      exact hinv1.root e he
    · rw [hpb0, ← hsys1] at *
      simp only [List.length_nil, add_zero]
      omega
  obtain ⟨g2, sys2, h2⟩ := hrun2
  obtain ⟨st2, hinv2, hq2, hres2, hsys2, hS2, _, _⟩ := discoverWith_ok_final hcons h2
  have henq2 : st2.sys.trace.enqueued = st2.sys.trace.probed := by
    rw [hinv2.base.enq, hq2, List.append_nil]
  have hsub12 : ∀ n ∈ st1.sys.trace.enqueued, n ∈ st2.sys.trace.enqueued := by
    apply hS1 (fun n => n ∈ st2.sys.trace.enqueued)
    · intro m hm n hd
      rw [henq2] at hm
      exact hinv2.closed m hm n hd
    · intro n hn
      obtain ⟨e, he, hek⟩ := (mem_keys_iff rootDeps n).1 hn
      rw [← hek]
      exact hinv2.root e he
  have hsub21 : ∀ n ∈ st2.sys.trace.enqueued, n ∈ st1.sys.trace.enqueued := by
    apply hS2 (fun n => n ∈ st1.sys.trace.enqueued)
    · intro m hm n hd
      rw [henq1] at hm
      exact hinv1.closed m hm n hd
    · intro n hn
      obtain ⟨e, he, hek⟩ := (mem_keys_iff rootDeps n).1 hn
      rw [← hek]
      exact hinv1.root e he
  refine ⟨g2, sys2, h2, ?_, ?_, ?_⟩
  · rw [← hres1]
    exact hinv1.canonical
  · rw [← hres2]
    exact hinv2.canonical
  · intro n
    rw [← hres1, ← hres2, hinv1.base.ckeys, hinv2.base.ckeys]
    exact ⟨hsub12 n, hsub21 n⟩

/-! ## Conflict resolution on graphs of consistently declared packages -/

section CanonicalConflicts

variable {K C : Type} [LinearOrder K]

theorem Oracle.labels_const (o : Oracle) (u c : String) (p : Probe) (ho : o u c = .ok p) :
    ∀ cs : List String, (∀ x ∈ cs, x = c) → ∀ l ∈ o.labels u cs, l = p.label := by
  intro cs hcs l hl
  unfold Oracle.labels at hl
  obtain ⟨x, hx, hxl⟩ := List.mem_filterMap.1 hl
  rw [hcs x hx, ho] at hxl
  simp only [Option.some.injEq] at hxl
  exact hxl.symm

theorem IsFirstHighest.winner_mem {sv : Semver K C} {labels : List String} {winner : String}
    (h : IsFirstHighest sv labels winner) : winner ∈ labels := by
  obtain ⟨pre, post, v, hd, _⟩ := h
  rw [hd]
  simp

/-- The entry computed for a name from several copies of one constraint is the
entry computed from the constraint alone. -/
theorem resolveName_const (sv : Semver K C) (o : Oracle) (release : Bool) (n u c : String)
    (cs : List String) (hne : cs ≠ []) (hcs : ∀ x ∈ cs, x = c) (sys : Sys) :
    (resolveName sv o.call release n u cs sys).1 =
      (resolveName sv o.call release n u [c] Sys.init).1 := by
  cases cs with
  | nil => exact absurd rfl hne
  | cons x cs' =>
    have hx : x = c := hcs x (List.mem_cons_self _ _)
    subst hx
    cases ho : o u x with
    | error e =>
      rw [resolveName_eq, resolveName_eq, resolveEach_cons, resolveEach_cons]
      simp only [ho]
    | ok p =>
      cases hv : sv.NewVersion p.label with
      | none =>
        rw [resolveName_eq, resolveName_eq, resolveEach_cons, resolveEach_cons]
        simp only [ho, hv]
      | some v =>
        have hres : ∀ l : List String, (∀ y ∈ l, y = x) →
            ∀ y ∈ l, ∃ p v, o u y = .ok p ∧ sv.NewVersion p.label = some v := by
          intro l hl y hy
          rw [hl y hy]
          exact ⟨p, v, ho, hv⟩
        obtain ⟨w1, hw1, hf1⟩ := resolveName_oracle sv o n u (x :: cs') hne (hres _ hcs)
        obtain ⟨w2, hw2, hf2⟩ := resolveName_oracle sv o n u [x] (by simp)
          (hres [x] (by simp))
        have e1 : w1 = p.label := Oracle.labels_const o u x p ho _ hcs w1 hw1.winner_mem
        have e2 : w2 = p.label := Oracle.labels_const o u x p ho [x] (by simp) w2 hw2.winner_mem
        rw [hf1 release sys, hf2 release Sys.init, e1, e2]

/-- The outer loop returns a map when the body returns an entry for every name
visited. -/
theorem resolveEntries_total (sv : Semver K C) (rv : ResolverFn) (release : Bool)
    (urls : GoMap String) :
    ∀ (entries : List (String × List String)) (acc : GoMap LockedDependency) (sys : Sys),
      (∀ e ∈ entries, ∃ dep, ∀ sys,
        (resolveName sv rv release e.1 (urls.getStr e.1) e.2 sys).1 = .ok dep) →
      ∃ m sys', resolveEntries sv rv release urls entries acc sys = (.ok m, sys') := by
  intro entries
  induction entries with
  | nil => intro acc sys _; exact ⟨acc, sys, rfl⟩
  | cons e entries ih =>
    intro acc sys h
    obtain ⟨n, cs⟩ := e
    obtain ⟨dep, hdep⟩ := h (n, cs) (List.mem_cons_self _ _)
    have hd := hdep sys
    unfold resolveEntries
    generalize resolveName sv rv release n (urls.getStr n) cs sys = R at hd
    obtain ⟨r, sys1⟩ := R
    simp only at hd
    subst hd
    simp only
    exact ih (acc.set n dep) sys1 (fun e he => h e (List.mem_cons_of_mem _ he))

/-- On a graph of consistently declared packages the entry of a name depends
only on its declared URL and constraint. -/
theorem Canonical.entry (sv : Semver K C) (o : Oracle) (release : Bool)
    {parse : String → Option (String × String)} {D : String → String} {g : DiscoveryResult}
    (hc : Canonical parse D g) {n : String} {cs : List String} (hmem : (n, cs) ∈ g.constraints) :
    ∃ u c, parse (D n) = some (u, c) ∧ ∀ sys,
      (resolveName sv o.call release n (g.urls.getStr n) cs sys).1 =
        (resolveName sv o.call release n u [c] Sys.init).1 := by
  have hk : n ∈ g.constraints.keys := List.mem_map_of_mem Prod.fst hmem
  obtain ⟨u, c, hp, hu, hne, hall⟩ := hc.2 n hk
  have hget := GoMap.get?_of_mem_nodup _ n cs hc.1 hmem
  have hl : g.constraints.getList n = cs := by simp [GoMap.getList, hget]
  rw [hl] at hne hall
  refine ⟨u, c, hp, ?_⟩
  intro sys
  rw [hu]
  exact resolveName_const sv o release n u c cs hne hall sys

/-- Conflict resolution gives the same map, up to the order of its entries, on
two graphs of consistently declared packages with the same names, under any two
iteration orders. -/
theorem resolveEntries_canonical (sv : Semver K C) (o : Oracle) (release : Bool)
    {parse : String → Option (String × String)} {D : String → String}
    {g1 g2 : DiscoveryResult} (hc1 : Canonical parse D g1) (hc2 : Canonical parse D g2)
    (hk : ∀ n, n ∈ g1.constraints.keys ↔ n ∈ g2.constraints.keys)
    (ord1 ord2 : MapOrder) (sys1 sys2 sys1' : Sys) (m1 : GoMap LockedDependency)
    (h1 : resolveEntries sv o.call release g1.urls (ord1.order g1.constraints) [] sys1
      = (.ok m1, sys1')) :
    ∃ m2 sys2', resolveEntries sv o.call release g2.urls (ord2.order g2.constraints) [] sys2
        = (.ok m2, sys2') ∧ ∀ n, m2.get? n = m1.get? n := by
  have hnd1 : ((ord1.order g1.constraints).map Prod.fst).Nodup :=
    (List.Perm.nodup_iff (List.Perm.map Prod.fst (ord1.perm _))).2 hc1.1
  have hnd2 : ((ord2.order g2.constraints).map Prod.fst).Nodup :=
    (List.Perm.nodup_iff (List.Perm.map Prod.fst (ord2.perm _))).2 hc2.1
  obtain ⟨e1, e1'⟩ := resolveEntries_ok sv o.call release g1.urls _ [] sys1 m1 sys1' h1 hnd1
  -- the entry of every name of the first graph
  have hF : ∀ n, n ∈ g1.constraints.keys → ∃ u c dep, parse (D n) = some (u, c) ∧
      (resolveName sv o.call release n u [c] Sys.init).1 = .ok dep ∧
      m1.get? n = some dep := by
    intro n hn
    obtain ⟨e, he, hen⟩ := (mem_keys_iff g1.constraints n).1 hn
    obtain ⟨n', cs⟩ := e
    simp only at hen
    subst hen
    obtain ⟨u, c, hp, hval⟩ := hc1.entry sv o release he
    obtain ⟨s0, s1, dep, hdep, hget⟩ := e1 n' cs ((List.Perm.mem_iff (ord1.perm _)).2 he)
    refine ⟨u, c, dep, hp, ?_, hget⟩
    rw [← hval s0, hdep]
  have htot : ∃ m2 sys2', resolveEntries sv o.call release g2.urls
      (ord2.order g2.constraints) [] sys2 = (.ok m2, sys2') := by
    apply resolveEntries_total
    intro e he
    obtain ⟨n, cs⟩ := e
    have he' : (n, cs) ∈ g2.constraints := (List.Perm.mem_iff (ord2.perm _)).1 he
    have hn2 : n ∈ g2.constraints.keys := List.mem_map_of_mem Prod.fst he'
    obtain ⟨u, c, dep, hp, hdep, _⟩ := hF n ((hk n).2 hn2)
    obtain ⟨u', c', hp', hval⟩ := hc2.entry sv o release he'
    rw [hp] at hp'
    simp only [Option.some.injEq, Prod.mk.injEq] at hp'
    refine ⟨dep, ?_⟩
    intro sys
    simp only
    rw [hval sys, ← hp'.1, ← hp'.2]
    exact hdep
  obtain ⟨m2, sys2', h2⟩ := htot
  refine ⟨m2, sys2', h2, ?_⟩
  obtain ⟨e2, e2'⟩ := resolveEntries_ok sv o.call release g2.urls _ [] sys2 m2 sys2' h2 hnd2
  intro n
  by_cases hn : n ∈ g2.constraints.keys
  · obtain ⟨e, he, hen⟩ := (mem_keys_iff g2.constraints n).1 hn
    obtain ⟨n', cs⟩ := e
    simp only at hen
    subst hen
    obtain ⟨u, c, dep, hp, hdep, hget1⟩ := hF n' ((hk n').2 hn)
    obtain ⟨u', c', hp', hval⟩ := hc2.entry sv o release he
    rw [hp] at hp'
    simp only [Option.some.injEq, Prod.mk.injEq] at hp'
    obtain ⟨s0, s1, dep2, hdep2, hget2⟩ := e2 n' cs ((List.Perm.mem_iff (ord2.perm _)).2 he)
    have := hval s0
    rw [hdep2, ← hp'.1, ← hp'.2, hdep] at this
    simp only [Outcome.ok.injEq] at this
    rw [hget1, hget2, this]
  · have hn1 : n ∉ g1.constraints.keys := fun h => hn ((hk n).1 h)
    have h2n : n ∉ (ord2.order g2.constraints).map Prod.fst := fun h =>
      hn ((List.Perm.mem_iff (List.Perm.map Prod.fst (ord2.perm _))).1 h)
    have h1n : n ∉ (ord1.order g1.constraints).map Prod.fst := fun h =>
      hn1 ((List.Perm.mem_iff (List.Perm.map Prod.fst (ord1.perm _))).1 h)
    rw [e2' n h2n, e1' n h1n]

end CanonicalConflicts

/-! ## C6: determinism of the lock output -/

section C6

variable {K C : Type} [LinearOrder K]

/-- C6 (as amended): for a fixed root manifest, fixed dependency manifests and a
fixed resolver, provided every package name is declared with one and the same
`url#constraint` string wherever it is declared, the name -> {url, version,
commit} map produced by discovery followed by conflict resolution does not
depend on the order in which the maps are iterated: when one order produces a
map, every other order (given at least as many loop iterations) produces a map
with the same entries. -/
theorem lock_output_order_independent (sv : Semver K C) (git : Git) (D : String → String)
    (ord1 ord2 : MapOrder) (fuel1 fuel2 : ℕ) (root : GoMap String) (fs1 fs2 : TempFS)
    (m1 : GoMap LockedDependency) (sys1 : Sys)
    (hcons : Consistent (resolveOracle sv git) parsePkgStr D root)
    (hfuel : fuel1 ≤ fuel2)
    (h1 : lockEntries sv git ord1 fuel1 (some root) { fs := fs1, trace := Trace.empty }
      = some (.ok m1, sys1)) :
    ∃ m2 sys2, lockEntries sv git ord2 fuel2 (some root) { fs := fs2, trace := Trace.empty }
        = some (.ok m2, sys2) ∧ ∀ n, m2.get? n = m1.get? n := by
  unfold lockEntries at h1
  generalize hD : discoverAllDependencies sv git ord1 fuel1 (some root)
    { fs := fs1, trace := Trace.empty } = R at h1
  cases R with
  | none => simp at h1
  | some r =>
    obtain ⟨out, s1⟩ := r
    cases out with
    | error e => simp at h1
    | panic => simp at h1
    | ok g1 =>
      simp only [Option.some.injEq] at h1
      unfold discoverAllDependencies at hD
      rw [resolveVersion_funext] at hD
      obtain ⟨g2, s2, hD2, hc1, hc2, hk⟩ :=
        discoverWith_order_independent ord1 ord2 hcons fuel2 fs2 hD hfuel
      unfold resolveConflicts at h1
      rw [resolveVersion_funext] at h1
      obtain ⟨m2, sys2, hR2, heq⟩ :=
        resolveEntries_canonical sv (resolveOracle sv git) true hc1 hc2 hk ord1 ord2 s1 s2
          sys1 m1 h1
      refine ⟨m2, sys2, ?_, heq⟩
      unfold lockEntries discoverAllDependencies
      rw [resolveVersion_funext, hD2]
      simp only
      unfold resolveConflicts
      rw [resolveVersion_funext, hR2]

theorem agreeing_consistent :
    Consistent (resolveOracle plainSemver agreeingGit) parsePkgStr agreeingDecl diamondRoot := by
  constructor
  · intro e he
    simp only [diamondRoot, List.mem_cons, List.mem_singleton, List.not_mem_nil, or_false] at he
    rcases he with rfl | rfl <;> decide
  · intro n u c p d _ ho hm e he
    obtain ⟨oc, hoc⟩ := resolveOracle_manifest plainSemver agreeingGit u c p ho
    rw [hoc] at hm
    simp only [agreeingGit] at hm
    by_cases h1 : u = "ua"
    · simp only [h1, if_true, ManifestFile.deps.injEq] at hm
      subst hm
      simp only [List.mem_singleton] at he
      subst he
      decide
    · by_cases h2 : u = "ub"
      · simp only [h2, if_true, ManifestFile.deps.injEq] at hm
        rw [if_neg (by decide)] at hm
        simp only [ManifestFile.deps.injEq] at hm
        subst hm
        simp only [List.mem_singleton] at he
        subst he
        decide
      · simp [h1, h2] at hm

/-- Witness of C6 (as amended): in the diamond where `A` and `B` both declare
`C` at `uc`, the run visiting maps in stored order produces three entries, and
the run visiting them in reverse order produces a map with the same entries. -/
theorem lock_output_order_independent_witness :
    ∃ m2 sys2, lockEntries plainSemver agreeingGit MapOrder.reversed 4 (some diamondRoot)
        { fs := [], trace := Trace.empty } = some (.ok m2, sys2) ∧
      ∀ n, m2.get? n = GoMap.get?
        [("A", ({ url := "ua", version := "1.0.0", commit := "commit-ua-1.0.0" } :
            LockedDependency)),
         ("B", { url := "ub", version := "1.0.0", commit := "commit-ub-1.0.0" }),
         ("C", { url := "uc", version := "1.0.0", commit := "commit-uc-1.0.0" })] n :=
  lock_output_order_independent plainSemver agreeingGit agreeingDecl MapOrder.stored
    MapOrder.reversed 4 4 diamondRoot [] [] _ _
    agreeing_consistent (by decide) rfl

/-- Counterexample to C6 as stated: with the same root manifest, the same
dependency manifests and the same resolver, visiting the maps in stored order
locks `C` at the URL `uc2`, visiting them in reverse order locks `C` at `uc1`
(the manifests of `A` and `B` declare `C` at different URLs). -/
theorem lock_output_depends_on_order :
    (lockEntries plainSemver diamondGit MapOrder.stored 4 (some diamondRoot) Sys.init).map
      (fun r => r.1.isOk) = some true ∧
    (lockEntries plainSemver diamondGit MapOrder.reversed 4 (some diamondRoot) Sys.init).map
      (fun r => r.1.isOk) = some true ∧
    (lockEntries plainSemver diamondGit MapOrder.stored 4 (some diamondRoot) Sys.init).map
      (fun r => match r.1 with
        | .ok m => m.get? "C"
        | _ => none) =
      some (some { url := "uc2", version := "1.0.0", commit := "commit-uc2-1.0.0" }) ∧
    (lockEntries plainSemver diamondGit MapOrder.reversed 4 (some diamondRoot) Sys.init).map
      (fun r => match r.1 with
        | .ok m => m.get? "C"
        | _ => none) =
      some (some { url := "uc1", version := "1.0.0", commit := "commit-uc1-1.0.0" }) := by
  refine ⟨by decide, by decide, by decide, by decide⟩

end C6

/-! ## The shape of the discovery graph -/

theorem GoMap.filter_key_of_nodup {β : Type} (n : String) :
    ∀ l : GoMap β, l.keys.Nodup →
      l.filter (fun e => e.1 = n) =
        match l.get? n with
        | none => []
        | some s => [(n, s)] := by
  intro l
  induction l with
  | nil => intro _; rfl
  | cons e l ih =>
    intro hnd
    obtain ⟨k, v⟩ := e
    simp only [GoMap.keys, List.map_cons, List.nodup_cons] at hnd
    by_cases hk : k = n
    · subst hk
      have hnone : GoMap.get? l k = none := (GoMap.get?_eq_none_iff l k).2 hnd.1
      have hrest := ih hnd.2
      rw [hnone] at hrest
      simp only at hrest
      simp [GoMap.get?, List.filter_cons, hrest]
    · have hrest := ih hnd.2
      simp [GoMap.get?, List.filter_cons, hk, hrest]

theorem GoMap.get?_perm {β : Type} {l d : GoMap β} (hp : l.Perm d) (hnd : d.keys.Nodup)
    (n : String) : l.get? n = d.get? n := by
  have hndl : l.keys.Nodup := (List.Perm.nodup_iff (List.Perm.map Prod.fst hp)).2 hnd
  cases hd : d.get? n with
  | none =>
    apply (GoMap.get?_eq_none_iff l n).2
    intro hm
    have := (List.Perm.mem_iff (List.Perm.map Prod.fst hp)).1 hm
    exact (GoMap.get?_eq_none_iff d n).1 hd this
  | some v =>
    have hmem : (n, v) ∈ d := by
      obtain ⟨e, he, hek⟩ := (mem_keys_iff d n).1 (GoMap.mem_keys_of_get? d n v hd)
      obtain ⟨k, x⟩ := e
      simp only at hek
      subst hek
      have := GoMap.get?_of_mem_nodup d k x hnd he
      rw [hd] at this
      cases this
      exact he
    exact GoMap.get?_of_mem_nodup l n v hndl ((List.Perm.mem_iff hp).2 hmem)

/-- The constraints that the declarations of one manifest contribute to a
name. -/
theorem declared_of_manifest (parse : String → Option (String × String))
    (requester : Option String) (n : String) :
    ∀ {l : List (String × String)} {ds : List Decl},
      List.Forall₂ (fun (e : String × String) (d : Decl) =>
        d.requester = requester ∧ d.name = e.1 ∧ parse e.2 = some (d.url, d.constraint)) l ds →
      (ds.filter (fun d => d.name = n)).map (fun d => d.constraint) =
        (l.filter (fun e => e.1 = n)).filterMap (fun e => (parse e.2).map Prod.snd) := by
  intro l ds h
  induction h with
  | nil => rfl
  | @cons e d l ds hab _ ih =>
    obtain ⟨_, hn, hp⟩ := hab
    by_cases hk : e.1 = n
    · have hdn : d.name = n := by rw [hn, hk]
      simp [List.filter_cons, hk, hdn, hp, ih]
    · have hdn : ¬ d.name = n := by rw [hn]; exact hk
      simp [List.filter_cons, hk, hdn, ih]

/-- The same, for a manifest with distinct keys ranged in any order. -/
theorem declared_of_manifest_nodup (parse : String → Option (String × String))
    (requester : Option String) (n : String) {l d : List (String × String)} {ds : List Decl}
    (hperm : l.Perm d) (hnd : (GoMap.keys d).Nodup)
    (h : List.Forall₂ (fun (e : String × String) (d : Decl) =>
      d.requester = requester ∧ d.name = e.1 ∧ parse e.2 = some (d.url, d.constraint)) l ds) :
    (ds.filter (fun d => d.name = n)).map (fun d => d.constraint) =
      (declaredConstraint parse n d).toList := by
  have hndl : (GoMap.keys l).Nodup :=
    (List.Perm.nodup_iff (List.Perm.map Prod.fst hperm)).2 hnd
  rw [declared_of_manifest parse requester n h, GoMap.filter_key_of_nodup n l hndl,
    GoMap.get?_perm hperm hnd n]
  unfold declaredConstraint
  cases hg : GoMap.get? d n with
  | none => rfl
  | some s =>
    cases hp : parse s with
    | none => simp [hp]
    | some uc => simp [hp]

theorem processedManifests_snoc (o : Oracle) (root : GoMap String)
    (calls : List (String × String)) (uc : String × String) :
    processedManifests o root (calls ++ [uc]) =
      processedManifests o root calls ++ (o.manifestOf uc).toList := by
  unfold processedManifests
  rw [List.filterMap_append]
  cases h : o.manifestOf uc with
  | none => simp [h]
  | some d => simp [h]

/-- A step records its probing call. -/
theorem Step.calls {o : Oracle} {parse : String → Option (String × String)} {ord : MapOrder}
    {st st' : DiscState} (hs : Step o parse ord st st') (hinv : DiscInv st) :
    ∃ name queue c0 cs p, st.queue = name :: queue ∧
      st.result.constraints.getList name = c0 :: cs ∧
      o (st.result.urls.getStr name) c0 = .ok p ∧
      st'.sys.trace.calls = st.sys.trace.calls ++ [(st.result.urls.getStr name, c0)] ∧
      ∃ l ds, st'.sys.trace.declared = st.sys.trace.declared ++ ds ∧
        ((p.manifest = .absent ∧ l = []) ∨ (∃ d, p.manifest = .deps d ∧ l.Perm d)) ∧
        List.Forall₂ (fun (e : String × String) (d : Decl) =>
          d.requester = some name ∧ d.name = e.1 ∧
            parse e.2 = some (d.url, d.constraint)) l ds := by
  obtain ⟨name, queue, c0, cs, p, hq, hc, ho, hcase⟩ := hs
  have hdq := dequeued_inv st name queue (st.result.urls.getStr name) c0 hinv hq
  rcases hcase with ⟨hm, rfl⟩ | ⟨d, hm, hda⟩
  · exact ⟨name, queue, c0, cs, p, hq, hc, ho, rfl, [], [], by simp [DiscState.dequeued],
      Or.inl ⟨hm, rfl⟩, List.Forall₂.nil⟩
  · have hreq : ∀ r, some name = some r →
        r ∈ (st.dequeued name queue (st.result.urls.getStr name) c0).sys.trace.probed := by
      intro r hr
      cases hr
      show name ∈ st.sys.trace.probed ++ [name]
      simp
    obtain ⟨_, _, _, hcl, ds, hds, hall⟩ :=
      declareAll_inv parse (some name) (ord.order d) _ st' hreq hdq hda
    exact ⟨name, queue, c0, cs, p, hq, hc, ho, hcl, ord.order d, ds, hds,
      Or.inr ⟨d, hm, ord.perm d⟩, hall⟩

/-- A step preserves the shape invariant when manifests have distinct keys. -/
theorem ShapeInv.shape_step {o : Oracle} {parse : String → Option (String × String)} {ord : MapOrder}
    {root : GoMap String} {st st' : DiscState}
    (hwm : ∀ url c p d, o url c = .ok p → p.manifest = .deps d → (GoMap.keys d).Nodup)
    (hinv : DiscInv st) (hsh : ShapeInv o parse root st) (hs : Step o parse ord st st') :
    ShapeInv o parse root st' := by
  obtain ⟨name, queue, c0, cs, p, _, _, ho, hcl, l, ds, hds, hl, hall⟩ := hs.calls hinv
  intro n
  rw [hds, hcl, processedManifests_snoc, List.filter_append, List.map_append,
    List.filterMap_append, hsh n]
  congr 1
  rcases hl with ⟨hm, hnil⟩ | ⟨d, hm, hperm⟩
  · subst hnil
    cases hall
    simp [Oracle.manifestOf, ho, hm]
  · rw [declared_of_manifest_nodup parse (some name) n hperm (hwm _ _ p d ho hm) hall]
    cases hdc : declaredConstraint parse n d with
    | none => simp [Oracle.manifestOf, ho, hm, hdc]
    | some c => simp [Oracle.manifestOf, ho, hm, hdc]

/-- The loop over the root dependencies establishes the shape invariant. -/
theorem ShapeInv.shape_init {o : Oracle} {parse : String → Option (String × String)} {ord : MapOrder}
    {root : GoMap String} {st : DiscState} {fs : TempFS} (hwr : (GoMap.keys root).Nodup)
    (h : declareAll parse none (ord.order root)
      (DiscState.init { fs := fs, trace := Trace.empty }) = some st) :
    DiscInv st ∧ ShapeInv o parse root st := by
  obtain ⟨hb, _, _, hcl, ds, hds, hall⟩ :=
    declareAll_inv parse none (ord.order root) _ st (by intro r hr; cases hr) (init_inv fs) h
  refine ⟨hb, ?_⟩
  intro n
  have hds' : st.sys.trace.declared = ds := by
    rw [hds]
    simp [DiscState.init, Trace.empty]
  have hcl' : st.sys.trace.calls = [] := by
    rw [hcl]
    rfl
  rw [hds', hcl', declared_of_manifest_nodup parse none n (ord.perm root) hwr hall]
  cases hdc : declaredConstraint parse n root with
  | none => simp [processedManifests, hdc]
  | some c => simp [processedManifests, hdc]

/-- The work-queue loop panics only on a declaration that does not parse: when
the declarations of every manifest the resolver can find parse, the access
`constraints[name][0]` is never out of range. -/
theorem discoverLoop_no_panic (o : Oracle) (parse : String → Option (String × String))
    (ord : MapOrder)
    (hparse : ∀ url c p d, o url c = .ok p → p.manifest = .deps d → ∀ e ∈ d, parse e.2 ≠ none) :
    ∀ (fuel : ℕ) (st : DiscState) (r : Outcome DiscoveryResult × Sys), DiscInv st →
      discoverLoop o.call parse ord fuel st = some r → r.1 ≠ .panic := by
  intro fuel
  induction fuel with
  | zero => intro st r _ h; simp [discoverLoop] at h
  | succ fuel ih =>
    intro st r hinv h
    rw [discoverLoop_succ] at h
    cases hq : st.queue with
    | nil =>
      simp only [hq, Option.some.injEq] at h
      subst h
      simp
    | cons name queue =>
      simp only [hq] at h
      have hname : name ∈ st.sys.trace.enqueued := by
        rw [hinv.enq, hq]
        simp
      have hne : st.result.constraints.getList name ≠ [] := by
        obtain ⟨d, hd, hdn⟩ := (hinv.dnames name).1 hname
        rw [hinv.cons name]
        intro he
        have : d.constraint ∈ (st.sys.trace.declared.filter (fun d => d.name = name)).map
            (fun d => d.constraint) := by
          apply List.mem_map_of_mem
          simp [List.mem_filter, hd, hdn]
        rw [he] at this
        cases this
      have hdq := dequeued_inv st name queue (st.result.urls.getStr name)
      cases hc : st.result.constraints.getList name with
      | nil => exact absurd hc hne
      | cons c0 cs =>
        simp only [hc] at h
        cases ho : o (st.result.urls.getStr name) c0 with
        | error e =>
          simp only [ho, Option.some.injEq] at h
          subst h
          simp
        | ok p =>
          simp only [ho] at h
          cases hm : p.manifest with
          | absent =>
            simp only [hm] at h
            exact ih _ r (hdq c0 hinv hq) h
          | unreadable =>
            simp only [hm, Option.some.injEq] at h
            subst h
            simp
          | deps d =>
            simp only [hm] at h
            obtain ⟨st1, hst1⟩ := declareAll_some parse (some name) (ord.order d)
              (st.dequeued name queue (st.result.urls.getStr name) c0)
              (fun e he => hparse _ _ p d ho hm e ((List.Perm.mem_iff (ord.perm d)).1 he))
            simp only [hst1] at h
            have hreq : ∀ r, some name = some r →
                r ∈ (st.dequeued name queue (st.result.urls.getStr name) c0).sys.trace.probed := by
              intro r hr
              cases hr
              show name ∈ st.sys.trace.probed ++ [name]
              simp
            obtain ⟨hinv1, _⟩ :=
              declareAll_inv parse (some name) (ord.order d) _ st1 hreq (hdq c0 hinv hq) hst1
            exact ih st1 r hinv1 h

/-- Discovery panics only on a declaration that does not parse. -/
theorem discoverWith_no_panic (o : Oracle) (parse : String → Option (String × String))
    (ord : MapOrder) (fuel : ℕ) (root : GoMap String) (fs : TempFS)
    (r : Outcome DiscoveryResult × Sys)
    (hroot : ∀ e ∈ root, parse e.2 ≠ none)
    (hparse : ∀ url c p d, o url c = .ok p → p.manifest = .deps d → ∀ e ∈ d, parse e.2 ≠ none)
    (h : discoverWith o.call parse ord fuel (some root)
      { fs := fs, trace := Trace.empty } = some r) : r.1 ≠ .panic := by
  rw [discoverWith_eq] at h
  simp only at h
  obtain ⟨st, hst⟩ := declareAll_some parse none (ord.order root)
    (DiscState.init { fs := fs, trace := Trace.empty })
    (fun e he => hroot e ((List.Perm.mem_iff (ord.perm root)).1 he))
  simp only [hst] at h
  obtain ⟨hinv, _⟩ :=
    declareAll_inv parse none (ord.order root) _ st (by intro r hr; cases hr) (init_inv fs) hst
  exact discoverLoop_no_panic o parse ord hparse fuel st r hinv h

theorem ParsePkgStr_eq : ParsePkgStr = parsePkgStr := by
  funext s
  rfl

theorem ParsedInv.parsed_step {o : Oracle} {parse : String → Option (String × String)} {ord : MapOrder}
    {root : GoMap String} {st st' : DiscState}
    (hinv : DiscInv st) (hpi : ParsedInv o parse root st) (hs : Step o parse ord st st') :
    ParsedInv o parse root st' := by
  obtain ⟨name, queue, c0, cs, p, _, _, ho, hcl, l, ds, _, hl, hall⟩ := hs.calls hinv
  intro d hd e he
  rw [hcl, processedManifests_snoc] at hd
  rcases List.mem_append.1 hd with hm | hm
  · exact hpi d hm e he
  · rcases hl with ⟨habs, _⟩ | ⟨d', hm', hperm⟩
    · simp [Oracle.manifestOf, ho, habs] at hm
    · simp only [Oracle.manifestOf, ho, hm', Option.toList, List.mem_singleton] at hm
      subst hm
      obtain ⟨dd, _, _, _, hp⟩ := forall₂_exists_right hall e ((List.Perm.mem_iff hperm).2 he)
      rw [hp]
      simp

theorem ParsedInv.parsed_init {o : Oracle} {parse : String → Option (String × String)} {ord : MapOrder}
    {root : GoMap String} {st : DiscState} {fs : TempFS}
    (h : declareAll parse none (ord.order root)
      (DiscState.init { fs := fs, trace := Trace.empty }) = some st) :
    ParsedInv o parse root st := by
  obtain ⟨_, _, _, hcl, _, _, _⟩ :=
    declareAll_inv parse none (ord.order root) _ st (by intro r hr; cases hr) (init_inv fs) h
  have hcl' : st.sys.trace.calls = [] := by
    rw [hcl]
    rfl
  intro d hd e he
  rw [hcl'] at hd
  simp only [processedManifests, List.filterMap_nil, List.mem_singleton] at hd
  subst hd
  exact declareAll_parses parse none _ _ st h e ((List.Perm.mem_iff (ord.perm d)).2 he)

/-- The final state of a successful discovery run over manifests with distinct
keys satisfies the base invariant, the shape invariant and has parsed every
declaration. -/
theorem discoverWith_shape {o : Oracle} {parse : String → Option (String × String)}
    {ord : MapOrder} {root : GoMap String} {fuel : ℕ} {fs : TempFS} {g : DiscoveryResult}
    {sys : Sys} (hwr : (GoMap.keys root).Nodup)
    (hwm : ∀ url c p d, o url c = .ok p → p.manifest = .deps d → (GoMap.keys d).Nodup)
    (h : discoverWith o.call parse ord fuel (some root)
      { fs := fs, trace := Trace.empty } = some (.ok g, sys)) :
    ∃ st, DiscInv st ∧ ShapeInv o parse root st ∧ ParsedInv o parse root st ∧
      st.queue = [] ∧ st.result = g ∧ st.sys = sys := by
  rw [discoverWith_eq] at h
  simp only at h
  cases hda : declareAll parse none (ord.order root)
      (DiscState.init { fs := fs, trace := Trace.empty }) with
  | none => simp [hda] at h
  | some st0 =>
    simp only [hda] at h
    obtain ⟨hb0, hs0⟩ := ShapeInv.shape_init (o := o) hwr hda
    have hp0 : ParsedInv o parse root st0 := ParsedInv.parsed_init hda
    obtain ⟨st, ⟨hb, hs, hp⟩, hq, hres, hsys⟩ :=
      discoverLoop_ok_rule o parse ord
        (fun st => DiscInv st ∧ ShapeInv o parse root st ∧ ParsedInv o parse root st)
        (by
          intro st st' hI hstep
          exact ⟨(hstep.effects hI.1).1, ShapeInv.shape_step hwm hI.1 hI.2.1 hstep,
            ParsedInv.parsed_step hI.1 hI.2.2 hstep⟩)
        fuel st0 g sys ⟨hb0, hs0, hp0⟩ h
    exact ⟨st, hb, hs, hp, hq, hres, hsys⟩

/-- The number of constraints a list of manifests contributes to a name is the
number of manifests that declare it, when every declaration parses. -/
theorem filterMap_declared_length (parse : String → Option (String × String)) (n : String) :
    ∀ ms : List (GoMap String), (∀ d ∈ ms, ∀ e ∈ d, parse e.2 ≠ none) →
      (ms.filterMap (declaredConstraint parse n)).length =
        (ms.filter (fun d => decide (n ∈ GoMap.keys d))).length := by
  intro ms
  induction ms with
  | nil => intro _; rfl
  | cons d ms ih =>
    intro h
    have hrest := ih (fun d' hd' => h d' (List.mem_cons_of_mem _ hd'))
    by_cases hn : n ∈ GoMap.keys d
    · obtain ⟨s, hs⟩ := GoMap.get?_of_mem_keys d n hn
      have hmem : (n, s) ∈ d := by
        clear hrest ih
        induction d with
        | nil => simp [GoMap.get?] at hs
        | cons e d ihd =>
          obtain ⟨k, v⟩ := e
          by_cases hk : k = n
          · simp [GoMap.get?, hk] at hs
            simp [hk, hs]
          · simp [GoMap.get?, hk] at hs
            have hn' : n ∈ GoMap.keys d := GoMap.mem_keys_of_get? d n s hs
            exact List.mem_cons_of_mem _
              (ihd (fun d' hd' => by
                rcases List.mem_cons.1 hd' with rfl | hm
                · intro e he
                  exact h _ (List.mem_cons_self _ _) e (List.mem_cons_of_mem _ he)
                · exact h d' (List.mem_cons_of_mem _ hm)) hn' hs)
      have hp := h d (List.mem_cons_self _ _) (n, s) hmem
      cases hps : parse s with
      | none => exact absurd hps hp
      | some uc =>
        have hdc : declaredConstraint parse n d = some uc.2 := by
          simp [declaredConstraint, hs, hps]
        simp [List.filterMap_cons, hdc, List.filter_cons, hn, hrest]
    · have hdc : declaredConstraint parse n d = none := by
        simp [declaredConstraint, (GoMap.get?_eq_none_iff d n).2 hn]
      simp [List.filterMap_cons, hdc, List.filter_cons, hn, hrest]

/-- Discovery makes one resolver call per probed name, and on success the probed
names are the enqueued names. -/
theorem discoverWith_calls_probed {o : Oracle} {parse : String → Option (String × String)}
    {ord : MapOrder} {root : GoMap String} {fuel : ℕ} {fs : TempFS} {g : DiscoveryResult}
    {sys : Sys}
    (h : discoverWith o.call parse ord fuel (some root)
      { fs := fs, trace := Trace.empty } = some (.ok g, sys)) :
    sys.trace.calls.length = sys.trace.probed.length ∧
      ∀ n, n ∈ g.urls.keys ↔ n ∈ sys.trace.probed := by
  rw [discoverWith_eq] at h
  simp only at h
  cases hda : declareAll parse none (ord.order root)
      (DiscState.init { fs := fs, trace := Trace.empty }) with
  | none => simp [hda] at h
  | some st0 =>
    simp only [hda] at h
    obtain ⟨hb0, _, hpb, hcl, _⟩ :=
      declareAll_inv parse none (ord.order root) _ st0 (by intro r hr; cases hr) (init_inv fs) hda
    have hl0 : st0.sys.trace.calls.length = st0.sys.trace.probed.length := by
      rw [hpb, hcl]
      rfl
    obtain ⟨st, ⟨hb, hl⟩, hq, hres, hsys⟩ :=
      discoverLoop_ok_rule o parse ord
        (fun st => DiscInv st ∧ st.sys.trace.calls.length = st.sys.trace.probed.length)
        (by
          intro st st' hI hstep
          obtain ⟨hinv', _, _, _, _, _, _, _, _, hp, _⟩ := hstep.effects hI.1
          obtain ⟨_, _, _, _, _, _, _, _, hc, _⟩ := hstep.calls hI.1
          refine ⟨hinv', ?_⟩
          rw [hp, hc, List.length_append, List.length_append, hI.2]
          rfl)
        fuel st0 g sys ⟨hb0, hl0⟩ h
    subst hsys
    subst hres
    refine ⟨hl, ?_⟩
    intro n
    rw [hb.ukeys n, hb.enq, hq, List.append_nil]

section Shape

variable {K C : Type} [LinearOrder K]

/-- C12: in the graph returned by a successful discovery (either copy of the
function) over manifests with distinct keys, the URL map and the constraint map
have the same keys, which are the probed names, one resolver call being made per
probed name; for each name the constraint list is, in order, the constraints
that the processed manifests (the root manifest, then the manifest found in the
checkout of every probing call) declare for it, so its length is the number of
those manifests that declare the name; every constraint list is non-empty, so
neither copy of conflict resolution panics on that graph, in any visiting
order; and when every declaration parses, discovery itself does not panic. -/
theorem discovery_graph_shape (sv : Semver K C) (git : Git) (o : Oracle) (ord ord' : MapOrder)
    (fuel : ℕ) (root : GoMap String) (fs : TempFS) (r : Outcome DiscoveryResult × Sys)
    (hwr : (GoMap.keys root).Nodup)
    (hwm : ∀ url c p d, o url c = .ok p → p.manifest = .deps d → (GoMap.keys d).Nodup)
    (hrun : DiscoverAllDependenciesWithResolver o.call ord fuel (some root)
        { fs := fs, trace := Trace.empty } = some r ∨
      (resolveOracle sv git = o ∧ discoverAllDependencies sv git ord fuel (some root)
        { fs := fs, trace := Trace.empty } = some r)) :
    (∀ g, r.1 = .ok g →
      (∀ n, n ∈ g.urls.keys ↔ n ∈ g.constraints.keys) ∧
      (∀ n, n ∈ g.urls.keys ↔ n ∈ r.2.trace.probed) ∧
      r.2.trace.calls.length = r.2.trace.probed.length ∧
      (∀ n, g.constraints.getList n =
        (processedManifests o root r.2.trace.calls).filterMap
          (declaredConstraint parsePkgStr n)) ∧
      (∀ n, (g.constraints.getList n).length =
        ((processedManifests o root r.2.trace.calls).filter
          (fun d => decide (n ∈ GoMap.keys d))).length) ∧
      (∀ e ∈ g.constraints, e.2 ≠ []) ∧
      (∀ sys, (ResolveConflicts sv o.call ord' g sys).1 ≠ .panic) ∧
      (∀ sys, (resolveConflicts sv git ord' g sys).1 ≠ .panic)) ∧
    ((∀ e ∈ root, parsePkgStr e.2 ≠ none) →
      (∀ url c p d, o url c = .ok p → p.manifest = .deps d →
        ∀ e ∈ d, parsePkgStr e.2 ≠ none) →
      r.1 ≠ .panic) := by
  have hrun' : discoverWith o.call parsePkgStr ord fuel (some root)
      { fs := fs, trace := Trace.empty } = some r := by
    rcases hrun with h | ⟨ho, h⟩
    · unfold DiscoverAllDependenciesWithResolver at h
      rw [ParsePkgStr_eq] at h
      exact h
    · unfold discoverAllDependencies at h
      rw [resolveVersion_funext, ho] at h
      exact h
  refine ⟨?_, fun hroot hparse =>
    discoverWith_no_panic o parsePkgStr ord fuel root fs r hroot hparse hrun'⟩
  intro g hg
  obtain ⟨out, sys⟩ := r
  simp only at hg
  subst hg
  obtain ⟨st, hb, hsh, hpi, _, hres, hsys⟩ := discoverWith_shape hwr hwm hrun'
  obtain ⟨hlen, hprobed⟩ := discoverWith_calls_probed hrun'
  subst hres
  subst hsys
  have hcons : ∀ n, st.result.constraints.getList n =
      (processedManifests o root st.sys.trace.calls).filterMap
        (declaredConstraint parsePkgStr n) := by
    intro n
    rw [hb.cons n]
    exact hsh n
  have hne : ∀ e ∈ st.result.constraints, e.2 ≠ [] := hb.cons_nonempty
  have hne' : ∀ e ∈ ord'.order st.result.constraints, e.2 ≠ [] := fun e he =>
    hne e ((List.Perm.mem_iff (ord'.perm st.result.constraints)).1 he)
  refine ⟨?_, hprobed, hlen, hcons, ?_, hne, ?_, ?_⟩
  · intro n
    rw [hb.ukeys n, hb.ckeys n]
  · intro n
    rw [hcons n]
    exact filterMap_declared_length parsePkgStr n _ hpi
  · intro sys
    exact (resolveEntries_effects sv o false st.result.urls
      (ord'.order st.result.constraints) [] sys).2.2.2 hne'
  · intro sys
    unfold resolveConflicts
    rw [resolveVersion_funext]
    exact (resolveEntries_effects sv (resolveOracle sv git) true st.result.urls
      (ord'.order st.result.constraints) [] sys).2.2.2 hne'

/-- Witness of C12: the root declares `A` and `B`, the manifest of `A` declares
`B` again; the constraint list of `B` in the returned graph has one entry for
the root manifest and one for the manifest of `A`. -/
theorem discovery_graph_shape_witness :
    (GoMap.keys [("A", "ua#^1.0.0"), ("B", "u1#^1.0.0")]).Nodup ∧
    GoMap.getList [("A", ["^1.0.0"]), ("B", ["^1.0.0", "^1.0.0"])] "B" =
      (processedManifests (resolveOracle plainSemver overwriteGit)
        [("A", "ua#^1.0.0"), ("B", "u1#^1.0.0")]
        [("ua", "^1.0.0"), ("u2", "^1.0.0")]).filterMap (declaredConstraint parsePkgStr "B") :=
  ⟨by decide,
   ((discovery_graph_shape plainSemver overwriteGit (resolveOracle plainSemver overwriteGit)
      MapOrder.stored MapOrder.stored 3 [("A", "ua#^1.0.0"), ("B", "u1#^1.0.0")] []
      (.ok { urls := [("A", "ua"), ("B", "u2")],
             constraints := [("A", ["^1.0.0"]), ("B", ["^1.0.0", "^1.0.0"])] },
        { fs := [],
          trace :=
            { declared :=
                [{ requester := none, name := "A", url := "ua", constraint := "^1.0.0" },
                 { requester := none, name := "B", url := "u1", constraint := "^1.0.0" },
                 { requester := some "A", name := "B", url := "u2", constraint := "^1.0.0" }],
              enqueued := ["A", "B"],
              probed := ["A", "B"],
              calls := [("ua", "^1.0.0"), ("u2", "^1.0.0")] } })
      (by decide)
      (by
        intro url c p d ho hm
        obtain ⟨oc, hoc⟩ := resolveOracle_manifest plainSemver overwriteGit url c p ho
        rw [hm] at hoc
        by_cases hu : url = "ua"
        · simp [overwriteGit, hu] at hoc
          subst hoc
          decide
        · simp [overwriteGit, hu] at hoc)
      (Or.inr ⟨rfl, by decide⟩)).1 _ rfl).2.2.2.1 "B"⟩

end Shape

/-! ## C2: both copies of conflict resolution -/

section Arbitration

variable {K C : Type} [LinearOrder K]

omit [LinearOrder K] in
/-- The outcome of the first loop over an oracle depends neither on the
transient directories nor on whether checkouts are removed. -/
theorem resolveEach_outcome (sv : Semver K C) (o : Oracle) (r1 r2 : Bool) (name url : String) :
    ∀ (cs : List String) (acc : List (Version K)) (sys1 sys2 : Sys),
      (resolveEach sv o.call r1 name url cs acc sys1).1 =
        (resolveEach sv o.call r2 name url cs acc sys2).1 := by
  intro cs
  induction cs with
  | nil =>
    intro acc sys1 sys2
    simp [resolveEach]
  | cons c cs ih =>
    intro acc sys1 sys2
    rw [resolveEach_cons, resolveEach_cons]
    cases ho : o url c with
    | error e => rfl
    | ok p =>
      simp only
      cases hv : sv.NewVersion p.label with
      | none => rfl
      | some v => exact ih _ _ _

/-- The outcome of the loop body for one name over an oracle depends neither on
the transient directories nor on whether checkouts are removed. -/
theorem resolveName_outcome (sv : Semver K C) (o : Oracle) (r1 r2 : Bool) (name url : String)
    (cs : List String) (sys1 sys2 : Sys) :
    (resolveName sv o.call r1 name url cs sys1).1 =
      (resolveName sv o.call r2 name url cs sys2).1 := by
  have he := resolveEach_outcome sv o r1 r2 name url cs [] sys1 sys2
  rw [resolveName_eq, resolveName_eq]
  generalize resolveEach sv o.call r1 name url cs [] sys1 = R1 at he
  generalize resolveEach sv o.call r2 name url cs [] sys2 = R2 at he
  obtain ⟨a1, s1⟩ := R1
  obtain ⟨a2, s2⟩ := R2
  simp only at he
  subst he
  cases a1 with
  | error e => rfl
  | ok l =>
    cases l with
    | nil => rfl
    | cons v0 vs =>
      simp only
      cases o url (highest v0 vs).original with
      | error e => rfl
      | ok p => rfl

/-- The outcome of the outer loop over an oracle depends neither on the
transient directories nor on whether checkouts are removed. -/
theorem resolveEntries_outcome (sv : Semver K C) (o : Oracle) (r1 r2 : Bool)
    (urls : GoMap String) :
    ∀ (entries : List (String × List String)) (acc : GoMap LockedDependency) (sys1 sys2 : Sys),
      (resolveEntries sv o.call r1 urls entries acc sys1).1 =
        (resolveEntries sv o.call r2 urls entries acc sys2).1 := by
  intro entries
  induction entries with
  | nil =>
    intro acc sys1 sys2
    rfl
  | cons e entries ih =>
    intro acc sys1 sys2
    obtain ⟨n, cs⟩ := e
    have hn := resolveName_outcome sv o r1 r2 n (urls.getStr n) cs sys1 sys2
    unfold resolveEntries
    generalize resolveName sv o.call r1 n (urls.getStr n) cs sys1 = R1 at hn
    generalize resolveName sv o.call r2 n (urls.getStr n) cs sys2 = R2 at hn
    obtain ⟨a1, s1⟩ := R1
    obtain ⟨a2, s2⟩ := R2
    simp only at hn
    subst hn
    cases a1 with
    | error e => rfl
    | panic => rfl
    | ok dep => exact ih _ _ _

/-- C2: for a package name whose constraint list is non-empty and resolves
successfully, each constraint to a label that parses as a semantic version,
the lock entry computed for the name has the URL of the graph, as version the
original string of the semantically highest resolved label (the first of them
on a tie), and as commit the commit returned by a further resolver call made
with that label as the constraint; this is the entry of the name in the map
returned by `conflicts.ResolveConflicts` and by `resolveConflicts`. The two
copies return the same outcome, map or error, on every graph; and when the
constraints of every name of the graph resolve in this way and the further
call on the highest label succeeds, both copies return a map, which holds that
entry for the name. -/
theorem conflict_arbitration (sv : Semver K C) (o : Oracle) (ord : MapOrder)
    (discovered : DiscoveryResult) (name : String) (cs : List String)
    (hnd : discovered.constraints.keys.Nodup)
    (hmem : (name, cs) ∈ discovered.constraints) (hcs : cs ≠ [])
    (hres : ∀ c ∈ cs, ∃ p v, o (discovered.urls.getStr name) c = .ok p ∧
      sv.NewVersion p.label = some v) :
    ∃ winner, IsFirstHighest sv (o.labels (discovered.urls.getStr name) cs) winner ∧
      (∀ (release : Bool) (sys : Sys),
        (resolveName sv o.call release name (discovered.urls.getStr name) cs sys).1 =
          match o (discovered.urls.getStr name) winner with
          | .error e => .error e
          | .ok p => .ok { url := discovered.urls.getStr name, version := winner,
                           commit := p.commit }) ∧
      (∀ sys m sys', ResolveConflicts sv o.call ord discovered sys = (.ok m, sys') →
        ∃ p, o (discovered.urls.getStr name) winner = .ok p ∧
          m.get? name = some { url := discovered.urls.getStr name, version := winner,
                               commit := p.commit }) ∧
      (∀ git sys m sys', resolveOracle sv git = o →
        resolveConflicts sv git ord discovered sys = (.ok m, sys') →
        ∃ p, o (discovered.urls.getStr name) winner = .ok p ∧
          m.get? name = some { url := discovered.urls.getStr name, version := winner,
                               commit := p.commit }) ∧
      (∀ git sys1 sys2, resolveOracle sv git = o →
        (ResolveConflicts sv o.call ord discovered sys1).1 =
          (resolveConflicts sv git ord discovered sys2).1) ∧
      ((∀ e ∈ discovered.constraints, e.2 ≠ [] ∧
          (∀ c ∈ e.2, ∃ p v, o (discovered.urls.getStr e.1) c = .ok p ∧
            sv.NewVersion p.label = some v) ∧
          (∀ w, IsFirstHighest sv (o.labels (discovered.urls.getStr e.1) e.2) w →
            ∃ p, o (discovered.urls.getStr e.1) w = .ok p)) →
        ∃ p, o (discovered.urls.getStr name) winner = .ok p ∧
          (∀ sys, ∃ m sys', ResolveConflicts sv o.call ord discovered sys = (.ok m, sys') ∧
            m.get? name = some { url := discovered.urls.getStr name, version := winner,
                                 commit := p.commit }) ∧
          (∀ git sys, resolveOracle sv git = o →
            ∃ m sys', resolveConflicts sv git ord discovered sys = (.ok m, sys') ∧
              m.get? name = some { url := discovered.urls.getStr name, version := winner,
                                   commit := p.commit })) := by
  obtain ⟨winner, hfh, hw⟩ :=
    resolveName_oracle sv o name (discovered.urls.getStr name) cs hcs hres
  have hexp : ∀ (release : Bool) sys m sys',
      resolveEntries sv o.call release discovered.urls (ord.order discovered.constraints) [] sys
        = (.ok m, sys') →
      ∃ p, o (discovered.urls.getStr name) winner = .ok p ∧
        m.get? name = some { url := discovered.urls.getStr name, version := winner,
                             commit := p.commit } := fun release sys m sys' hok =>
    resolveEntries_entry sv o release ord discovered name cs winner hnd hmem hw sys m sys' hok
  refine ⟨winner, hfh, hw, hexp false, ?_, ?_, ?_⟩
  · intro git sys m sys' hgit hok
    unfold resolveConflicts at hok
    rw [resolveVersion_funext, hgit] at hok
    exact hexp true sys m sys' hok
  · intro git sys1 sys2 hgit
    unfold ResolveConflicts resolveConflicts
    rw [resolveVersion_funext, hgit]
    exact resolveEntries_outcome sv o false true discovered.urls _ [] sys1 sys2
  · intro hall
    have htot : ∀ (release : Bool) (sys : Sys), ∃ m sys',
        resolveEntries sv o.call release discovered.urls (ord.order discovered.constraints) []
          sys = (.ok m, sys') := by
      intro release sys
      apply resolveEntries_total
      intro e he
      have he' : e ∈ discovered.constraints := (List.Perm.mem_iff (ord.perm _)).1 he
      obtain ⟨hne, hr, hwin⟩ := hall e he'
      obtain ⟨w, hwf, hwo⟩ :=
        resolveName_oracle sv o e.1 (discovered.urls.getStr e.1) e.2 hne hr
      obtain ⟨p, hp⟩ := hwin w hwf
      refine ⟨{ url := discovered.urls.getStr e.1, version := w, commit := p.commit }, ?_⟩
      intro sys0
      rw [hwo release sys0, hp]
    obtain ⟨m0, sys0, h0⟩ := htot false Sys.init
    obtain ⟨p, hp, _⟩ := hexp false Sys.init m0 sys0 h0
    refine ⟨p, hp, ?_, ?_⟩
    · intro sys
      obtain ⟨m, sys', hm⟩ := htot false sys
      obtain ⟨p', hp', hget⟩ := hexp false sys m sys' hm
      rw [hp] at hp'
      cases hp'
      exact ⟨m, sys', hm, hget⟩
    · intro git sys hgit
      obtain ⟨m, sys', hm⟩ := htot true sys
      obtain ⟨p', hp', hget⟩ := hexp true sys m sys' hm
      rw [hp] at hp'
      cases hp'
      refine ⟨m, sys', ?_, hget⟩
      unfold resolveConflicts
      rw [resolveVersion_funext, hgit]
      exact hm

/-- Witness of C2: constraints `^1.0.0` and `^2.0.0` resolving to 1.5.0 and
2.1.0 give version 2.1.0 with the commit of the resolution of `2.1.0`, in the
map returned by `resolveConflicts` and in the map returned by
`conflicts.ResolveConflicts`. -/
theorem conflict_arbitration_witness :
    (resolveConflicts plainSemver conflictGit MapOrder.stored conflictGraph Sys.init).1
      = .ok [("P", { url := "u", version := "2.1.0", commit := "commit-2.1.0" })] ∧
    (ResolveConflicts plainSemver (resolveOracle plainSemver conflictGit).call MapOrder.stored
        conflictGraph Sys.init).1
      = .ok [("P", { url := "u", version := "2.1.0", commit := "commit-2.1.0" })] ∧
    (resolveOracle plainSemver conflictGit).labels "u" ["^1.0.0", "^2.0.0"]
      = ["1.5.0", "2.1.0"] ∧
    ∃ winner, IsFirstHighest plainSemver
        ((resolveOracle plainSemver conflictGit).labels "u" ["^1.0.0", "^2.0.0"]) winner ∧
      ∃ p, resolveOracle plainSemver conflictGit "u" winner = .ok p ∧
        GoMap.get? [("P", ({ url := "u", version := "2.1.0", commit := "commit-2.1.0" } :
          LockedDependency))] "P" = some { url := "u", version := winner, commit := p.commit } ∧
        ∃ m sys', ResolveConflicts plainSemver (resolveOracle plainSemver conflictGit).call
            MapOrder.stored conflictGraph Sys.init = (.ok m, sys') ∧
          m.get? "P" = some { url := "u", version := winner, commit := p.commit } := by
  have hres : ∀ c ∈ ["^1.0.0", "^2.0.0"], ∃ p v,
      resolveOracle plainSemver conflictGit "u" c = .ok p ∧
        plainSemver.NewVersion p.label = some v := by
    intro c hc
    simp only [List.mem_cons, List.mem_singleton, List.not_mem_nil, or_false] at hc
    rcases hc with rfl | rfl
    · exact ⟨{ label := "1.5.0", commit := "commit-1.5.0", manifest := .absent },
        { key := PlainKey.mk 1 5 0, original := "1.5.0" }, by decide, by decide⟩
    · exact ⟨{ label := "2.1.0", commit := "commit-2.1.0", manifest := .absent },
        { key := PlainKey.mk 2 1 0, original := "2.1.0" }, by decide, by decide⟩
  refine ⟨by decide, by decide, by decide, ?_⟩
  obtain ⟨winner, h1, _, _, h4, _, h6⟩ :=
    conflict_arbitration plainSemver (resolveOracle plainSemver conflictGit) MapOrder.stored
      conflictGraph "P" ["^1.0.0", "^2.0.0"] (by decide) (by decide) (by decide) hres
  obtain ⟨p, hp, hget⟩ :=
    h4 conflictGit Sys.init
      [("P", { url := "u", version := "2.1.0", commit := "commit-2.1.0" })]
      (resolveConflicts plainSemver conflictGit MapOrder.stored conflictGraph Sys.init).2
      rfl (by decide)
  have hall : ∀ e ∈ conflictGraph.constraints, e.2 ≠ [] ∧
      (∀ c ∈ e.2, ∃ p v, resolveOracle plainSemver conflictGit
          (conflictGraph.urls.getStr e.1) c = .ok p ∧
        plainSemver.NewVersion p.label = some v) ∧
      (∀ w, IsFirstHighest plainSemver
          ((resolveOracle plainSemver conflictGit).labels
            (conflictGraph.urls.getStr e.1) e.2) w →
        ∃ p, resolveOracle plainSemver conflictGit (conflictGraph.urls.getStr e.1) w
          = .ok p) := by
    intro e he
    have he' : e = ("P", ["^1.0.0", "^2.0.0"]) := by
      simpa [conflictGraph] using he
    subst he'
    refine ⟨by decide, hres, ?_⟩
    intro w hw
    have hmemw := hw.winner_mem
    have hl : (resolveOracle plainSemver conflictGit).labels "u" ["^1.0.0", "^2.0.0"]
        = ["1.5.0", "2.1.0"] := by decide
    have hmemw' : w ∈ ["1.5.0", "2.1.0"] := by
      rw [← hl]
      exact hmemw
    simp only [List.mem_cons, List.mem_singleton, List.not_mem_nil, or_false] at hmemw'
    rcases hmemw' with rfl | rfl
    · exact ⟨{ label := "1.5.0", commit := "commit-1.5.0", manifest := .absent }, by decide⟩
    · exact ⟨{ label := "2.1.0", commit := "commit-2.1.0", manifest := .absent }, by decide⟩
  obtain ⟨p2, hp2, hboth, _⟩ := h6 hall
  rw [hp] at hp2
  cases hp2
  obtain ⟨m, sys', hm, hmget⟩ := hboth Sys.init
  exact ⟨winner, h1, p, hp, hget, m, sys', hm, hmget⟩

end Arbitration

/-! ## C11: the cache of `installPackage` -/

/-- The 12 first bytes of a commit that starts with a string of 12 bytes
without separator are that string. -/
theorem plainPrefix_append (p rest : String) (hlen : byteLength p = 12)
    (hsep : '/' ∉ p.toList) :
    sliceBytes 12 (p ++ rest).toList = some p.toList ∧ plainPrefix (p ++ rest) = true ∧
      ¬ byteLength (p ++ rest) < 12 := by
  have hs : sliceBytes 12 (p ++ rest).toList = some p.toList := by
    have hl : (p ++ rest).toList = p.toList ++ rest.toList := by
      simp [String.toList, String.data_append]
    have := sliceBytes_append p.toList rest.toList
    rw [hl]
    unfold byteLength at hlen
    rw [hlen] at this
    exact this
  refine ⟨hs, ?_, ?_⟩
  · unfold plainPrefix
    rw [hs]
    simpa using hsep
  · rw [byteLength_append, hlen]
    omega

/-- A successful run of the body of `installPackage` on a cache entry and a
modules entry leaves a tree at the cache entry. -/
theorem installEntries_ok_cached (git : Git) (env : Env) (name url commit key k n : String)
    (disk disk1 : Disk)
    (h1 : installEntries git env name url commit key (.cache k) (.modules n) disk
      = (.ok (), disk1)) :
    ∃ tree, disk1.cache.get? k = some tree := by
  unfold installEntries at h1
  cases hc : disk.entry (.cache k) with
  | some tree =>
    simp only [hc] at h1
    by_cases hcp : env.copyToModules name = false
    · simp [hcp] at h1
    simp only [hcp, Bool.true_eq_false, if_false, Prod.mk.injEq, true_and] at h1
    subst h1
    exact ⟨tree, hc⟩
  | none =>
    simp only [hc] at h1
    by_cases hm : git.mkdirTemp = false
    · simp [hm] at h1
    by_cases hcl : git.clone url = false
    · simp [hm, hcl] at h1
    by_cases hco : git.checkout url commit = false
    · simp [hm, hcl, hco] at h1
    by_cases hst : env.stripGit = false
    · simp [hm, hcl, hco, hst] at h1
    by_cases hcc : env.copyToCache key = false
    · simp [hm, hcl, hco, hst, hcc] at h1
    by_cases hcp : env.copyToModules name = false
    · simp [hm, hcl, hco, hst, hcc, hcp] at h1
    simp only [hm, hcl, hco, hst, hcc, hcp, Bool.true_eq_false, if_false, Prod.mk.injEq,
      true_and] at h1
    subst h1
    exact ⟨{ url := url, commit := commit }, GoMap.get?_set_self _ _ _⟩

/-- With a tree at the cache entry, the body of `installPackage` only copies
that tree to the modules entry. -/
theorem installEntries_cached (git : Git) (env : Env) (name url commit key k : String)
    (disk : Disk) (tree : Tree) (hc : disk.cache.get? k = some tree) :
    installEntries git env name url commit key (.cache k) (.modules name) disk
      = copyFromCache env name tree disk := by
  have he : disk.entry (.cache k) = some tree := hc
  unfold installEntries copyFromCache
  simp only [he]
  rfl

section CacheInstall

variable {K C : Type} [LinearOrder K]

/-- A successful `InstallDependencies` whose lockfile lists only plain names and
plain commit prefixes neither removes nor changes a cache entry. -/
theorem InstallDependencies_cache_kept (sv : Semver K C) (git : Git) (env : Env)
    (ord : MapOrder) (fuel : ℕ) (up : Bool) (disk disk' : Disk)
    (h : InstallDependencies sv git env ord fuel up disk = some (.ok (), disk'))
    (hsafe : ∀ lock, disk'.lock = some lock → PlainLock lock) : CacheKept disk disk' := by
  unfold InstallDependencies at h
  by_cases hrm : env.removeModules = false
  · simp [hrm] at h
  simp only [hrm, Bool.true_eq_false, if_false] at h
  generalize discoverAllDependencies sv git ord fuel
    (disk.config.map (fun cfg => cfg.dependencies)) disk.sys = D at h
  cases D with
  | none => cases h
  | some d =>
    obtain ⟨out, sys1⟩ := d
    cases out with
    | error e => simp at h
    | panic => simp at h
    | ok discovered =>
      simp only at h
      have hRC : resolveConflicts sv git ord discovered sys1 =
          resolveEntries sv (resolveVersion sv git) true discovered.urls
            (ord.order discovered.constraints) [] sys1 := rfl
      rw [hRC] at h
      generalize hR : resolveEntries sv (resolveVersion sv git) true discovered.urls
        (ord.order discovered.constraints) [] sys1 = RC at h
      obtain ⟨out2, sys2⟩ := RC
      cases out2 with
      | error e => simp at h
      | panic => simp at h
      | ok finalDeps =>
        simp only at h
        by_cases hmk : env.mkdirModules = false
        · simp [hmk] at h
        simp only [hmk, Bool.true_eq_false, if_false] at h
        have hndF : finalDeps.keys.Nodup :=
          resolveEntries_keys_nodup sv _ true discovered.urls _ [] sys1 sys2 finalDeps hR
            (by simp [GoMap.keys])
        have hndL : ((ord.order finalDeps).map Prod.fst).Nodup :=
          (List.Perm.nodup_iff (List.Perm.map Prod.fst (ord.perm finalDeps))).2 hndF
        have hlk := installAll_ok_lock git env (ord.order finalDeps) []
          { disk with modules := some [], sys := sys2 }
        have hpl := installAll_plain git env (ord.order finalDeps) []
          { disk with modules := some [], sys := sys2 }
        generalize installAll git env (ord.order finalDeps) []
          { disk with modules := some [], sys := sys2 } = IA at h hlk hpl
        obtain ⟨out3, disk2⟩ := IA
        simp only at hlk hpl
        cases out3 with
        | error e => simp at h
        | panic => simp at h
        | ok newLockFile =>
          simp only at h
          by_cases hsl : env.saveLockfile = false
          · simp [hsl] at h
          simp only [hsl, Bool.true_eq_false, if_false] at h
          by_cases hcm : env.writeCMake = false
          · simp [hcm] at h
          simp only [hcm, Bool.true_eq_false, if_false] at h
          cases hcfg : disk2.config with
          | none => simp [hcfg] at h
          | some rootCfg =>
            simp only [hcfg] at h
            cases hh : runHooks env rootCfg with
            | error e => simp [hh] at h
            | ok u =>
              simp only [hh, Option.some.injEq, Prod.mk.injEq, true_and] at h
              subst h
              have hPL : PlainLock newLockFile := hsafe newLockFile rfl
              have hl : ∀ e ∈ ord.order finalDeps,
                  plainComponent e.1 = true ∧ plainPrefix e.2.commit = true := fun e he =>
                hPL (e.1, e.2) (GoMap.mem_of_get? _ _ _ ((hlk newLockFile rfl hndL).1 e he))
              obtain ⟨_, _, p3⟩ := hpl hl
              exact fun k t hk => p3 k t hk

/-- A successful `UninstallPackage` whose lockfile lists only plain names and
plain commit prefixes neither removes nor changes a cache entry. -/
theorem UninstallPackage_cache_kept (sv : Semver K C) (git : Git) (env : Env)
    (ord : MapOrder) (fuel : ℕ) (name : String) (disk disk' : Disk)
    (h : UninstallPackage sv git env ord fuel name disk = some (.ok (), disk'))
    (hsafe : ∀ lock, disk'.lock = some lock → PlainLock lock) : CacheKept disk disk' := by
  unfold UninstallPackage at h
  cases hcfg : disk.config with
  | none => simp [hcfg] at h
  | some cfg =>
    simp only [hcfg] at h
    cases hg : cfg.dependencies.get? name with
    | none => simp [hg] at h
    | some v =>
      simp only [hg] at h
      by_cases hs : env.saveConfig = false
      · simp [hs] at h
      simp only [hs, Bool.true_eq_false, if_false] at h
      have hk := InstallDependencies_cache_kept sv git env ord fuel false _ disk' h hsafe
      exact fun k t hkt => hk k t hkt

/-- `AddNewPackage` leaves the cache as it was. -/
theorem AddNewPackage_cache_kept (env : Env) (pkgStr : String) (disk : Disk) :
    CacheKept disk (AddNewPackage env pkgStr disk).2 := by
  unfold AddNewPackage
  split
  · exact CacheKept.kept_refl disk
  · split
    · simp only
      split
      · exact CacheKept.kept_refl disk
      · exact fun _ _ hk => hk
    · exact CacheKept.kept_refl disk

/-- C11 (as amended): for a name that is a single path component and a commit
that starts with a string `p` of 12 bytes without separator, a successful
`installPackage(name, url, commit)` leaves a cache entry under the key
`name + "-" + p`; on every later state that has kept the cache entries,
`installPackage` with the same name and a commit with the same 12 first bytes,
whatever the URL, the revision source and the outcomes of the file-system
steps, does exactly what copying that entry to the entry `name` of
`cpp_modules` does: no transient directory is made and nothing is cloned. The
cache entries are kept by `installPackage` on plain names and commit prefixes,
by `AddNewPackage`, and by every successful `InstallDependencies` and
`UninstallPackage` whose lockfile lists only plain names and commit
prefixes. -/
theorem installPackage_cache_idempotent (sv : Semver K C) (git : Git) (env : Env)
    (name url p rest : String) (disk disk1 : Disk)
    (hname : plainComponent name = true) (hlen : byteLength p = 12) (hsep : '/' ∉ p.toList)
    (h1 : installPackage git env name url (p ++ rest) disk = (.ok (), disk1)) :
    (∃ tree, disk1.cache.get? (name ++ "-" ++ p) = some tree ∧
      ∀ disk2, CacheKept disk1 disk2 →
        ∀ (git2 : Git) (env2 : Env) (url2 rest2 : String),
          installPackage git2 env2 name url2 (p ++ rest2) disk2 =
            copyFromCache env2 name tree disk2) ∧
    (∀ (git2 : Git) (env2 : Env) (n u c : String) (d : Disk),
      plainComponent n = true → plainPrefix c = true →
      CacheKept d (installPackage git2 env2 n u c d).2) ∧
    (∀ (git2 : Git) (env2 : Env) (ord : MapOrder) (fuel : ℕ) (up : Bool) (d d' : Disk),
      InstallDependencies sv git2 env2 ord fuel up d = some (.ok (), d') →
      (∀ lock, d'.lock = some lock → PlainLock lock) → CacheKept d d') ∧
    (∀ (git2 : Git) (env2 : Env) (ord : MapOrder) (fuel : ℕ) (n : String) (d d' : Disk),
      UninstallPackage sv git2 env2 ord fuel n d = some (.ok (), d') →
      (∀ lock, d'.lock = some lock → PlainLock lock) → CacheKept d d') ∧
    (∀ (env2 : Env) (pkgStr : String) (d : Disk),
      CacheKept d (AddNewPackage env2 pkgStr d).2) := by
  have hform : ∀ (g : Git) (e : Env) (u r : String) (d : Disk),
      installPackage g e name u (p ++ r) d =
        installEntries g e name u (p ++ r) (name ++ "-" ++ p)
          (.cache (name ++ "-" ++ p)) (.modules name) d := by
    intro g e u r d
    obtain ⟨hs, hpp, hnl⟩ := plainPrefix_append p r hlen hsep
    obtain ⟨q, hq, _, _, heq⟩ := installPackage_plain g e name u (p ++ r) d hname hpp
    rw [hs] at hq
    cases hq
    rw [heq, if_neg hnl]
    rfl
  rw [hform] at h1
  obtain ⟨tree, hc⟩ := installEntries_ok_cached git env name url (p ++ rest) _ _ _ disk disk1 h1
  refine ⟨⟨tree, hc, ?_⟩,
    fun git2 env2 n u c d hn hcp => (installPackage_frame git2 env2 n u c d hn hcp).2.2,
    fun git2 env2 ord fuel up d d' h hs =>
      InstallDependencies_cache_kept sv git2 env2 ord fuel up d d' h hs,
    fun git2 env2 ord fuel n d d' h hs =>
      UninstallPackage_cache_kept sv git2 env2 ord fuel n d d' h hs,
    AddNewPackage_cache_kept⟩
  intro disk2 hk git2 env2 url2 rest2
  rw [hform]
  exact installEntries_cached git2 env2 name url2 (p ++ rest2) _ _ disk2 tree (hk _ _ hc)

/-- Witness of C11 (as amended): `P` is installed from `u` into a project with
an empty cache; installing `P` at the same commit again, with a revision source
where every clone fails and another URL, copies the cache entry. -/
theorem installPackage_cache_idempotent_witness :
    installPackage sampleGit Env.allOk "P" "u" ("commit-1.2.3" ++ "-abcdef") sharedDisk =
      (.ok (), cachedDisk) ∧
    ∃ tree, cachedDisk.cache.get? "P-commit-1.2.3" = some tree ∧
      installPackage unreachableGit Env.allOk "P" "elsewhere" ("commit-1.2.3" ++ "-abcdef")
        cachedDisk = copyFromCache Env.allOk "P" tree cachedDisk :=
  ⟨by decide,
   match (installPackage_cache_idempotent plainSemver sampleGit Env.allOk "P" "u"
      "commit-1.2.3" "-abcdef" sharedDisk cachedDisk (by decide) (by decide) (by decide)
      (by decide)).1 with
   | ⟨tree, hc, hl⟩ =>
     ⟨tree, hc, hl cachedDisk (fun _ _ h => h) unreachableGit Env.allOk "elsewhere" "-abcdef"⟩⟩

/-- Counterexample to C11 as stated: the name `../cpp_modules/y` makes the cache
path `filepath.Join(".cppkg_cache", key)` the entry `y-commit-1.2.3` of
`cpp_modules`. A first `installPackage` succeeds and leaves the cache empty;
the next `InstallDependencies` removes `cpp_modules`, and a later
`installPackage` with the same name and commit clones again: with a revision
source where every clone fails it returns the error of the clone. -/
theorem installPackage_refetches_escaping_name :
    installPackage sampleGit Env.allOk "../cpp_modules/y" "u" "commit-1.2.3-abcdef" sharedDisk =
      (.ok (), { sharedDisk with
        modules := some [("y-commit-1.2.3", { url := "u", commit := "commit-1.2.3-abcdef" }),
                         ("y", { url := "u", commit := "commit-1.2.3-abcdef" })] }) ∧
    (InstallDependencies plainSemver sampleGit Env.allOk MapOrder.stored 3 false
        { sharedDisk with
          modules := some [("y-commit-1.2.3", { url := "u", commit := "commit-1.2.3-abcdef" }),
                           ("y", { url := "u", commit := "commit-1.2.3-abcdef" })] }).map
      (fun r => (r.1, r.2.cache.get? "y-commit-1.2.3",
        (installPackage unreachableGit Env.allOk "../cpp_modules/y" "u" "commit-1.2.3-abcdef"
          r.2).1)) =
      some (.ok (), none, .error (.clone "u")) := by
  refine ⟨by decide, by rfl⟩

end CacheInstall

end Cppkg
